import Mathlib

/-!
MathInterpreter, `math_expr_parser.cpp`.

A shallow embedding of the class `MathExprParser` (conversion of an expression
to reverse polish notation by the shunting-yard method, evaluation of the
reverse polish notation on a number stack, substitution of variables) and
theorems about it.

* A `std::string` is the list of its characters.
* An iterator into a string is the string together with an index.
* `double` is an abstract carrier `α` with the operations of `<cmath>` that
  the source calls, collected in `Arith α`.  On a token that it converts,
  `std::stod` yields a value or throws `std::out_of_range`.  The instance
  `exact` is the arithmetic of the whole numbers of `double`, with the
  rounding and the overflow of IEEE 754 binary64.
* An execution ends by returning, by throwing one of the exception classes of
  the parser or `std::out_of_range`, or in undefined behaviour (`Outcome`).
* The `while` loop of `m_make_rpn` and the replacement loop of `calculate` run
  on fuel; `none` stands for fuel that ran out.
-/

namespace MathExprParser

/-! ## Data model -/

/-- A `std::string`, as the list of its characters. -/
abbrev Str := List Char

/-- The exceptions that leave the parser: its own exception classes, and
`std::out_of_range`, which `std::stod` throws on a numeral outside the range of
`double` and which no handler of the parser catches. -/
inductive Exn where
  | BAD_INIT
  | UNKNOWN_VARIABLE (name : Str)
  | UNCLOSED_RPARENTHESIS
  | UNCLOSED_LPARENTHESIS
  | BAD_RPN
  | INPUT_EXPR_SYNTAX_ERROR
  | STD_OUT_OF_RANGE
  deriving DecidableEq, Repr

/-- How an execution ends: it returns `r`, it throws `e`, or it runs into
undefined behaviour (a read outside a string, `top()` of an empty stack). -/
inductive Outcome (ρ : Type) where
  | ret (r : ρ)
  | thrown (e : Exn)
  | undefined
  deriving DecidableEq, Repr

/-- Modelled from the spec: the enumeration `FUNCTION` of `math_expr_parser.h`,
which is not among the sources.  Its members are the ones `m_isFunction` and
`m_calc_function` name; `NONE` is the member that converts to `false` in
`if(auto func = m_isFunction(token))`. -/
inductive FUNCTION where
  | NONE | LOG | LOG10 | SIN | COS | TAN | COT | ASIN | ACOS | ATAN | ATAN2
  | ACOT | DEG | RAD | SQRT | EXP | ABS
  deriving DecidableEq, Repr

/-- The arithmetic of `double` that the source relies on: `std::stod`,
`std::to_string`, the operators, the functions of `<cmath>` and the constant
`PI` of the header.  On a token that `std::stod` converts (see `stodAccepts`),
`stod t` is `some v` when `std::stod` returns `v` and `none` when it throws
`std::out_of_range`, the numeral being outside the range of `double`.  The
numerals of one digit are within the range (`stod_digit`). -/
structure Arith (α : Type) where
  stod : Str → Option α
  stod_digit : ∀ c ∈ ['0', '1', '2', '3', '4', '5', '6', '7', '8', '9'],
    (stod [c]).isSome = true
  to_string : α → Str
  ofNat : Nat → α
  PI : α
  add : α → α → α
  sub : α → α → α
  mul : α → α → α
  div : α → α → α
  fmod : α → α → α
  pow : α → α → α
  log : α → α
  log10 : α → α
  sin : α → α
  cos : α → α
  tan : α → α
  asin : α → α
  acos : α → α
  atan : α → α
  sqrt : α → α
  exp : α → α
  abs : α → α

/-- One element of `vector_Var`: a variable name and its value. -/
structure Var (α : Type) where
  name : Str
  value : α

/-- The data members of a `MathExprParser`. -/
structure Parser where
  m_inputExpr : Str
  m_rpn : Str
  deriving DecidableEq, Repr

/-! ## Strings and streams -/

/-- The single quote, the variable identifier character. -/
def quote : Char := Char.ofNat 39

/-- The white space of the C locale, which `operator>>` skips. -/
def isspace (c : Char) : Bool :=
  c == ' ' || c == Char.ofNat 9 || c == Char.ofNat 10 || c == Char.ofNat 11
    || c == Char.ofNat 12 || c == Char.ofNat 13

/-- The tokens that `while(iss >> token)` reads from the rest of a stream;
`cur` is the token being read. -/
def readTokens : Str → Str → List Str
  | [], cur => if cur.isEmpty then [] else [cur]
  | c :: cs, cur =>
    if isspace c then
      if cur.isEmpty then readTokens cs [] else cur :: readTokens cs []
    else readTokens cs (cur ++ [c])

/-- All tokens of a string, as `std::istringstream` and `operator>>` split it. -/
def tokens (s : Str) : List Str := readTokens s []

/-- Whether `pat` stands at the start of `s`. -/
def startsWith : Str → Str → Bool
  | [], _ => true
  | _ :: _, [] => false
  | p :: ps, c :: cs => p == c && startsWith ps cs

/-- Search of `std::string::find`: the first position, counted from `pos`, at
which `pat` occurs in `s`. -/
def findFrom (pat : Str) : Str → Nat → Option Nat
  | [], pos => if pat.isEmpty then some pos else none
  | c :: cs, pos =>
    if startsWith pat (c :: cs) then some pos else findFrom pat cs (pos + 1)

/-- The call `s.find(pat)`; `none` is `std::string::npos`. -/
def find (s pat : Str) : Option Nat := findFrom pat s 0

/-- The call `s.replace(pos, n, value)`. -/
def replace (s : Str) (pos n : Nat) (value : Str) : Str :=
  s.take pos ++ value ++ s.drop (pos + n)

/-! ## Classification of characters and tokens -/

/-- The test `m_isOperator(it, itBegin)`: `s` is the string without white
space and `i` the position of `it`. -/
def m_isOperator (s : Str) : Nat → Bool
  | 0 =>
    match s[0]? with
    | none => false
    | some token =>
      if token = '+' ∨ token = '-' then false
      else if token = '*' ∨ token = '/' ∨ token = '^' then true
      else false
  | i + 1 =>
    match s[i + 1]? with
    | none => false
    | some token =>
      if token = '+' ∨ token = '-' then
        if s[i]? = some '(' then false
        else if m_isOperator s i then false
        else true
      else if token = '*' ∨ token = '/' ∨ token = '^' then true
      else false

/-- The test `m_isOperator(token)` on a token of the reverse polish notation. -/
def m_isOperatorStr (token : Str) : Bool :=
  if token = ['+'] then true
  else if token = ['-'] then true
  else if token = ['*'] then true
  else if token = ['/'] then true
  else if token = ['^'] then true
  else false

/-- The test `m_isNumber(it, itBegin)`: `s` is the string without white space
and `i` the position of `it`. -/
def m_isNumber (s : Str) (i : Nat) : Bool :=
  match s[i]? with
  | none => false
  | some token =>
    if token.isDigit ∨ token = '.' then true
    else if token = '-' then
      if i = 0 then true
      else if s[i - 1]? = some '(' then true
      else if m_isOperator s (i - 1) then true
      else false
    else false

/-- Whether `std::stod` converts a token, that is, does not throw
`std::invalid_argument`: after white space and an optional sign there is a
digit, a point followed by a digit, or one of the words `inf` and `nan` in
either case. -/
def stodAccepts (token : Str) : Bool :=
  let t := token.dropWhile isspace
  let u := match t with
    | [] => []
    | c :: r => if c = '+' ∨ c = '-' then r else c :: r
  match u with
  | [] => false
  | c :: r =>
    if c.isDigit then true
    else if c = '.' then
      match r with
      | [] => false
      | d :: _ => d.isDigit
    else
      (u.take 3).map Char.toLower == ['i', 'n', 'f']
        || (u.take 3).map Char.toLower == ['n', 'a', 'n']

/-- The test `m_isNumber(token)` on a token of the reverse polish notation:
`std::stod(token)` is called, `std::invalid_argument` is caught and gives
`false`, and `std::out_of_range` is not caught. -/
def m_isNumberStr {α : Type} (A : Arith α) (token : Str) : Outcome Bool :=
  if stodAccepts token then
    match A.stod token with
    | some _ => .ret true
    | none => .thrown .STD_OUT_OF_RANGE
  else .ret false

/-- The lookup `m_isFunction(token)`. -/
def m_isFunction (token : Str) : FUNCTION :=
  if token = ['L', 'O', 'G'] ∨ token = ['l', 'o', 'g'] then .LOG
  else if token = ['L', 'O', 'G', '1', '0'] ∨ token = ['l', 'o', 'g', '1', '0'] then .LOG10
  else if token = ['S', 'I', 'N'] ∨ token = ['s', 'i', 'n'] then .SIN
  else if token = ['C', 'O', 'S'] ∨ token = ['c', 'o', 's'] then .COS
  else if token = ['T', 'A', 'N'] ∨ token = ['t', 'a', 'n'] then .TAN
  else if token = ['C', 'O', 'T'] ∨ token = ['c', 'o', 't'] then .COT
  else if token = ['A', 'S', 'I', 'N'] ∨ token = ['a', 's', 'i', 'n'] then .ASIN
  else if token = ['A', 'C', 'O', 'S'] ∨ token = ['a', 'c', 'o', 's'] then .ACOS
  else if token = ['A', 'T', 'A', 'N'] ∨ token = ['a', 't', 'a', 'n'] then .ATAN
  else if token = ['A', 'T', 'A', 'N', '2'] ∨ token = ['a', 't', 'a', 'n', '2'] then .ATAN2
  else if token = ['A', 'C', 'O', 'T'] ∨ token = ['a', 'c', 'o', 't'] then .ACOT
  else if token = ['D', 'E', 'G'] ∨ token = ['d', 'e', 'g'] then .DEG
  else if token = ['R', 'A', 'D'] ∨ token = ['r', 'a', 'd'] then .RAD
  else if token = ['S', 'Q', 'R', 'T'] ∨ token = ['s', 'q', 'r', 't'] then .SQRT
  else if token = ['E', 'X', 'P'] ∨ token = ['e', 'x', 'p'] then .EXP
  else if token = ['A', 'B', 'S'] ∨ token = ['a', 'b', 's'] then .ABS
  else .NONE

/-- The precedence `m_precendence(op)` of a character. -/
def m_precendence (op : Char) : Nat :=
  if op = '+' ∨ op = '-' then 2
  else if op = '*' ∨ op = '/' ∨ op = '%' then 3
  else if op = '^' then 4
  else 1

/-- The precedence `m_precendence(op)` of an entry of the operator stack. -/
def m_precendenceStr (op : Str) : Nat :=
  if op = ['+'] ∨ op = ['-'] then 2
  else if op = ['*'] ∨ op = ['/'] ∨ op = ['%'] then 3
  else if op = ['^'] then 4
  else if m_isFunction op ≠ .NONE then 5
  else 1

/-! ## Conversion to reverse polish notation -/

/-- The state of the scan in `m_make_rpn`: the position of `it`, the operator
stack (top first) and the output queue (front first). -/
structure Scan where
  it : Nat
  operatorStack : List Str
  outputQueue : List Str
  deriving DecidableEq, Repr

/-- The loop of lines 38-45: entries of precedence at least `p` move from the
top of the operator stack to the output queue.  The result is the stack and the
queue. -/
def popOperators (p : Nat) : List Str → List Str → List Str × List Str
  | [], queue => ([], queue)
  | top :: rest, queue =>
    if p ≤ m_precendenceStr top then popOperators p rest (queue ++ [top])
    else (top :: rest, queue)

/-- The loop of lines 59-63: entries move from the operator stack to the output
queue until the stack is empty or its top is a left parenthesis. -/
def popToLParen : List Str → List Str → List Str × List Str
  | [], queue => ([], queue)
  | top :: rest, queue =>
    if top ≠ ['('] then popToLParen rest (queue ++ [top])
    else (top :: rest, queue)

/-- The loop of lines 77-79, with `n` characters left from `it` to the end: the
number read and the position after it. -/
def parseNumber (s : Str) : Nat → Nat → Str × Nat
  | 0, it => ([], it)
  | n + 1, it =>
    match s[it]? with
    | none => ([], it)
    | some c =>
      if m_isNumber s it then ((c :: (parseNumber s n (it + 1)).1), (parseNumber s n (it + 1)).2)
      else ([], it)

/-- The loop of lines 86-88, with `n` characters left from `it` to the end: the
function name read and the position after it. -/
def parseFunction (s : Str) : Nat → Nat → Str × Nat
  | 0, it => ([], it)
  | n + 1, it =>
    match s[it]? with
    | none => ([], it)
    | some c =>
      if c ≠ '(' then ((c :: (parseFunction s n (it + 1)).1), (parseFunction s n (it + 1)).2)
      else ([], it)

/-- One pass through the body of the loop of lines 25-92, at a position
`st.it` before the end of `s`. -/
def scanStep (s : Str) (st : Scan) : Outcome Scan :=
  match s[st.it]? with
  | none => .undefined
  | some c =>
    if c = quote then .ret ⟨st.it + 1, st.operatorStack, st.outputQueue⟩
    else if m_isOperator s st.it then
      .ret ⟨st.it + 1,
        [c] :: (popOperators (m_precendence c) st.operatorStack st.outputQueue).1,
        (popOperators (m_precendence c) st.operatorStack st.outputQueue).2⟩
    else if c = '(' then .ret ⟨st.it + 1, [c] :: st.operatorStack, st.outputQueue⟩
    else if c = ')' then
      match (popToLParen st.operatorStack st.outputQueue).1 with
      | [] => .thrown .UNCLOSED_RPARENTHESIS
      | _ :: rest => .ret ⟨st.it + 1, rest, (popToLParen st.operatorStack st.outputQueue).2⟩
    else if m_isNumber s st.it then
      .ret ⟨(parseNumber s (s.length - st.it) st.it).2, st.operatorStack,
        st.outputQueue ++ [(parseNumber s (s.length - st.it) st.it).1]⟩
    else
      .ret ⟨(parseFunction s (s.length - st.it) st.it).2,
        (parseFunction s (s.length - st.it) st.it).1 :: st.operatorStack, st.outputQueue⟩

/-- The loop of lines 25-92 on fuel: it ends with the state in which `it` has
reached the end of `s`, or with an exception. -/
def scan (s : Str) : Nat → Scan → Option (Outcome Scan)
  | 0, st => if s.length ≤ st.it then some (.ret st) else none
  | fuel + 1, st =>
    if s.length ≤ st.it then some (.ret st)
    else
      match scanStep s st with
      | .ret st1 => scan s fuel st1
      | .thrown e => some (.thrown e)
      | .undefined => some .undefined

/-- The loop of lines 103-107: every token of the queue followed by a space. -/
def joinQueue : List Str → Str
  | [] => []
  | t :: ts => t ++ ' ' :: joinQueue ts

/-- Lines 109-129: the two tests for an unclosed left parenthesis on the
assembled string; the result is the new value of `m_rpn`. -/
def checkLParenthesis (returnRPN : Str) : Outcome Str :=
  if returnRPN.length < 2 then .undefined
  else if returnRPN[returnRPN.length - 2]? = some '(' then .thrown .UNCLOSED_LPARENTHESIS
  else if ['('] ∈ tokens returnRPN then .thrown .UNCLOSED_LPARENTHESIS
  else .ret returnRPN

/-- The expression without its white space, as lines 15-19 compute it. -/
def stripWS (m_inputExpr : Str) : Str := (tokens m_inputExpr).flatten

/-- The method `m_make_rpn` on the expression `m_inputExpr`; it returns the
string it stores in `m_rpn`. -/
def m_make_rpn (m_inputExpr : Str) : Option (Outcome Str) :=
  if m_inputExpr.isEmpty ∨ m_inputExpr = [' '] then some (.thrown .BAD_INIT)
  else
    let inputExprNoWS := stripWS m_inputExpr
    match scan inputExprNoWS inputExprNoWS.length ⟨0, [], []⟩ with
    | none => none
    | some (.thrown e) => some (.thrown e)
    | some .undefined => some .undefined
    | some (.ret st) => some (checkLParenthesis (joinQueue (st.outputQueue ++ st.operatorStack)))

/-! ## Evaluation of the reverse polish notation -/

/-- The method `m_calc_operator`. -/
def m_calc_operator {α : Type} (A : Arith α) (lVal rVal : α) (op : Char) : Outcome α :=
  if op = '+' then .ret (A.add lVal rVal)
  else if op = '-' then .ret (A.sub lVal rVal)
  else if op = '*' then .ret (A.mul lVal rVal)
  else if op = '/' then .ret (A.div lVal rVal)
  else if op = '%' then .ret (A.fmod lVal rVal)
  else if op = '^' then .ret (A.pow lVal rVal)
  else .thrown .INPUT_EXPR_SYNTAX_ERROR

/-- The method `m_calc_function`; `ATAN2` has no case and takes the default. -/
def m_calc_function {α : Type} (A : Arith α) (val : α) : FUNCTION → Outcome α
  | .NONE => .thrown .INPUT_EXPR_SYNTAX_ERROR
  | .LOG => .ret (A.log val)
  | .LOG10 => .ret (A.log10 val)
  | .SIN => .ret (A.sin val)
  | .COS => .ret (A.cos val)
  | .TAN => .ret (A.tan val)
  | .COT => .ret (A.div (A.ofNat 1) (A.tan val))
  | .ASIN => .ret (A.asin val)
  | .ACOS => .ret (A.acos val)
  | .ATAN => .ret (A.atan val)
  | .ACOT => .ret (A.atan (A.div (A.ofNat 1) val))
  | .DEG => .ret (A.mul (A.div val (A.mul (A.ofNat 2) A.PI)) (A.ofNat 360))
  | .RAD => .ret (A.mul (A.mul (A.div val (A.ofNat 360)) (A.ofNat 2)) A.PI)
  | .SQRT => .ret (A.sqrt val)
  | .EXP => .ret (A.exp val)
  | .ABS => .ret (A.abs val)
  | .ATAN2 => .thrown .INPUT_EXPR_SYNTAX_ERROR

/-- The loop of lines 148-176 over the tokens still to read, with the number
stack (top first), followed by the `return numberStack.top()` of line 182. -/
def evalTokens {α : Type} (A : Arith α) : List Str → List α → Outcome α
  | [], numberStack =>
    match numberStack with
    | [] => .undefined
    | top :: _ => .ret top
  | token :: rest, numberStack =>
    match m_isNumberStr A token with
    | .thrown e => .thrown e
    | .undefined => .undefined
    | .ret true =>
      match A.stod token with
      | some number => evalTokens A rest (number :: numberStack)
      | none => .thrown .STD_OUT_OF_RANGE
    | .ret false =>
      if m_isOperatorStr token then
        match numberStack with
        | rVal :: lVal :: below =>
          match m_calc_operator A lVal rVal (token.headD (Char.ofNat 0)) with
          | .ret operatorCalcResult => evalTokens A rest (operatorCalcResult :: below)
          | .thrown e => .thrown e
          | .undefined => .undefined
        | _ => .thrown .INPUT_EXPR_SYNTAX_ERROR
      else if m_isFunction token ≠ .NONE then
        match numberStack with
        | [] => .thrown .INPUT_EXPR_SYNTAX_ERROR
        | val :: below =>
          match m_calc_function A val (m_isFunction token) with
          | .ret functionCalcResult => evalTokens A rest (functionCalcResult :: below)
          | .thrown e => .thrown e
          | .undefined => .undefined
      else .thrown .INPUT_EXPR_SYNTAX_ERROR

/-- The method `m_calc_rpn` on the string `m_rpn`. -/
def m_calc_rpn {α : Type} (A : Arith α) (m_rpn : Str) : Outcome α :=
  if m_rpn.isEmpty then .thrown .BAD_RPN
  else evalTokens A (tokens m_rpn) []

/-! ## The method `calculate` -/

/-- The method `m_variableExists` on the expression `m_inputExpr`. -/
def m_variableExists (m_inputExpr varName : Str) : Outcome Bool :=
  if m_inputExpr.isEmpty ∨ m_inputExpr = [' '] then .thrown .BAD_INIT
  else if find m_inputExpr (quote :: varName ++ [quote]) = none then .ret false
  else .ret true

/-- The loop of lines 201-204 on fuel: every occurrence of `modifiedVarName`
is replaced by `variableValue`, the first one first. -/
def replaceAll (modifiedVarName variableValue : Str) : Nat → Str → Option Str
  | 0, m_inputExpr =>
    match find m_inputExpr modifiedVarName with
    | none => some m_inputExpr
    | some _ => none
  | fuel + 1, m_inputExpr =>
    match find m_inputExpr modifiedVarName with
    | none => some m_inputExpr
    | some pos =>
      replaceAll modifiedVarName variableValue fuel
        (replace m_inputExpr pos modifiedVarName.length variableValue)

/-- The loop of lines 187-205 over the variables still to treat: how the loop
ends, and the expression at that moment. -/
def substitute {α : Type} (A : Arith α) : List (Var α) → Str → Option (Outcome Unit × Str)
  | [], m_inputExpr => some (.ret (), m_inputExpr)
  | v :: vs, m_inputExpr =>
    match m_variableExists m_inputExpr v.name with
    | .thrown e => some (.thrown e, m_inputExpr)
    | .undefined => some (.undefined, m_inputExpr)
    | .ret false => some (.thrown (.UNKNOWN_VARIABLE v.name), m_inputExpr)
    | .ret true =>
      match replaceAll (quote :: v.name ++ [quote]) (A.to_string v.value)
          m_inputExpr.length m_inputExpr with
      | none => none
      | some e1 => substitute A vs e1

/-- The method `calculate`: its outcome and the data members after the call. -/
def calculate {α : Type} (A : Arith α) (p : Parser) (vars : List (Var α)) :
    Option (Outcome α × Parser) :=
  match substitute A vars p.m_inputExpr with
  | none => none
  | some (.thrown exn, e1) => some (.thrown exn, ⟨e1, p.m_rpn⟩)
  | some (.undefined, e1) => some (.undefined, ⟨e1, p.m_rpn⟩)
  | some (.ret _, e1) =>
    match m_make_rpn e1 with
    | none => none
    | some (.thrown exn) => some (.thrown exn, ⟨e1, p.m_rpn⟩)
    | some .undefined => some (.undefined, ⟨e1, p.m_rpn⟩)
    | some (.ret rpn) => some (m_calc_rpn A rpn, ⟨e1, rpn⟩)

/-! ## Well-formed expressions and their value

The expressions of the claims: literals, the binary operators `+ - * / ^`,
parentheses and calls of the functions of the catalog, as trees whose shape is
the reading by precedence, operators of equal precedence grouping to the left.
-/

/-- An unsigned decimal literal: digits with at most one point among them. -/
def isLiteral (t : Str) : Bool :=
  t.all (fun c => c.isDigit || c == '.') && t.any Char.isDigit && decide (t.count '.' ≤ 1)

/-- A literal, or a minus sign followed by a literal. -/
def isNumeral (t : Str) : Bool :=
  isLiteral t ||
    match t with
    | [] => false
    | c :: u => c == '-' && isLiteral u

/-- The binary operators `+ - * / ^`. -/
inductive BinOp where
  | plus | minus | times | over | power
  deriving DecidableEq, Repr

/-- The character of a binary operator. -/
def BinOp.char : BinOp → Char
  | .plus => '+'
  | .minus => '-'
  | .times => '*'
  | .over => '/'
  | .power => '^'

/-- The precedence of a binary operator: `^` above `* /` above `+ -`. -/
def BinOp.prec : BinOp → Nat
  | .plus => 2
  | .minus => 2
  | .times => 3
  | .over => 3
  | .power => 4

/-- The value of `l op r`. -/
def BinOp.apply {α : Type} (A : Arith α) : BinOp → α → α → α
  | .plus, l, r => A.add l r
  | .minus, l, r => A.sub l r
  | .times, l, r => A.mul l r
  | .over, l, r => A.div l r
  | .power, l, r => A.pow l r

/-- The functions of the catalog other than `atan2`. -/
inductive Fn where
  | log | log10 | sin | cos | tan | cot | asin | acos | atan | acot | deg | rad
  | sqrt | exp | abs
  deriving DecidableEq, Repr

/-- The name of a function of the catalog, in lower case. -/
def Fn.name : Fn → Str
  | .log => ['l', 'o', 'g']
  | .log10 => ['l', 'o', 'g', '1', '0']
  | .sin => ['s', 'i', 'n']
  | .cos => ['c', 'o', 's']
  | .tan => ['t', 'a', 'n']
  | .cot => ['c', 'o', 't']
  | .asin => ['a', 's', 'i', 'n']
  | .acos => ['a', 'c', 'o', 's']
  | .atan => ['a', 't', 'a', 'n']
  | .acot => ['a', 'c', 'o', 't']
  | .deg => ['d', 'e', 'g']
  | .rad => ['r', 'a', 'd']
  | .sqrt => ['s', 'q', 'r', 't']
  | .exp => ['e', 'x', 'p']
  | .abs => ['a', 'b', 's']

/-- The value of a function of the catalog at `x`, as the specification gives
it: `cot` is `1/tan`, `acot` is `atan(1/x)`, `deg` is `x/(2π)·360`, `rad` is
`x/360·2π`, the others are the functions of `<cmath>` of the same name. -/
def Fn.apply {α : Type} (A : Arith α) : Fn → α → α
  | .log, x => A.log x
  | .log10, x => A.log10 x
  | .sin, x => A.sin x
  | .cos, x => A.cos x
  | .tan, x => A.tan x
  | .cot, x => A.div (A.ofNat 1) (A.tan x)
  | .asin, x => A.asin x
  | .acos, x => A.acos x
  | .atan, x => A.atan x
  | .acot, x => A.atan (A.div (A.ofNat 1) x)
  | .deg, x => A.mul (A.div x (A.mul (A.ofNat 2) A.PI)) (A.ofNat 360)
  | .rad, x => A.mul (A.mul (A.div x (A.ofNat 360)) (A.ofNat 2)) A.PI
  | .sqrt, x => A.sqrt x
  | .exp, x => A.exp x
  | .abs, x => A.abs x

/-- An expression: a literal, `l op r`, `(e)` or `f(e)`. -/
inductive Expr where
  | lit (t : Str)
  | bin (op : BinOp) (l r : Expr)
  | paren (e : Expr)
  | call (f : Fn) (e : Expr)
  deriving DecidableEq, Repr

namespace Expr

/-- The text of an expression, without white space. -/
def text : Expr → Str
  | lit t => t
  | bin op l r => l.text ++ op.char :: r.text
  | paren e => '(' :: e.text ++ [')']
  | call f e => f.name ++ '(' :: e.text ++ [')']

/-- The precedence at which an expression stands: that of its operator, and 5
for a literal, a parenthesis and a call. -/
def level : Expr → Nat
  | bin op _ _ => op.prec
  | _ => 5

/-- The literals of the expression are numerals and its shape is the reading of
its text by precedence, operators of equal precedence grouping to the left: the
right operand of an operator binds tighter than the operator, the left operand
at least as tight. -/
def shaped : Expr → Bool
  | lit t => isNumeral t
  | bin op l r =>
    l.shaped && r.shaped && decide (op.prec ≤ l.level) && decide (op.prec < r.level)
  | paren e => e.shaped
  | call _ e => e.shaped

/-- Every literal of the expression is unsigned. -/
def unsigned : Expr → Bool
  | lit t => isLiteral t
  | bin _ l r => l.unsigned && r.unsigned
  | paren e => e.unsigned
  | call _ e => e.unsigned

/-- A well-formed expression of unsigned literals, read by precedence. -/
def wellFormed (e : Expr) : Bool := e.shaped && e.unsigned

/-- The literals of an expression, from left to right. -/
def literals : Expr → List Str
  | lit t => [t]
  | bin _ l r => l.literals ++ r.literals
  | paren e => e.literals
  | call _ e => e.literals

/-- The value of an expression: `some v` when every literal is within the
range of `double`, and `none` when `std::stod` throws `std::out_of_range` on
one of them. -/
def value {α : Type} (A : Arith α) : Expr → Option α
  | lit t => A.stod t
  | bin op l r =>
    match l.value A, r.value A with
    | some lVal, some rVal => some (op.apply A lVal rVal)
    | _, _ => none
  | paren e => e.value A
  | call f e =>
    match e.value A with
    | some val => some (f.apply A val)
    | none => none

/-- The reverse polish notation of an expression, token by token. -/
def rpn : Expr → List Str
  | lit t => [t]
  | bin op l r => l.rpn ++ r.rpn ++ [[op.char]]
  | paren e => e.rpn
  | call f e => e.rpn ++ [f.name]

/-- The entries that the scan of an expression leaves on the operator stack,
top first: the operators along its right edge and the function of a final
call. -/
def pending : Expr → List Str
  | lit _ => []
  | bin op _ r => r.pending ++ [[op.char]]
  | paren _ => []
  | call f _ => [f.name]

/-- The tokens that the scan of an expression puts in the output queue. -/
def emitted : Expr → List Str
  | lit t => [t]
  | bin _ l r => l.rpn ++ r.emitted
  | paren e => e.rpn
  | call _ e => e.rpn

/-- The number of passes through the loop of `m_make_rpn` that the text of an
expression takes. -/
def passes : Expr → Nat
  | lit _ => 1
  | bin _ l r => l.passes + 1 + r.passes
  | paren e => e.passes + 2
  | call _ e => e.passes + 3

/-- The expression `e op a` read by precedence, for a well-formed `e` and an
operand `a`: the new operator takes as its left operand the longest end of
`e` that binds at least as tight as it. -/
def snoc : Expr → BinOp → Expr → Expr
  | bin o l r, op, a =>
    if o.prec < op.prec then bin o l (snoc r op a) else bin op (bin o l r) a
  | lit t, op, a => bin op (lit t) a
  | paren e, op, a => bin op (paren e) a
  | call f e, op, a => bin op (call f e) a

/-- The reading by precedence of a sequence `a op a op a ...` of operands and
operators. -/
def read (a : Expr) (rest : List (BinOp × Expr)) : Expr :=
  rest.foldl (fun e p => e.snoc p.1 p.2) a

/-- The text of a sequence `a op a op a ...`. -/
def sequenceText (a : Expr) (rest : List (BinOp × Expr)) : Str :=
  a.text ++ (rest.map fun p => p.1.char :: p.2.text).flatten

/-- An operand of a sequence: a well-formed literal, parenthesis or call. -/
def operand (a : Expr) : Bool := a.wellFormed && decide (a.level = 5)

end Expr

/-! ## The whole numbers of `double`

An instance of `Arith` for stating results as numerals.  A value `some n` is
the `double` whose value is the integer `n` (the positive zero for `n = 0`);
`none` is a `double` that the instance does not track: a fraction, the
negative zero, an infinity, a NaN, the result of a function of `<cmath>`.
The operations follow IEEE 754 binary64 with rounding to nearest, ties to
even: a sum, a difference, a product or a quotient is the exact result
rounded to 53 significant binary digits, and an infinity from
`2 ^ 1024 - 2 ^ 970` on. -/

/-- The number that a run of digits denotes, after the digits `acc`. -/
def digitsValue : Str → Nat → Nat
  | [], acc => acc
  | c :: cs, acc => digitsValue cs (10 * acc + (c.toNat - 48))

/-- The number of binary digits of `m`, for `m < 2 ^ fuel`. -/
def bitLength : Nat → Nat → Nat
  | 0, _ => 0
  | fuel + 1, m => if m = 0 then 0 else bitLength fuel (m / 2) + 1

/-- The magnitude `m` rounded to 53 significant binary digits, to the nearest
and to the even significand when two are equally near, for `m < 2 ^ 1024`:
with `e` the number of binary digits beyond 53, the multiple of `2 ^ e` next
to `m`. -/
def roundNat (m : Nat) : Nat :=
  if m < 2 ^ 53 then m
  else
    let e := bitLength 1024 m - 53
    let q := m >>> e
    let r := m - q <<< e
    if 2 * r < 1 <<< e then q <<< e
    else if 1 <<< e < 2 * r then (q + 1) <<< e
    else if q % 2 = 0 then q <<< e
    else (q + 1) <<< e

/-- The least magnitude that rounds to an infinity: `2 ^ 1024 - 2 ^ 970`, half
a step beyond the largest `double`. -/
def overflowFrom : Nat := 1 <<< 1024 - 1 <<< 970

/-- The `double` that an operation with the exact integer result `z` returns:
the rounded result, and an infinity, which is not tracked, when the magnitude
reaches `overflowFrom`. -/
def exactRound (z : Int) : Option Int :=
  if overflowFrom ≤ z.natAbs then none
  else if z < 0 then some (-(roundNat z.natAbs : Int))
  else some (roundNat z.natAbs : Int)

/-- A decimal numeral without sign and without exponent: digits, optionally
followed by a point and digits.  The result is the number that the digits
before the point denote, and whether the numeral is a whole number, that is,
whether no digit after the point differs from 0. -/
def exactUnsigned (u : Str) : Option (Nat × Bool) :=
  if (u.takeWhile Char.isDigit).isEmpty then none
  else
    match u.dropWhile Char.isDigit with
    | [] => some (digitsValue (u.takeWhile Char.isDigit) 0, true)
    | c :: r =>
      if c = '.' ∧ r.all Char.isDigit then
        some (digitsValue (u.takeWhile Char.isDigit) 0, r.all (fun d => d == '0'))
      else none

/-- The result of `std::stod` on a sign and a numeral without sign.  On a
decimal numeral without exponent it is `std::out_of_range` (`none`) when the
part before the point reaches `overflowFrom`; below that, a whole number gives
the nearest `double`, and the negative zero and a numeral with a fraction give
a value that is not tracked (whether `std::stod` reports a fraction too small
for `double` depends on the C library).  On any other token (an exponent, a
hexadecimal numeral, `inf`, `nan`) the instance takes `std::stod` to return a
value that it does not track. -/
def exactSigned (negative : Bool) (u : Str) : Option (Option Int) :=
  match exactUnsigned u with
  | none => some none
  | some (v, whole) =>
    if overflowFrom ≤ v then none
    else if whole then
      if negative then (if v = 0 then some none else some (some (-(roundNat v : Int))))
      else some (some (roundNat v : Int))
    else some none

/-- The result of `std::stod` on a token: the sign, then the numeral. -/
def exactStod (t : Str) : Option (Option Int) :=
  match t with
  | [] => some none
  | c :: r =>
    if c = '-' then exactSigned true r
    else if c = '+' then exactSigned false r
    else exactSigned false (c :: r)

/-- A binary operation on tracked values. -/
def exact2 (f : Int → Int → Option Int) : Option Int → Option Int → Option Int
  | some a, some b => f a b
  | _, _ => none

/-- The arithmetic of the whole numbers of `double`.  A product, a quotient or
a remainder that is the negative zero is not tracked; a quotient is tracked
when the division is exact, a power when the exponent is a whole number that
is not negative and the exact power is below `2 ^ 53`.  The text of a whole
number is the one that `std::to_string` writes, the digits followed by
`.000000`; a value that is not tracked has the text of a NaN. -/
def exact : Arith (Option Int) where
  stod := exactStod
  stod_digit := by decide
  to_string := fun x =>
    match x with
    | some n => (if n < 0 then ['-'] else []) ++ Nat.toDigits 10 n.natAbs ++ ".000000".toList
    | none => "nan".toList
  ofNat := fun n => exactRound (Int.ofNat n)
  PI := none
  add := exact2 fun a b => exactRound (a + b)
  sub := exact2 fun a b => exactRound (a - b)
  mul := exact2 fun a b =>
    if a * b = 0 ∧ (a < 0 ∨ b < 0) then none else exactRound (a * b)
  div := exact2 fun a b =>
    if b ≠ 0 ∧ a % b = 0 ∧ ¬ (a = 0 ∧ b < 0) then exactRound (a / b) else none
  fmod := exact2 fun a b =>
    if b ≠ 0 ∧ ¬ (Int.tmod a b = 0 ∧ a < 0) then some (Int.tmod a b) else none
  pow := exact2 fun a b =>
    if 0 ≤ b ∧ (Int.pow a b.toNat).natAbs < 2 ^ 53 then some (Int.pow a b.toNat) else none
  log := fun _ => none
  log10 := fun _ => none
  sin := fun _ => none
  cos := fun _ => none
  tan := fun _ => none
  asin := fun _ => none
  acos := fun _ => none
  atan := fun _ => none
  sqrt := fun _ => none
  exp := fun _ => none
  abs := fun x => x.map fun a => Int.ofNat a.natAbs

/-- A literal outside the range of `double`: the digit 1 followed by 309
zeros. -/
def hugeLiteral : Str := '1' :: List.replicate 309 '0'

/-- The names of the catalog of functions, in lower case. -/
def catalog : List Str :=
  [['l', 'o', 'g'], ['l', 'o', 'g', '1', '0'], ['s', 'i', 'n'], ['c', 'o', 's'],
    ['t', 'a', 'n'], ['c', 'o', 't'], ['a', 's', 'i', 'n'], ['a', 'c', 'o', 's'],
    ['a', 't', 'a', 'n'], ['a', 't', 'a', 'n', '2'], ['a', 'c', 'o', 't'], ['d', 'e', 'g'],
    ['r', 'a', 'd'], ['s', 'q', 'r', 't'], ['e', 'x', 'p'], ['a', 'b', 's']]

/-- A spelling in upper case. -/
def upperCase (t : Str) : Str := t.map Char.toUpper

/-- A spelling in lower case. -/
def lowerCase (t : Str) : Str := t.map Char.toLower

/-! ## Auxiliary notions for the proofs -/

/-- A character of an unsigned literal: a digit or the point. -/
def numChar (c : Char) : Bool := c.isDigit || c == '.'

/-- A position at which an operand may start: the first position, or the
position after a left parenthesis or after an operator. -/
def atomStart (s : Str) (i : Nat) : Prop :=
  i = 0 ∨ ∃ j, i = j + 1 ∧ (s[j]? = some '(' ∨ m_isOperator s j = true)

/-- The text `pat` occurs in `s`. -/
def occurs (pat s : Str) : Prop := ∃ pre post, s = pre ++ pat ++ post

/-- One pass through the body of the loop of lines 148-176: the number stack
after the token. -/
def evalToken {α : Type} (A : Arith α) (token : Str) (numberStack : List α) :
    Outcome (List α) :=
  match m_isNumberStr A token with
  | .thrown e => .thrown e
  | .undefined => .undefined
  | .ret true =>
    match A.stod token with
    | some number => .ret (number :: numberStack)
    | none => .thrown .STD_OUT_OF_RANGE
  | .ret false =>
    if m_isOperatorStr token then
      match numberStack with
      | rVal :: lVal :: below =>
        match m_calc_operator A lVal rVal (token.headD (Char.ofNat 0)) with
        | .ret operatorCalcResult => .ret (operatorCalcResult :: below)
        | .thrown e => .thrown e
        | .undefined => .undefined
      | _ => .thrown .INPUT_EXPR_SYNTAX_ERROR
    else if m_isFunction token ≠ .NONE then
      match numberStack with
      | [] => .thrown .INPUT_EXPR_SYNTAX_ERROR
      | val :: below =>
        match m_calc_function A val (m_isFunction token) with
        | .ret functionCalcResult => .ret (functionCalcResult :: below)
        | .thrown e => .thrown e
        | .undefined => .undefined
    else .thrown .INPUT_EXPR_SYNTAX_ERROR

/-- The number stack after the loop of lines 148-176 has gone through the
tokens `ts`. -/
def stackAfter {α : Type} (A : Arith α) : List Str → List α → Outcome (List α)
  | [], numberStack => .ret numberStack
  | token :: rest, numberStack =>
    match evalToken A token numberStack with
    | .ret st1 => stackAfter A rest st1
    | .thrown e => .thrown e
    | .undefined => .undefined

/-- The number of left parentheses of a text. -/
def opens (s : Str) : Nat := s.count '('

/-- The number of right parentheses of a text. -/
def closes (s : Str) : Nat := s.count ')'

/-- The number of right parentheses inside the tokens of a stack or queue. -/
def closesIn (ts : List Str) : Nat := (ts.map closes).sum

/-- The number of entries of a stack that are a left parenthesis. -/
def lparens (ts : List Str) : Nat := ts.count ['(']

/-- A token that the number loop reads: a number character, which may be a
minus sign, followed by digits and points. -/
def numberToken (t : Str) : Bool :=
  match t with
  | [] => false
  | c :: r => (numChar c || c == '-') && r.all numChar

/-- A character at which the function-name loop starts: no quote, no
parenthesis, no number character and none of `- * / ^`. -/
def nameStart (c : Char) : Bool :=
  !(c == quote || c == '(' || c == ')' || numChar c || c == '-' || c == '*' || c == '/'
    || c == '^')

/-- A token that the function-name loop reads: the characters from its start
up to the next left parenthesis or the end of the text. -/
def nameToken (t : Str) : Bool :=
  match t with
  | [] => false
  | c :: r => nameStart c && r.all (fun d => d != '(')

/-- The tokens that the scan puts on the operator stack and in the output
queue: the left parenthesis, a number token, one of the operators
`+ - * / ^`, or a name token. -/
def scanToken (t : Str) : Prop :=
  t = ['('] ∨ numberToken t = true ∨ m_isOperatorStr t = true ∨ nameToken t = true

/-- What every pass of the loop of `m_make_rpn` keeps: the position is inside
the text, the stack and the queue hold scan tokens made of characters of the
text, the queue holds no left parenthesis, and the left parentheses on the
stack are the ones read so far less the right parentheses read so far that
are not part of a name token. -/
structure ScanInv (s : Str) (st : Scan) : Prop where
  it_le : st.it ≤ s.length
  kinds : ∀ t ∈ st.operatorStack ++ st.outputQueue, scanToken t ∧ ∀ c ∈ t, c ∈ s
  queue : ['('] ∉ st.outputQueue
  count : lparens st.operatorStack + closes (s.take st.it)
    = opens (s.take st.it) + closesIn st.operatorStack + closesIn st.outputQueue

/-- A token as the specification describes the tokens of the reverse polish
notation: a parsable number, one of the operators `+ - * / ^ %`, or a
recognised function name. -/
def specToken (t : Str) : Prop :=
  stodAccepts t = true ∨ t ∈ [['+'], ['-'], ['*'], ['/'], ['^'], ['%']] ∨
    m_isFunction t ≠ .NONE

/-- No part of the text from its start has more right than left parentheses,
checked at every length up to that of the text. -/
def prefixesClosed (x : Str) : Bool :=
  (List.range (x.length + 1)).all fun k => decide (closes (x.take k) ≤ opens (x.take k))

end MathExprParser

namespace MathExprParser

/-! ## Characters and positions -/

theorem getElem?_mid (pre post : Str) (c : Char) :
    (pre ++ c :: post)[pre.length]? = some c := by
  rw [List.getElem?_append_right (le_refl _)]
  simp

theorem getElem?_mid_succ (pre post : Str) (d c : Char) :
    (pre ++ d :: c :: post)[pre.length + 1]? = some c := by
  have h : pre ++ d :: c :: post = (pre ++ [d]) ++ c :: post := by simp
  rw [h]
  have := getElem?_mid (pre ++ [d]) post c
  simpa using this

theorem numChar_ne {c : Char} (h : numChar c = true) :
    c ≠ '+' ∧ c ≠ '-' ∧ c ≠ '*' ∧ c ≠ '/' ∧ c ≠ '^' ∧ c ≠ '(' ∧ c ≠ ')' ∧ c ≠ quote := by
  refine ⟨?_, ?_, ?_, ?_, ?_, ?_, ?_, ?_⟩ <;> rintro rfl <;> revert h <;> decide

theorem m_isOperator_other (s : Str) (i : Nat) (c : Char) (h : s[i]? = some c)
    (h1 : c ≠ '+') (h2 : c ≠ '-') (h3 : c ≠ '*') (h4 : c ≠ '/') (h5 : c ≠ '^') :
    m_isOperator s i = false := by
  cases i <;> simp [m_isOperator, h, h1, h2, h3, h4, h5]

theorem m_isOperator_numChar (s : Str) (i : Nat) (c : Char) (h : s[i]? = some c)
    (hc : numChar c = true) : m_isOperator s i = false := by
  obtain ⟨h1, h2, h3, h4, h5, -⟩ := numChar_ne hc
  exact m_isOperator_other s i c h h1 h2 h3 h4 h5

theorem m_isNumber_numChar (s : Str) (i : Nat) (c : Char) (h : s[i]? = some c)
    (hc : numChar c = true) : m_isNumber s i = true := by
  simp only [numChar, Bool.or_eq_true, beq_iff_eq] at hc
  simp [m_isNumber, h, hc]

theorem m_isNumber_other (s : Str) (i : Nat) (c : Char) (h : s[i]? = some c)
    (hc : numChar c = false) (h2 : c ≠ '-') : m_isNumber s i = false := by
  simp only [numChar, Bool.or_eq_false_iff, beq_eq_false_iff_ne] at hc
  simp [m_isNumber, h, hc, h2]

theorem m_isOperator_after_atom (s : Str) (i : Nat) (d : Char) (op : BinOp)
    (hd : s[i]? = some d) (hop : s[i + 1]? = some op.char)
    (hatom : numChar d = true ∨ d = ')') : m_isOperator s (i + 1) = true := by
  have h0 : m_isOperator s i = false := by
    rcases hatom with h | rfl
    · exact m_isOperator_numChar s i d hd h
    · exact m_isOperator_other s i _ hd (by decide) (by decide) (by decide) (by decide)
        (by decide)
  have h1 : d ≠ '(' := by
    rcases hatom with h | rfl
    · exact (numChar_ne h).2.2.2.2.2.1
    · decide
  cases op <;> simp [m_isOperator, hop, hd, h0, h1, BinOp.char]

theorem minus_at_atomStart (s : Str) (i : Nat) (h : s[i]? = some '-')
    (hs : atomStart s i) : m_isOperator s i = false ∧ m_isNumber s i = true := by
  rcases hs with rfl | ⟨j, rfl, hj⟩
  · simp [m_isOperator, m_isNumber, h]
  · rcases hj with hj | hj
    · simp [m_isOperator, m_isNumber, h, hj]
    · by_cases hp : s[j]? = some '(' <;> simp [m_isOperator, m_isNumber, h, hj, hp]

theorem m_isNumber_after_numChar (s : Str) (i : Nat) (d c : Char)
    (hd : s[i]? = some d) (hc : s[i + 1]? = some c) (hnd : numChar d = true)
    (hnc : numChar c = false) : m_isNumber s (i + 1) = false := by
  by_cases hm : c = '-'
  · subst hm
    have h0 := m_isOperator_numChar s i d hd hnd
    have h1 : d ≠ '(' := (numChar_ne hnd).2.2.2.2.2.1
    simp [m_isNumber, hc, hd, h0, h1]
  · exact m_isNumber_other s (i + 1) c hc hnc hm

/-! ## The inner loops of the scan -/

theorem parseNumber_cons (s : Str) (n i : Nat) (c : Char) (h : s[i]? = some c)
    (hn : m_isNumber s i = true) :
    parseNumber s (n + 1) i
      = (c :: (parseNumber s n (i + 1)).1, (parseNumber s n (i + 1)).2) := by
  simp [parseNumber, h, hn]

theorem parseNumber_stop (s : Str) (n i : Nat) (h : n = 0 ∨ m_isNumber s i = false) :
    parseNumber s n i = ([], i) := by
  cases n with
  | zero => rfl
  | succ k =>
    have hn : m_isNumber s i = false := by simpa using h
    unfold parseNumber
    cases hi : s[i]? <;> simp [hn]

/-- The number loop reads a run of digits and points to its end, when the
character after the run is not one of them. -/
theorem parseNumber_run (t : Str) : ∀ (pre post : Str) (d : Char) (n : Nat),
    (∀ c ∈ t, numChar c = true) → (t = [] → numChar d = true) →
    (∀ c, post.head? = some c → numChar c = false) →
    n = t.length + post.length →
    parseNumber (pre ++ d :: t ++ post) n (pre.length + 1)
      = (t, pre.length + 1 + t.length) := by
  induction t with
  | nil =>
    intro pre post d n _ hd hpost hn
    apply parseNumber_stop
    cases post with
    | nil => left; simpa using hn
    | cons c post =>
      right
      have hc := hpost c rfl
      have h1 : (pre ++ d :: [] ++ c :: post)[pre.length]? = some d := by
        simpa using getElem?_mid pre (c :: post) d
      have h2 : (pre ++ d :: [] ++ c :: post)[pre.length + 1]? = some c := by
        simpa using getElem?_mid_succ pre post d c
      exact m_isNumber_after_numChar _ _ d c h1 h2 (hd rfl) hc
  | cons c t ih =>
    intro pre post d n ht hd hpost hn
    have hc : numChar c = true := ht c (List.mem_cons_self _ _)
    have hs : pre ++ d :: (c :: t) ++ post = (pre ++ [d]) ++ c :: t ++ post := by simp
    have h2 : (pre ++ d :: (c :: t) ++ post)[pre.length + 1]? = some c := by
      simpa using getElem?_mid_succ pre (t ++ post) d c
    obtain ⟨k, rfl⟩ : ∃ k, n = k + 1 := ⟨t.length + post.length, by simp [hn]; omega⟩
    rw [parseNumber_cons _ _ _ c h2 (m_isNumber_numChar _ _ c h2 hc)]
    have := ih (pre ++ [d]) post c k (fun x hx => ht x (List.mem_cons_of_mem _ hx))
      (fun _ => hc) hpost
      (by simp at hn; omega)
    rw [hs]
    simp only [List.length_append, List.length_singleton] at this
    rw [this]
    simp
    omega

theorem parseFunction_run (name : Str) : ∀ (pre post : Str) (n : Nat),
    (∀ c ∈ name, c ≠ '(') → n = name.length + 1 + post.length →
    parseFunction (pre ++ name ++ '(' :: post) n pre.length
      = (name, pre.length + name.length) := by
  induction name with
  | nil =>
    intro pre post n _ hn
    obtain ⟨k, rfl⟩ : ∃ k, n = k + 1 := ⟨post.length, by simp [hn]; omega⟩
    have h := getElem?_mid pre post '('
    simp [parseFunction, h]
  | cons c name ih =>
    intro pre post n hname hn
    have hc : c ≠ '(' := hname c (List.mem_cons_self _ _)
    have hs : pre ++ c :: name ++ '(' :: post = (pre ++ [c]) ++ name ++ '(' :: post := by simp
    have h1 : (pre ++ c :: name ++ '(' :: post)[pre.length]? = some c := by
      simpa using getElem?_mid pre (name ++ '(' :: post) c
    obtain ⟨k, rfl⟩ : ∃ k, n = k + 1 := ⟨name.length + 1 + post.length, by simp [hn]; omega⟩
    have := ih (pre ++ [c]) post k (fun x hx => hname x (List.mem_cons_of_mem _ hx))
      (by simp at hn; omega)
    simp only [List.length_append, List.length_singleton] at this
    rw [hs] at h1 ⊢
    simp only [parseFunction, h1, hc, ne_eq, not_false_eq_true, if_true, this]
    simp
    omega

theorem popOperators_append (p : Nat) (xs : List Str) : ∀ (S queue : List Str),
    (∀ x ∈ xs, p ≤ m_precendenceStr x) →
    popOperators p (xs ++ S) queue = popOperators p S (queue ++ xs) := by
  induction xs with
  | nil => intro S queue _; simp
  | cons x xs ih =>
    intro S queue h
    have hx := h x (List.mem_cons_self _ _)
    rw [List.cons_append]
    simp only [popOperators, hx, if_true]
    rw [ih S _ (fun y hy => h y (List.mem_cons_of_mem _ hy))]
    simp

theorem popOperators_stop (p : Nat) (S queue : List Str)
    (h : ∀ top, S.head? = some top → m_precendenceStr top < p) :
    popOperators p S queue = (S, queue) := by
  cases S with
  | nil => rfl
  | cons top rest =>
    have := h top rfl
    simp [popOperators, Nat.not_le.mpr this]

theorem popToLParen_append (xs : List Str) : ∀ (S queue : List Str),
    (∀ x ∈ xs, x ≠ ['(']) →
    popToLParen (xs ++ ['('] :: S) queue = (['('] :: S, queue ++ xs) := by
  induction xs with
  | nil => intro S queue _; simp [popToLParen]
  | cons x xs ih =>
    intro S queue h
    have hx := h x (List.mem_cons_self _ _)
    rw [List.cons_append]
    simp only [popToLParen, hx, ne_eq, not_false_eq_true, if_true]
    rw [ih S _ (fun y hy => h y (List.mem_cons_of_mem _ hy))]
    simp

/-! ## Literals, operators and function names -/

theorem isLiteral_chars {t : Str} (h : isLiteral t = true) :
    (∀ c ∈ t, numChar c = true) ∧ t ≠ [] := by
  simp only [isLiteral, Bool.and_eq_true, List.all_eq_true, List.any_eq_true,
    decide_eq_true_eq] at h
  refine ⟨fun c hc => h.1.1 c hc, ?_⟩
  rintro rfl
  obtain ⟨x, hx, -⟩ := h.1.2
  simp at hx

theorem isNumeral_cases {t : Str} (h : isNumeral t = true) :
    ∃ c u, t = c :: u ∧ (∀ x ∈ u, numChar x = true) ∧
      (numChar c = true ∨ (c = '-' ∧ u ≠ [])) := by
  simp only [isNumeral, Bool.or_eq_true] at h
  rcases h with h | h
  · obtain ⟨hall, hne⟩ := isLiteral_chars h
    cases t with
    | nil => exact absurd rfl hne
    | cons c u =>
      exact ⟨c, u, rfl, fun x hx => hall x (List.mem_cons_of_mem _ hx),
        Or.inl (hall c (List.mem_cons_self _ _))⟩
  · cases t with
    | nil => simp at h
    | cons c u =>
      simp only [Bool.and_eq_true, beq_iff_eq] at h
      obtain ⟨hall, hne⟩ := isLiteral_chars h.2
      exact ⟨c, u, rfl, hall, Or.inr ⟨h.1, hne⟩⟩

theorem isNumeral_last {t : Str} (h : isNumeral t = true) :
    ∃ init d, t = init ++ [d] ∧ numChar d = true := by
  obtain ⟨c, u, rfl, hu, hc⟩ := isNumeral_cases h
  rcases List.eq_nil_or_concat u with rfl | ⟨init, d, rfl⟩
  · rcases hc with hc | ⟨-, hne⟩
    · exact ⟨[], c, rfl, hc⟩
    · exact absurd rfl hne
  · exact ⟨c :: init, d, by simp, hu d (by simp)⟩

theorem BinOp.char_facts (op : BinOp) :
    op.char ≠ quote ∧ op.char ≠ '(' ∧ op.char ≠ ')' ∧ numChar op.char = false ∧
      m_precendence op.char = op.prec ∧ m_precendenceStr [op.char] = op.prec ∧
      [op.char] ≠ ['('] ∧ 2 ≤ op.prec := by
  cases op <;> decide

theorem Fn.name_facts (f : Fn) :
    ∃ c rest, f.name = c :: rest ∧ c ≠ quote ∧ c ≠ '(' ∧ c ≠ ')' ∧ c ≠ '+' ∧ c ≠ '-' ∧
      c ≠ '*' ∧ c ≠ '/' ∧ c ≠ '^' ∧ numChar c = false ∧ (∀ x ∈ f.name, x ≠ '(') ∧
      m_precendenceStr f.name = 5 ∧ f.name ≠ ['('] := by
  cases f <;> exact ⟨_, _, rfl, by decide⟩

/-! ## Single passes through the loop -/

theorem scan_succ (s : Str) (fuel : Nat) (st st1 : Scan) (hlt : st.it < s.length)
    (h : scanStep s st = .ret st1) : scan s (fuel + 1) st = scan s fuel st1 := by
  simp [scan, Nat.not_le.mpr hlt, h]

theorem scan_end (s : Str) (fuel : Nat) (st : Scan) (h : s.length ≤ st.it) :
    scan s fuel st = some (.ret st) := by
  cases fuel <;> simp [scan, h]

theorem scanStep_number (s pre t post : Str) (S O : List Str)
    (hs : s = pre ++ t ++ post) (ht : isNumeral t = true) (hstart : atomStart s pre.length)
    (hpost : ∀ c, post.head? = some c → numChar c = false) :
    scanStep s ⟨pre.length, S, O⟩ = .ret ⟨pre.length + t.length, S, O ++ [t]⟩ := by
  obtain ⟨c, u, rfl, hu, hc⟩ := isNumeral_cases ht
  have hs1 : s = pre ++ c :: u ++ post := by simpa using hs
  have hget : s[pre.length]? = some c := by
    rw [hs1]; simpa using getElem?_mid pre (u ++ post) c
  have hlen : s.length - pre.length = (u.length + post.length) + 1 := by
    rw [hs1]; simp
  have hrun := parseNumber_run u pre post c (u.length + post.length) hu
    (fun hnil => by
      rcases hc with hc | ⟨-, hne⟩
      · exact hc
      · exact absurd hnil hne) hpost rfl
  rw [← hs1] at hrun
  have hq : c ≠ quote ∧ c ≠ '(' ∧ c ≠ ')' ∧ m_isOperator s pre.length = false
      ∧ m_isNumber s pre.length = true := by
    rcases hc with hc | ⟨rfl, -⟩
    · obtain ⟨_, _, _, _, _, h6, h7, h8⟩ := numChar_ne hc
      exact ⟨h8, h6, h7, m_isOperator_numChar s _ c hget hc, m_isNumber_numChar s _ c hget hc⟩
    · obtain ⟨h1, h2⟩ := minus_at_atomStart s _ hget hstart
      exact ⟨by decide, by decide, by decide, h1, h2⟩
  obtain ⟨h1, h2, h3, h4, h5⟩ := hq
  simp only [scanStep, hget, h1, h2, h3, h4, h5, hlen, if_false, if_true,
    parseNumber_cons s _ _ c hget h5, hrun, Bool.false_eq_true]
  simp
  omega

theorem scanStep_operator (s pre post : Str) (d : Char) (op : BinOp) (S O : List Str)
    (hs : s = pre ++ d :: op.char :: post) (hd : numChar d = true ∨ d = ')') :
    scanStep s ⟨pre.length + 1, S, O⟩
      = .ret ⟨pre.length + 2, [op.char] :: (popOperators op.prec S O).1,
          (popOperators op.prec S O).2⟩
      ∧ m_isOperator s (pre.length + 1) = true := by
  have hg1 : s[pre.length]? = some d := by rw [hs]; exact getElem?_mid _ _ _
  have hg2 : s[pre.length + 1]? = some op.char := by rw [hs]; exact getElem?_mid_succ _ _ _ _
  have hop := m_isOperator_after_atom s _ d op hg1 hg2 hd
  obtain ⟨h1, -, -, -, h5, -⟩ := op.char_facts
  refine ⟨?_, hop⟩
  simp [scanStep, hg2, h1, hop, h5]

theorem scanStep_lparen (s pre post : Str) (S O : List Str)
    (hs : s = pre ++ '(' :: post) :
    scanStep s ⟨pre.length, S, O⟩ = .ret ⟨pre.length + 1, ['('] :: S, O⟩ := by
  have hg : s[pre.length]? = some '(' := by rw [hs]; exact getElem?_mid _ _ _
  have hop := m_isOperator_other s _ _ hg (by decide) (by decide) (by decide) (by decide)
    (by decide)
  have hq : '(' ≠ quote := by decide
  simp [scanStep, hg, hop, hq]

theorem scanStep_rparen (s pre post : Str) (xs S O : List Str)
    (hs : s = pre ++ ')' :: post) (hxs : ∀ x ∈ xs, x ≠ ['(']) :
    scanStep s ⟨pre.length, xs ++ ['('] :: S, O⟩ = .ret ⟨pre.length + 1, S, O ++ xs⟩ := by
  have hg : s[pre.length]? = some ')' := by rw [hs]; exact getElem?_mid _ _ _
  have hop := m_isOperator_other s _ _ hg (by decide) (by decide) (by decide) (by decide)
    (by decide)
  have hq : ')' ≠ quote := by decide
  have hp : ')' ≠ '(' := by decide
  simp [scanStep, hg, hop, hq, hp, popToLParen_append xs S O hxs]

theorem scanStep_function (s pre post : Str) (f : Fn) (S O : List Str)
    (hs : s = pre ++ f.name ++ '(' :: post) :
    scanStep s ⟨pre.length, S, O⟩ = .ret ⟨pre.length + f.name.length, f.name :: S, O⟩ := by
  obtain ⟨c, rest, hname, h1, h2, h3, h4, h5, h6, h7, h8, h9, h10, -⟩ := f.name_facts
  have hg : s[pre.length]? = some c := by
    rw [hs, hname]; simpa using getElem?_mid pre (rest ++ '(' :: post) c
  have hop := m_isOperator_other s _ _ hg h4 h5 h6 h7 h8
  have hnum := m_isNumber_other s _ _ hg h9 h5
  have hlen : s.length - pre.length = f.name.length + 1 + post.length := by
    rw [hs]; simp; omega
  have hrun := parseFunction_run f.name pre post _ h10 rfl
  rw [← hs] at hrun
  simp [scanStep, hg, h1, h2, h3, hop, hnum, hlen, hrun]

/-! ## The scan of a well-formed expression -/

namespace Expr

theorem two_le_level (e : Expr) : 2 ≤ e.level := by
  cases e with
  | bin op l r => exact op.char_facts.2.2.2.2.2.2.2
  | lit t => simp [level]
  | paren e => simp [level]
  | call f e => simp [level]

theorem emitted_append_pending (e : Expr) : e.emitted ++ e.pending = e.rpn := by
  induction e with
  | lit t => rfl
  | bin op l r _ ihr => simp [emitted, pending, rpn, ← ihr]
  | paren e _ => simp [emitted, pending, rpn]
  | call f e _ => simp [emitted, pending, rpn]

theorem text_last (e : Expr) (h : e.shaped = true) :
    ∃ init d, e.text = init ++ [d] ∧ (numChar d = true ∨ d = ')') := by
  induction e with
  | lit t =>
    obtain ⟨init, d, h1, h2⟩ := isNumeral_last (t := t) (by simpa [shaped] using h)
    exact ⟨init, d, h1, Or.inl h2⟩
  | bin op l r _ ihr =>
    simp only [shaped, Bool.and_eq_true] at h
    obtain ⟨init, d, h1, h2⟩ := ihr h.1.1.2
    exact ⟨l.text ++ op.char :: init, d, by simp [text, h1], h2⟩
  | paren e _ => exact ⟨'(' :: e.text, ')', by simp [text], Or.inr rfl⟩
  | call f e _ => exact ⟨f.name ++ '(' :: e.text, ')', by simp [text], Or.inr rfl⟩

theorem pending_spec (e : Expr) (h : e.shaped = true) :
    ∀ x ∈ e.pending, e.level ≤ m_precendenceStr x ∧ x ≠ ['('] := by
  induction e with
  | lit t => simp [pending]
  | bin op l r _ ihr =>
    simp only [shaped, Bool.and_eq_true, decide_eq_true_eq] at h
    intro x hx
    simp only [pending, List.mem_append, List.mem_singleton] at hx
    rcases hx with hx | rfl
    · have := ihr h.1.1.2 x hx
      exact ⟨by simp only [level]; omega, this.2⟩
    · obtain ⟨-, -, -, -, -, h6, h7, -⟩ := op.char_facts
      exact ⟨by simp [level, h6], h7⟩
  | paren e _ => simp [pending]
  | call f e _ =>
    obtain ⟨c, rest, -, -, -, -, -, -, -, -, -, -, -, h11, h12⟩ := f.name_facts
    intro x hx
    simp only [pending, List.mem_singleton] at hx
    subst hx
    exact ⟨by simp [level, h11], h12⟩

/-- The passes of the loop over the text of a well-formed expression: the
expression starts where an operand may start, the operator stack holds nothing
that its operators would pop; then the loop arrives behind the text with the
pending entries pushed and the other tokens emitted. -/
theorem scan_text (e : Expr) : e.shaped = true →
    ∀ (s pre post : Str) (S O : List Str) (fuel : Nat),
    s = pre ++ e.text ++ post →
    atomStart s pre.length →
    (∀ c, post.head? = some c → numChar c = false) →
    (∀ top, S.head? = some top → m_precendenceStr top < e.level) →
    scan s (fuel + e.passes) ⟨pre.length, S, O⟩
      = scan s fuel ⟨pre.length + e.text.length, e.pending ++ S, O ++ e.emitted⟩ := by
  induction e with
  | lit t =>
    intro h s pre post S O fuel hs hstart hpost _
    have hstep := scanStep_number s pre t post S O hs (by simpa [shaped] using h)
      hstart hpost
    obtain ⟨c, u, rfl, -, -⟩ := isNumeral_cases (t := t) (by simpa [shaped] using h)
    rw [passes, scan_succ s fuel _ _ (by rw [hs]; simp [text]) hstep]
    simp [text, pending, emitted]
  | bin op l r ihl ihr =>
    intro h s pre post S O fuel hs hstart hpost hS
    simp only [shaped, Bool.and_eq_true, decide_eq_true_eq] at h
    obtain ⟨⟨⟨hl, hr⟩, hpl⟩, hpr⟩ := h
    obtain ⟨-, -, -, f4, -, f6, -, -⟩ := op.char_facts
    obtain ⟨init, d, hinit, hd⟩ := l.text_last hl
    -- the left operand
    have e1 := ihl hl s pre (op.char :: r.text ++ post) S O (fuel + r.passes + 1)
      (by rw [hs]; simp [text]) hstart
      (fun c hc => by simp at hc; subst hc; exact f4)
      (fun top htop => by have := hS top htop; simp only [level] at this; omega)
    -- the operator
    have hs2 : s = (pre ++ init) ++ d :: op.char :: (r.text ++ post) := by
      rw [hs]; simp [text, hinit]
    obtain ⟨e2, hop⟩ := scanStep_operator s (pre ++ init) (r.text ++ post) d op
      (l.pending ++ S) (O ++ l.emitted) hs2 hd
    have hpop : popOperators op.prec (l.pending ++ S) (O ++ l.emitted) = (S, O ++ l.rpn) := by
      rw [popOperators_append op.prec l.pending S _
        (fun x hx => le_trans hpl (l.pending_spec hl x hx).1)]
      rw [popOperators_stop op.prec S _ (fun top htop => by simpa [level] using hS top htop)]
      simp [← l.emitted_append_pending]
    rw [hpop] at e2
    have hidx : pre.length + l.text.length = (pre ++ init).length + 1 := by
      simp [hinit]; omega
    have e2b := scan_succ s (fuel + r.passes) _ _
      (by rw [hs2]; simp; omega) e2
    -- the right operand
    have e3 := ihr hr s (pre ++ l.text ++ [op.char]) post ([op.char] :: S) (O ++ l.rpn) fuel
      (by rw [hs]; simp [text])
      (Or.inr ⟨(pre ++ init).length + 1, by simp [hinit]; omega, Or.inr hop⟩) hpost
      (fun top htop => by simp at htop; subst htop; rw [f6]; exact hpr)
    have hidx2 : (pre ++ l.text ++ [op.char]).length = (pre ++ init).length + 2 := by
      simp [hinit]; omega
    rw [hidx2] at e3
    have hfuel : fuel + (bin op l r).passes = fuel + r.passes + 1 + l.passes := by
      simp only [passes]; omega
    rw [hfuel, e1, hidx, e2b, e3]
    congr 2
    · simp [text, hinit]; omega
    · simp [pending]
    · simp [emitted]
  | paren e ih =>
    intro h s pre post S O fuel hs hstart hpost _
    simp only [shaped] at h
    have e1 := scan_succ s (fuel + 1 + e.passes) _ _ (by rw [hs]; simp [text])
      (scanStep_lparen s pre (e.text ++ ')' :: post) S O (by rw [hs]; simp [text]))
    have hg : s[pre.length]? = some '(' := by
      rw [hs]; simpa [text] using getElem?_mid pre (e.text ++ ')' :: post) '('
    have e2 := ih h s (pre ++ ['(']) (')' :: post) (['('] :: S) O (fuel + 1)
      (by rw [hs]; simp [text])
      (Or.inr ⟨pre.length, by simp, Or.inl hg⟩)
      (fun c hc => by simp at hc; subst hc; decide)
      (fun top htop => by
        simp at htop; subst htop
        exact lt_of_lt_of_le (by decide) e.two_le_level)
    have e3 := scan_succ s fuel _ _ (by rw [hs]; simp [text])
      (scanStep_rparen s (pre ++ '(' :: e.text) post e.pending S (O ++ e.emitted)
        (by rw [hs]; simp [text]) (fun x hx => (e.pending_spec h x hx).2))
    have hfuel : fuel + (paren e).passes = fuel + 1 + e.passes + 1 := by
      simp only [passes]; omega
    have hidx : (pre ++ ['(']).length = pre.length + 1 := by simp
    have hidx2 : (pre ++ '(' :: e.text).length = pre.length + 1 + e.text.length := by
      simp; omega
    rw [hidx] at e2
    rw [hidx2] at e3
    rw [hfuel, e1, e2, e3]
    congr 2
    · simp [text]; omega
    · simp [emitted, ← e.emitted_append_pending]
  | call f e ih =>
    intro h s pre post S O fuel hs hstart hpost _
    simp only [shaped] at h
    obtain ⟨c, rest, hname, -, -, -, -, -, -, -, -, -, -, -, -⟩ := f.name_facts
    have e0 := scan_succ s (fuel + 1 + e.passes + 1) _ _ (by rw [hs]; simp [text, hname])
      (scanStep_function s pre (e.text ++ ')' :: post) f S O (by rw [hs]; simp [text]))
    have hidx0 : pre.length + f.name.length = (pre ++ f.name).length := by simp
    have e1 := scan_succ s (fuel + 1 + e.passes) _ _ (by rw [hs]; simp [text])
      (scanStep_lparen s (pre ++ f.name) (e.text ++ ')' :: post) (f.name :: S) O
        (by rw [hs]; simp [text]))
    have hg : s[(pre ++ f.name).length]? = some '(' := by
      rw [hs]
      have := getElem?_mid (pre ++ f.name) (e.text ++ ')' :: post) '('
      simpa [text] using this
    have e2 := ih h s (pre ++ f.name ++ ['(']) (')' :: post) (['('] :: f.name :: S) O (fuel + 1)
      (by rw [hs]; simp [text])
      (Or.inr ⟨(pre ++ f.name).length, by simp; omega, Or.inl hg⟩)
      (fun c hc => by simp at hc; subst hc; decide)
      (fun top htop => by
        simp at htop; subst htop
        exact lt_of_lt_of_le (by decide) e.two_le_level)
    have e3 := scan_succ s fuel _ _ (by rw [hs]; simp [text])
      (scanStep_rparen s (pre ++ f.name ++ '(' :: e.text) post e.pending (f.name :: S)
        (O ++ e.emitted) (by rw [hs]; simp [text]) (fun x hx => (e.pending_spec h x hx).2))
    have hfuel : fuel + (call f e).passes = fuel + 1 + e.passes + 1 + 1 := by
      simp only [passes]; omega
    have hidx : (pre ++ f.name ++ ['(']).length = (pre ++ f.name).length + 1 := by
      simp; omega
    have hidx2 : (pre ++ f.name ++ '(' :: e.text).length
        = (pre ++ f.name).length + 1 + e.text.length := by
      simp; omega
    rw [hidx] at e2
    rw [hidx2] at e3
    rw [hfuel, e0, hidx0, e1, e2, e3]
    congr 2
    · simp [text]; omega
    · simp [emitted, ← e.emitted_append_pending]

end Expr

/-! ## White space and tokens -/

theorem readTokens_flatten (s : Str) : ∀ cur : Str,
    (readTokens s cur).flatten = cur ++ s.filter (fun c => !isspace c) := by
  induction s with
  | nil => intro cur; cases cur <;> simp [readTokens]
  | cons c cs ih =>
    intro cur
    by_cases hc : isspace c = true
    · cases cur <;> simp [readTokens, hc, ih]
    · simp [readTokens, hc, ih]

theorem stripWS_eq_filter (s : Str) : stripWS s = s.filter (fun c => !isspace c) := by
  simp [stripWS, tokens, readTokens_flatten]

theorem stripWS_append (s t : Str) : stripWS (s ++ t) = stripWS s ++ stripWS t := by
  simp [stripWS_eq_filter]

theorem stripWS_plain (s : Str) (h : ∀ c ∈ s, isspace c = false) : stripWS s = s := by
  rw [stripWS_eq_filter, List.filter_eq_self]
  intro c hc
  simp [h c hc]

theorem readTokens_plain (t : Str) : ∀ (cur rest : Str), (∀ c ∈ t, isspace c = false) →
    cur ++ t ≠ [] →
    readTokens (t ++ ' ' :: rest) cur = (cur ++ t) :: readTokens rest [] := by
  induction t with
  | nil =>
    intro cur rest _ hne
    have h1 : cur ≠ [] := by simpa using hne
    have h2 : isspace ' ' = true := by decide
    simp [readTokens, h1, h2]
  | cons c t ih =>
    intro cur rest ht hne
    have hc := ht c (List.mem_cons_self _ _)
    have := ih (cur ++ [c]) rest (fun x hx => ht x (List.mem_cons_of_mem _ hx)) (by simp)
    rw [List.cons_append]
    simp only [readTokens, hc, Bool.false_eq_true, if_false]
    rw [this]
    simp

/-- Reading back the tokens of an assembled string gives the queue it was
assembled from, when no token is empty or contains white space. -/
theorem tokens_joinQueue (ts : List Str)
    (h : ∀ t ∈ ts, t ≠ [] ∧ ∀ c ∈ t, isspace c = false) : tokens (joinQueue ts) = ts := by
  induction ts with
  | nil => rfl
  | cons t ts ih =>
    have ht := h t (List.mem_cons_self _ _)
    have hrest := ih (fun x hx => h x (List.mem_cons_of_mem _ hx))
    unfold tokens at hrest ⊢
    rw [joinQueue, readTokens_plain t [] (joinQueue ts) ht.2 (by simpa using ht.1), hrest]
    simp

theorem joinQueue_last (ts : List Str) (hne : ts ≠ [])
    (h : ∀ t ∈ ts, t ≠ [] ∧ ∀ c ∈ t, c ≠ '(') :
    ∃ init d, joinQueue ts = init ++ [d, ' '] ∧ d ≠ '(' := by
  induction ts with
  | nil => exact absurd rfl hne
  | cons t ts ih =>
    have ht := h t (List.mem_cons_self _ _)
    cases ts with
    | nil =>
      rcases List.eq_nil_or_concat t with h0 | ⟨init, d, rfl⟩
      · exact absurd h0 ht.1
      · exact ⟨init, d, by simp [joinQueue], ht.2 d (by simp)⟩
    | cons t2 ts =>
      obtain ⟨init, d, h1, h2⟩ := ih (by simp) (fun x hx => h x (List.mem_cons_of_mem _ hx))
      exact ⟨t ++ ' ' :: init, d, by rw [joinQueue, h1]; simp, h2⟩

theorem checkLParenthesis_plain (ts : List Str) (hne : ts ≠ [])
    (h : ∀ t ∈ ts, t ≠ [] ∧ ∀ c ∈ t, isspace c = false ∧ c ≠ '(') :
    checkLParenthesis (joinQueue ts) = .ret (joinQueue ts) := by
  obtain ⟨init, d, h1, h2⟩ := joinQueue_last ts hne
    (fun t ht => ⟨(h t ht).1, fun c hc => ((h t ht).2 c hc).2⟩)
  have htok := tokens_joinQueue ts (fun t ht => ⟨(h t ht).1, fun c hc => ((h t ht).2 c hc).1⟩)
  have hmem : ['('] ∉ ts := fun hm => ((h _ hm).2 '(' (by simp)).2 rfl
  have hlen : ¬ (joinQueue ts).length < 2 := by rw [h1]; simp
  have hget : (joinQueue ts)[(joinQueue ts).length - 2]? = some d := by
    rw [h1]
    have : (init ++ [d, ' ']).length - 2 = init.length := by simp
    rw [this]
    exact getElem?_mid init [' '] d
  have hd : some d ≠ some '(' := by simpa using h2
  simp only [checkLParenthesis, hlen, hget, if_false, htok, hmem]
  simp [h2]

/-! ## Conversion and evaluation of a well-formed expression -/

theorem numChar_plain {c : Char} (h : numChar c = true) : isspace c = false ∧ c ≠ '(' := by
  refine ⟨?_, (numChar_ne h).2.2.2.2.2.1⟩
  by_contra hs
  have hs1 : isspace c = true := by simpa using hs
  simp only [isspace, Bool.or_eq_true, beq_iff_eq] at hs1
  rcases hs1 with ((((rfl | rfl) | rfl) | rfl) | rfl) | rfl <;> revert h <;> decide

theorem isNumeral_plain {t : Str} (h : isNumeral t = true) :
    t ≠ [] ∧ ∀ c ∈ t, isspace c = false ∧ c ≠ '(' := by
  obtain ⟨c, u, rfl, hu, hc⟩ := isNumeral_cases h
  refine ⟨by simp, ?_⟩
  intro x hx
  rcases List.mem_cons.mp hx with rfl | hx
  · rcases hc with hc | ⟨rfl, -⟩
    · exact numChar_plain hc
    · decide
  · exact numChar_plain (hu x hx)

theorem BinOp.token_plain (op : BinOp) :
    isspace op.char = false ∧ op.char ≠ '(' := by
  cases op <;> decide

theorem Fn.name_plain (f : Fn) : ∀ c ∈ f.name, isspace c = false ∧ c ≠ '(' := by
  cases f <;> decide

namespace Expr

theorem rpn_ne_nil (e : Expr) : e.rpn ≠ [] := by
  induction e <;> simp_all [rpn]

theorem rpn_plain (e : Expr) (h : e.shaped = true) :
    ∀ t ∈ e.rpn, t ≠ [] ∧ ∀ c ∈ t, isspace c = false ∧ c ≠ '(' := by
  induction e with
  | lit t =>
    intro x hx
    simp only [rpn, List.mem_singleton] at hx
    subst hx
    exact isNumeral_plain (by simpa [shaped] using h)
  | bin op l r ihl ihr =>
    simp only [shaped, Bool.and_eq_true, decide_eq_true_eq] at h
    intro x hx
    simp only [rpn, List.mem_append, List.mem_singleton] at hx
    rcases hx with (hx | hx) | rfl
    · exact ihl h.1.1.1 x hx
    · exact ihr h.1.1.2 x hx
    · refine ⟨by simp, ?_⟩
      intro c hc
      simp only [List.mem_singleton] at hc
      subst hc
      exact op.token_plain
  | paren e ih => exact ih (by simpa [shaped] using h)
  | call f e ih =>
    intro x hx
    simp only [rpn, List.mem_append, List.mem_singleton] at hx
    rcases hx with hx | rfl
    · exact ih (by simpa [shaped] using h) x hx
    · obtain ⟨c, rest, hname, -⟩ := f.name_facts
      exact ⟨by simp [hname], f.name_plain⟩

theorem passes_le (e : Expr) (h : e.shaped = true) : e.passes ≤ e.text.length := by
  induction e with
  | lit t =>
    obtain ⟨c, u, rfl, -, -⟩ := isNumeral_cases (t := t) (by simpa [shaped] using h)
    simp [passes, text]
  | bin op l r ihl ihr =>
    simp only [shaped, Bool.and_eq_true, decide_eq_true_eq] at h
    have := ihl h.1.1.1
    have := ihr h.1.1.2
    simp [passes, text]
    omega
  | paren e ih =>
    have := ih (by simpa [shaped] using h)
    simp [passes, text]
    omega
  | call f e ih =>
    have := ih (by simpa [shaped] using h)
    obtain ⟨c, rest, hname, -⟩ := f.name_facts
    simp [passes, text, hname]
    omega

theorem text_ne_nil (e : Expr) (h : e.shaped = true) : e.text ≠ [] := by
  obtain ⟨init, d, h1, -⟩ := e.text_last h
  simp [h1]

/-- The conversion of a well-formed expression, with white space anywhere in
it, stores its reverse polish notation. -/
theorem make_rpn (e : Expr) (h : e.shaped = true) (x : Str) (hx : stripWS x = e.text) :
    m_make_rpn x = some (.ret (joinQueue e.rpn)) := by
  have hne := e.text_ne_nil h
  have hx1 : ¬ (x.isEmpty = true ∨ x = [' ']) := by
    rintro (h0 | h0)
    · have : x = [] := by simpa using h0
      subst this
      exact hne (hx.symm.trans rfl)
    · subst h0
      exact hne (hx.symm.trans rfl)
  have hscan := e.scan_text h e.text [] [] [] [] (e.text.length - e.passes) (by simp)
    (Or.inl rfl) (by simp) (by simp)
  have hfuel : e.text.length - e.passes + e.passes = e.text.length :=
    Nat.sub_add_cancel (e.passes_le h)
  rw [hfuel] at hscan
  simp only [List.length_nil, Nat.zero_add, List.append_nil, List.nil_append] at hscan
  rw [scan_end e.text (e.text.length - e.passes) ⟨e.text.length, e.pending, e.emitted⟩
    (le_refl _)] at hscan
  simp only [m_make_rpn, hx1, if_false, hx, hscan]
  rw [e.emitted_append_pending, checkLParenthesis_plain e.rpn e.rpn_ne_nil (e.rpn_plain h)]

end Expr

theorem isLiteral_head {u : Str} (h : isLiteral u = true) :
    ∃ c r, u = c :: r ∧ numChar c = true ∧
      (c.isDigit = true ∨ (c = '.' ∧ ∃ d r1, r = d :: r1 ∧ d.isDigit = true)) := by
  obtain ⟨hall, hne⟩ := isLiteral_chars h
  simp only [isLiteral, Bool.and_eq_true, List.any_eq_true, decide_eq_true_eq] at h
  obtain ⟨⟨-, x, hx, hxd⟩, hcount⟩ := h
  cases u with
  | nil => exact absurd rfl hne
  | cons c r =>
    refine ⟨c, r, rfl, hall c (List.mem_cons_self _ _), ?_⟩
    by_cases hd : c.isDigit = true
    · exact Or.inl hd
    · right
      have hc : c = '.' := by
        have := hall c (List.mem_cons_self _ _)
        simpa [numChar, hd] using this
      subst hc
      refine ⟨rfl, ?_⟩
      have hcnt : r.count '.' = 0 := by
        simp only [List.count_cons_self] at hcount
        omega
      have hnot : '.' ∉ r := List.count_eq_zero.mp hcnt
      have hxr : x ∈ r := by
        rcases List.mem_cons.mp hx with rfl | hxr
        · exact absurd hxd hd
        · exact hxr
      cases r with
      | nil => simp at hxr
      | cons d r1 =>
        refine ⟨d, r1, rfl, ?_⟩
        have hdn := hall d (by simp)
        have hd2 : d ≠ '.' := fun hd2 => hnot (by simp [hd2])
        simpa [numChar, hd2] using hdn

theorem stodAccepts_unsigned {u : Str} (h : isLiteral u = true) :
    stodAccepts u = true ∧ stodAccepts ('-' :: u) = true := by
  obtain ⟨c, r, rfl, hc, hcase⟩ := isLiteral_head h
  obtain ⟨h1, h2, -⟩ := numChar_ne hc
  have hsp := (numChar_plain hc).1
  have hm : isspace '-' = false := by decide
  rcases hcase with hd | ⟨rfl, d, r1, rfl, hd⟩
  · simp [stodAccepts, List.dropWhile, hsp, hm, h1, h2, hd]
  · have hp : Char.isDigit '.' = false := by decide
    simp [stodAccepts, List.dropWhile, hsp, hm, hd, hp]

theorem stodAccepts_numeral {t : Str} (h : isNumeral t = true) : stodAccepts t = true := by
  simp only [isNumeral, Bool.or_eq_true] at h
  rcases h with h | h
  · exact (stodAccepts_unsigned h).1
  · cases t with
    | nil => simp at h
    | cons c u =>
      simp only [Bool.and_eq_true, beq_iff_eq] at h
      obtain ⟨rfl, hu⟩ := h
      exact (stodAccepts_unsigned hu).2

/-! ## The number test of the evaluator -/

theorem m_isNumberStr_rejected {α : Type} (A : Arith α) {t : Str}
    (h : stodAccepts t = false) : m_isNumberStr A t = .ret false := by
  simp [m_isNumberStr, h]

theorem m_isNumberStr_value {α : Type} (A : Arith α) {t : Str} {v : α}
    (h : stodAccepts t = true) (hv : A.stod t = some v) : m_isNumberStr A t = .ret true := by
  simp [m_isNumberStr, h, hv]

theorem m_isNumberStr_range {α : Type} (A : Arith α) {t : Str}
    (h : stodAccepts t = true) (hv : A.stod t = none) :
    m_isNumberStr A t = .thrown .STD_OUT_OF_RANGE := by
  simp [m_isNumberStr, h, hv]

/-- The number test returns, or `std::out_of_range` leaves it. -/
theorem m_isNumberStr_cases {α : Type} (A : Arith α) (t : Str) :
    (stodAccepts t = false ∧ m_isNumberStr A t = .ret false) ∨
    (stodAccepts t = true ∧ ∃ v, A.stod t = some v ∧ m_isNumberStr A t = .ret true) ∨
    (stodAccepts t = true ∧ A.stod t = none ∧ m_isNumberStr A t = .thrown .STD_OUT_OF_RANGE) := by
  cases h : stodAccepts t with
  | false => exact Or.inl ⟨rfl, m_isNumberStr_rejected A h⟩
  | true =>
    cases hv : A.stod t with
    | none => exact Or.inr (Or.inr ⟨rfl, rfl, m_isNumberStr_range A h hv⟩)
    | some v => exact Or.inr (Or.inl ⟨rfl, v, rfl, m_isNumberStr_value A h hv⟩)

theorem evalTokens_number {α : Type} (A : Arith α) {t : Str} {v : α}
    (h : stodAccepts t = true) (hv : A.stod t = some v) (rest : List Str)
    (numberStack : List α) :
    evalTokens A (t :: rest) numberStack = evalTokens A rest (v :: numberStack) := by
  simp [evalTokens, m_isNumberStr_value A h hv, hv]

theorem evalTokens_range {α : Type} (A : Arith α) {t : Str}
    (h : stodAccepts t = true) (hv : A.stod t = none) (rest : List Str)
    (numberStack : List α) :
    evalTokens A (t :: rest) numberStack = .thrown .STD_OUT_OF_RANGE := by
  simp [evalTokens, m_isNumberStr_range A h hv]

theorem evalTokens_operator {α : Type} (A : Arith α) {t : Str}
    (h : stodAccepts t = false) (ho : m_isOperatorStr t = true) (rest : List Str)
    (rVal lVal : α) (below : List α) :
    evalTokens A (t :: rest) (rVal :: lVal :: below)
      = match m_calc_operator A lVal rVal (t.headD (Char.ofNat 0)) with
        | .ret operatorCalcResult => evalTokens A rest (operatorCalcResult :: below)
        | .thrown e => .thrown e
        | .undefined => .undefined := by
  simp [evalTokens, m_isNumberStr_rejected A h, ho]

theorem evalTokens_function {α : Type} (A : Arith α) {t : Str}
    (h : stodAccepts t = false) (ho : m_isOperatorStr t = false)
    (hf : m_isFunction t ≠ .NONE) (rest : List Str) (val : α) (below : List α) :
    evalTokens A (t :: rest) (val :: below)
      = match m_calc_function A val (m_isFunction t) with
        | .ret functionCalcResult => evalTokens A rest (functionCalcResult :: below)
        | .thrown e => .thrown e
        | .undefined => .undefined := by
  simp [evalTokens, m_isNumberStr_rejected A h, ho, hf]

theorem evalTokens_unknown {α : Type} (A : Arith α) {t : Str}
    (h : stodAccepts t = false) (ho : m_isOperatorStr t = false)
    (hf : m_isFunction t = .NONE) (rest : List Str) (numberStack : List α) :
    evalTokens A (t :: rest) numberStack = .thrown .INPUT_EXPR_SYNTAX_ERROR := by
  simp [evalTokens, m_isNumberStr_rejected A h, ho, hf]

/-- The numeral of one digit has a value. -/
theorem Arith.stod_digit_value {α : Type} (A : Arith α) (c : Char)
    (hc : c ∈ ['0', '1', '2', '3', '4', '5', '6', '7', '8', '9']) : ∃ v, A.stod [c] = some v := by
  have := A.stod_digit c hc
  cases h : A.stod [c] with
  | none => simp [h] at this
  | some v => exact ⟨v, rfl⟩

theorem BinOp.operator_token_facts {α : Type} (A : Arith α) (op : BinOp) (lVal rVal : α) :
    stodAccepts [op.char] = false ∧ m_isOperatorStr [op.char] = true ∧
      m_calc_operator A lVal rVal ([op.char].headD (Char.ofNat 0)) = .ret (op.apply A lVal rVal) := by
  cases op <;> exact ⟨by decide, by decide, rfl⟩

theorem Fn.function_token_facts {α : Type} (A : Arith α) (f : Fn) (val : α) :
    stodAccepts f.name = false ∧ m_isOperatorStr f.name = false ∧
      m_isFunction f.name ≠ .NONE ∧
      m_calc_function A val (m_isFunction f.name) = .ret (f.apply A val) := by
  cases f <;> exact ⟨by decide, by decide, by decide, rfl⟩

namespace Expr

/-- The value of an expression is `none` exactly when one of its literals is
outside the range of `double`. -/
theorem value_eq_none_iff {α : Type} (A : Arith α) (e : Expr) :
    e.value A = none ↔ ∃ t ∈ e.literals, A.stod t = none := by
  induction e with
  | lit t => simp [value, literals]
  | bin op l r ihl ihr =>
    simp only [value, literals, List.mem_append]
    cases hl : l.value A with
    | none =>
      obtain ⟨t, ht, h⟩ := ihl.mp hl
      simp only [true_iff]
      exact ⟨t, Or.inl ht, h⟩
    | some a =>
      cases hr : r.value A with
      | none =>
        obtain ⟨t, ht, h⟩ := ihr.mp hr
        simp only [true_iff]
        exact ⟨t, Or.inr ht, h⟩
      | some b =>
        constructor
        · intro h
          cases h
        · rintro ⟨t, ht | ht, h⟩
          · have := ihl.mpr ⟨t, ht, h⟩
            rw [hl] at this
            cases this
          · have := ihr.mpr ⟨t, ht, h⟩
            rw [hr] at this
            cases this
  | paren e ih => simpa [value, literals] using ih
  | call f e ih =>
    simp only [value, literals]
    cases he : e.value A with
    | none =>
      simp only [true_iff]
      exact ih.mp he
    | some a =>
      constructor
      · intro h
        cases h
      · intro h
        have := ih.mpr h
        rw [he] at this
        cases this

/-- The evaluator, on the reverse polish notation of a well-formed expression
followed by other tokens, pushes the value of the expression and goes on, or
throws `std::out_of_range` at the first literal outside the range. -/
theorem evalTokens_rpn {α : Type} (A : Arith α) (e : Expr) (h : e.shaped = true) :
    ∀ (rest : List Str) (numberStack : List α),
    evalTokens A (e.rpn ++ rest) numberStack
      = match e.value A with
        | some v => evalTokens A rest (v :: numberStack)
        | none => .thrown .STD_OUT_OF_RANGE := by
  induction e with
  | lit t =>
    intro rest numberStack
    have hacc := stodAccepts_numeral (t := t) (by simpa [shaped] using h)
    cases hv : A.stod t with
    | none => simpa [rpn, value, hv] using evalTokens_range A hacc hv rest numberStack
    | some v => simpa [rpn, value, hv] using evalTokens_number A hacc hv rest numberStack
  | bin op l r ihl ihr =>
    intro rest numberStack
    simp only [shaped, Bool.and_eq_true, decide_eq_true_eq] at h
    simp only [rpn, List.append_assoc, ihl h.1.1.1, value]
    cases hl : l.value A with
    | none => rfl
    | some lVal =>
      simp only [ihr h.1.1.2]
      cases hr : r.value A with
      | none => rfl
      | some rVal =>
        obtain ⟨h1, h2, h3⟩ := op.operator_token_facts A lVal rVal
        simp only [List.singleton_append]
        rw [evalTokens_operator A h1 h2, h3]
  | paren e ih =>
    intro rest numberStack
    simpa [rpn, value] using ih (by simpa [shaped] using h) rest numberStack
  | call f e ih =>
    intro rest numberStack
    simp only [rpn, List.append_assoc, ih (by simpa [shaped] using h), value]
    cases he : e.value A with
    | none => rfl
    | some val =>
      obtain ⟨h1, h2, h3, h4⟩ := f.function_token_facts A val
      simp only [List.singleton_append]
      rw [evalTokens_function A h1 h2 h3, h4]

theorem joinQueue_rpn_ne_nil (e : Expr) (h : e.shaped = true) :
    (joinQueue e.rpn).isEmpty = false := by
  obtain ⟨init, d, h1, -⟩ := joinQueue_last e.rpn e.rpn_ne_nil
    (fun t ht => ⟨(e.rpn_plain h t ht).1, fun c hc => ((e.rpn_plain h t ht).2 c hc).2⟩)
  simp [h1]

/-- The evaluation of the reverse polish notation of a well-formed expression
returns its value, or throws `std::out_of_range`. -/
theorem calc_rpn {α : Type} (A : Arith α) (e : Expr) (h : e.shaped = true) :
    m_calc_rpn A (joinQueue e.rpn)
      = match e.value A with
        | some v => .ret v
        | none => .thrown .STD_OUT_OF_RANGE := by
  have htok := tokens_joinQueue e.rpn
    (fun t ht => ⟨(e.rpn_plain h t ht).1, fun c hc => ((e.rpn_plain h t ht).2 c hc).1⟩)
  have := e.evalTokens_rpn A h [] []
  simp only [List.append_nil] at this
  simp only [m_calc_rpn, e.joinQueue_rpn_ne_nil h, Bool.false_eq_true, if_false, htok, this]
  cases e.value A <;> rfl

/-- The method `calculate` on a well-formed expression, without variables. -/
theorem calculate_text {α : Type} (A : Arith α) (e : Expr) (h : e.shaped = true)
    (x m_rpn : Str) (hx : stripWS x = e.text) :
    calculate A ⟨x, m_rpn⟩ []
      = some (match e.value A with
              | some v => .ret v
              | none => .thrown .STD_OUT_OF_RANGE, ⟨x, joinQueue e.rpn⟩) := by
  simp only [calculate, substitute, e.make_rpn h x hx, e.calc_rpn A h]

end Expr

end MathExprParser

namespace MathExprParser

theorem isNumeral_of_isLiteral {t : Str} (h : isLiteral t = true) : isNumeral t = true := by
  simp [isNumeral, h]

theorem isNumeral_minus {t : Str} (h : isLiteral t = true) : isNumeral ('-' :: t) = true := by
  simp [isNumeral, h]

theorem BinOp.prec_lt_five (op : BinOp) : op.prec < 5 := by
  cases op <;> decide

/-! ## Every sequence of operands and operators is a well-formed expression -/

namespace Expr

theorem level_bin (op : BinOp) (l r : Expr) : (bin op l r).level = op.prec := rfl

theorem level_lit (t : Str) : (lit t).level = 5 := rfl

theorem level_paren (e : Expr) : (paren e).level = 5 := rfl

theorem level_call (f : Fn) (e : Expr) : (call f e).level = 5 := rfl

theorem snoc_spec (e : Expr) (op : BinOp) (a : Expr)
    (ha : a.shaped = true) (hlev : a.level = 5) (he : e.shaped = true) :
    (e.snoc op a).shaped = true ∧ (e.snoc op a).text = e.text ++ op.char :: a.text ∧
      (e.snoc op a).level = min e.level op.prec ∧
      (e.snoc op a).unsigned = (e.unsigned && a.unsigned) := by
  have hop := op.prec_lt_five
  induction e with
  | lit t =>
    refine ⟨?_, rfl, ?_, rfl⟩
    · simp only [snoc, shaped, level_lit, Bool.and_eq_true, decide_eq_true_eq]
      exact ⟨⟨⟨he, ha⟩, by omega⟩, by omega⟩
    · simp only [snoc, level_bin, level_lit]; omega
  | paren e _ =>
    refine ⟨?_, rfl, ?_, rfl⟩
    · simp only [snoc, shaped, level_paren, Bool.and_eq_true, decide_eq_true_eq]
      exact ⟨⟨⟨he, ha⟩, by omega⟩, by omega⟩
    · simp only [snoc, level_bin, level_paren]; omega
  | call f e _ =>
    refine ⟨?_, rfl, ?_, rfl⟩
    · simp only [snoc, shaped, level_call, Bool.and_eq_true, decide_eq_true_eq]
      exact ⟨⟨⟨he, ha⟩, by omega⟩, by omega⟩
    · simp only [snoc, level_bin, level_call]; omega
  | bin o l r _ ihr =>
    have he1 := he
    simp only [shaped, Bool.and_eq_true, decide_eq_true_eq] at he1
    obtain ⟨⟨⟨hl, hr⟩, hol⟩, hor⟩ := he1
    obtain ⟨i1, i2, i3, i4⟩ := ihr hr
    by_cases hlt : o.prec < op.prec
    · simp only [snoc, hlt, if_true]
      refine ⟨?_, ?_, ?_, ?_⟩
      · simp only [shaped, Bool.and_eq_true, decide_eq_true_eq]
        exact ⟨⟨⟨hl, i1⟩, hol⟩, by rw [i3]; omega⟩
      · simp [text, i2]
      · simp only [level_bin]; omega
      · simp [unsigned, i4, Bool.and_assoc]
    · simp only [snoc, hlt, if_false]
      refine ⟨?_, rfl, ?_, rfl⟩
      · simp only [shaped, level_bin, Bool.and_eq_true, decide_eq_true_eq]
        exact ⟨⟨⟨⟨⟨⟨hl, hr⟩, hol⟩, hor⟩, ha⟩, by omega⟩, by omega⟩
      · simp only [level_bin]; omega

/-- Every sequence `a op a op a ...` of operands and operators among
`+ - * / ^` is the text of a well-formed expression, its reading by
precedence. -/
theorem read_wellFormed (rest : List (BinOp × Expr)) : ∀ (a : Expr),
    a.wellFormed = true → (∀ p ∈ rest, p.2.operand = true) →
    (read a rest).wellFormed = true ∧ (read a rest).text = sequenceText a rest := by
  induction rest with
  | nil => intro a ha _; exact ⟨ha, by simp [read, sequenceText]⟩
  | cons p rest ih =>
    intro a ha hrest
    have hp := hrest p (List.mem_cons_self _ _)
    simp only [operand, wellFormed, Bool.and_eq_true, decide_eq_true_eq] at hp ha
    obtain ⟨s1, s2, -, s4⟩ := snoc_spec a p.1 p.2 hp.1.1 hp.2 ha.1
    have hwf : (a.snoc p.1 p.2).wellFormed = true := by
      simp [wellFormed, s1, s4, ha.2, hp.1.2]
    obtain ⟨r1, r2⟩ := ih (a.snoc p.1 p.2) hwf (fun q hq => hrest q (List.mem_cons_of_mem _ hq))
    refine ⟨by simpa [read] using r1, ?_⟩
    have : read a (p :: rest) = read (a.snoc p.1 p.2) rest := rfl
    rw [this, r2]
    simp [sequenceText, s2]

end Expr

/-! ## The loop of the conversion ends -/

theorem parseNumber_le (s : Str) : ∀ n it, it ≤ (parseNumber s n it).2 := by
  intro n
  induction n with
  | zero => intro it; simp [parseNumber]
  | succ n ih =>
    intro it
    unfold parseNumber
    cases h : s[it]? with
    | none => simp
    | some c =>
      by_cases hn : m_isNumber s it = true
      · simp only [hn, if_true]
        exact le_trans (Nat.le_succ it) (ih (it + 1))
      · simp [hn]

theorem parseFunction_le (s : Str) : ∀ n it, it ≤ (parseFunction s n it).2 := by
  intro n
  induction n with
  | zero => intro it; simp [parseFunction]
  | succ n ih =>
    intro it
    unfold parseFunction
    cases h : s[it]? with
    | none => simp
    | some c =>
      by_cases hn : c = '('
      · simp [hn]
      · simp only [ne_eq, hn, not_false_eq_true, if_true]
        exact le_trans (Nat.le_succ it) (ih (it + 1))

/-- Every pass through the loop moves `it` forward. -/
theorem scanStep_progress (s : Str) (st st1 : Scan) (hlt : st.it < s.length)
    (h : scanStep s st = .ret st1) : st.it < st1.it := by
  obtain ⟨c, hc⟩ : ∃ c, s[st.it]? = some c := ⟨s[st.it], List.getElem?_eq_getElem hlt⟩
  obtain ⟨n, hn⟩ : ∃ n, s.length - st.it = n + 1 := ⟨s.length - st.it - 1, by omega⟩
  simp only [scanStep, hc] at h
  split_ifs at h with h1 h2 h3 h4 h5
  · cases h; simp
  · cases h; simp
  · cases h; simp
  · split at h
    · cases h
    · cases h; simp
  · cases h
    rw [hn, parseNumber_cons s n st.it c hc h5]
    exact parseNumber_le s n (st.it + 1)
  · cases h
    have : (parseFunction s (n + 1) st.it).2 = (parseFunction s n (st.it + 1)).2 := by
      simp [parseFunction, hc, h3]
    rw [hn]
    show st.it < (parseFunction s (n + 1) st.it).2
    rw [this]
    exact parseFunction_le s n (st.it + 1)

/-- The loop of `m_make_rpn` ends on the fuel it is given: one unit for each
character from `it` to the end is enough. -/
theorem scan_total (s : Str) : ∀ (fuel : Nat) (st : Scan), s.length - st.it ≤ fuel →
    ∃ out, scan s fuel st = some out := by
  intro fuel
  induction fuel with
  | zero =>
    intro st h
    exact ⟨.ret st, scan_end s 0 st (by omega)⟩
  | succ fuel ih =>
    intro st h
    by_cases hend : s.length ≤ st.it
    · exact ⟨.ret st, scan_end s _ st hend⟩
    · have hlt : st.it < s.length := by omega
      cases hstep : scanStep s st with
      | ret st1 =>
        have := scanStep_progress s st st1 hlt hstep
        rw [scan_succ s fuel st st1 hlt hstep]
        exact ih st1 (by omega)
      | thrown e => exact ⟨.thrown e, by simp [scan, hend, hstep]⟩
      | undefined => exact ⟨.undefined, by simp [scan, hend, hstep]⟩

/-- The method `m_make_rpn` ends on every expression. -/
theorem m_make_rpn_total (m_inputExpr : Str) : ∃ out, m_make_rpn m_inputExpr = some out := by
  unfold m_make_rpn
  split_ifs with h
  · exact ⟨_, rfl⟩
  · obtain ⟨out, hout⟩ := scan_total (stripWS m_inputExpr) (stripWS m_inputExpr).length
      ⟨0, [], []⟩ (by simp)
    simp only [hout]
    cases out with
    | ret st => exact ⟨_, rfl⟩
    | thrown e => exact ⟨_, rfl⟩
    | undefined => exact ⟨_, rfl⟩

/-! ## The claims -/

set_option maxRecDepth 100000 in
/-- The digit 1 followed by 309 zeros is an unsigned literal, and `std::stod`
throws `std::out_of_range` on it, with or without a minus sign. -/
theorem hugeLiteral_out_of_range :
    isLiteral hugeLiteral = true ∧
    exact.stod hugeLiteral = none ∧
    exact.stod ('-' :: hugeLiteral) = none ∧
    ∀ c ∈ hugeLiteral, isspace c = false := by
  decide

/-- C1, refuted as stated: the digit 1 followed by 309 zeros is a well-formed
expression, and `calculate` does not return on it: `std::stod` throws
`std::out_of_range`, which leaves `calculate`. -/
theorem calculate_literal_out_of_range :
    (Expr.lit hugeLiteral).wellFormed = true ∧
    calculate exact ⟨hugeLiteral, []⟩ []
      = some (.thrown .STD_OUT_OF_RANGE, ⟨hugeLiteral, joinQueue [hugeLiteral]⟩) ∧
    ¬ (∀ (e : Expr) (x m_rpn : Str), e.wellFormed = true → stripWS x = e.text →
        ∃ v p, calculate exact ⟨x, m_rpn⟩ [] = some (.ret v, p)) := by
  have hl := hugeLiteral_out_of_range
  have hwf : (Expr.lit hugeLiteral).wellFormed = true := by
    simp only [Expr.wellFormed, Expr.shaped, Expr.unsigned, isNumeral_of_isLiteral hl.1, hl.1,
      Bool.and_self]
  have hsh : (Expr.lit hugeLiteral).shaped = true := by
    simp only [Expr.shaped, isNumeral_of_isLiteral hl.1]
  have hx : stripWS hugeLiteral = (Expr.lit hugeLiteral).text := by
    rw [stripWS_eq_filter]
    simp only [Expr.text]
    rw [List.filter_eq_self]
    intro c hc
    simp [hl.2.2.2 c hc]
  have hval : (Expr.lit hugeLiteral).value exact = none := hl.2.1
  have hcalc : calculate exact ⟨hugeLiteral, []⟩ []
      = some (.thrown .STD_OUT_OF_RANGE, ⟨hugeLiteral, joinQueue [hugeLiteral]⟩) := by
    have := Expr.calculate_text exact _ hsh _ [] hx
    rw [hval] at this
    exact this
  refine ⟨hwf, hcalc, ?_⟩
  intro h
  obtain ⟨v, p, hv⟩ := h _ _ [] hwf hx
  rw [hcalc] at hv
  cases hv

/-- C1, amended: for every well-formed expression built from unsigned decimal
literals, the operators `+ - * / ^`, parentheses and calls of a lower-case
catalog function other than `atan2`, written with white space anywhere,
`calculate` with an empty variable list stores the reverse polish notation of
the expression and, when every literal is within the range of `double`,
returns the value of the expression read by precedence (`^` above `* /` above
`+ -`, equal precedence grouping to the left, a function applied to the value
of its argument); when `std::stod` throws `std::out_of_range` on one of the
literals, the expression has no value and that exception leaves
`calculate`. -/
theorem calculate_well_formed {α : Type} (A : Arith α) (e : Expr) (x m_rpn : Str)
    (hwf : e.wellFormed = true) (hx : stripWS x = e.text) :
    (∀ v, e.value A = some v →
      calculate A ⟨x, m_rpn⟩ [] = some (.ret v, ⟨x, joinQueue e.rpn⟩)) ∧
    (e.value A = none →
      calculate A ⟨x, m_rpn⟩ [] = some (.thrown .STD_OUT_OF_RANGE, ⟨x, joinQueue e.rpn⟩)) ∧
    (e.value A = none ↔ ∃ t ∈ e.literals, A.stod t = none) := by
  simp only [Expr.wellFormed, Bool.and_eq_true] at hwf
  have hcalc := e.calculate_text A hwf.1 x m_rpn hx
  refine ⟨?_, ?_, e.value_eq_none_iff A⟩
  · intro v hv
    rw [hv] at hcalc
    exact hcalc
  · intro hv
    rw [hv] at hcalc
    exact hcalc

/-- C1 at the expression `abs(16) + 2 ^ abs(3) ^ 2 * (7 - 1)`, whose value
is 400. -/
theorem calculate_well_formed_witness :
    (Expr.bin .plus (.call .abs (.lit ['1', '6']))
        (.bin .times (.bin .power (.bin .power (.lit ['2']) (.call .abs (.lit ['3'])))
          (.lit ['2'])) (.paren (.bin .minus (.lit ['7']) (.lit ['1']))))).wellFormed = true ∧
    calculate exact ⟨"abs(16) + 2 ^ abs(3) ^ 2 * (7 - 1)".toList, []⟩ []
      = some (.ret (some 400),
          ⟨"abs(16) + 2 ^ abs(3) ^ 2 * (7 - 1)".toList,
            "16 abs 2 3 abs ^ 2 ^ 7 1 - * + ".toList⟩) :=
  ⟨by decide,
    (calculate_well_formed exact
      (Expr.bin .plus (.call .abs (.lit ['1', '6']))
        (.bin .times (.bin .power (.bin .power (.lit ['2']) (.call .abs (.lit ['3'])))
          (.lit ['2'])) (.paren (.bin .minus (.lit ['7']) (.lit ['1'])))))
      "abs(16) + 2 ^ abs(3) ^ 2 * (7 - 1)".toList [] (by decide) (by decide)).1
      (some 400) (by decide)⟩

/-- C2: for unsigned literals `a b c` and operators `op1 op2` among
`+ - * / ^`, the expression `a op1 b op2 c`, with white space anywhere, converts
to the tokens `a b c op2 op1` when `op2` has strictly higher precedence than
`op1` and to `a b op1 c op2` otherwise, and evaluates accordingly when the
literals are within the range of `double`; `3 + 4 * 2` converts to `3 4 2 * +`
and gives 11, `2^3^2` converts to `2 3 ^ 2 ^` and gives 64. -/
theorem make_rpn_two_operators {α : Type} (A : Arith α) (a b c : Str) (op1 op2 : BinOp)
    (x m_rpn : Str) (ha : isLiteral a = true) (hb : isLiteral b = true)
    (hc : isLiteral c = true) (hx : stripWS x = a ++ op1.char :: b ++ op2.char :: c) :
    (m_make_rpn x = some (.ret (joinQueue
        (if op1.prec < op2.prec then [a, b, c, [op2.char], [op1.char]]
          else [a, b, [op1.char], c, [op2.char]]))) ∧
      ∀ va vb vc, A.stod a = some va → A.stod b = some vb → A.stod c = some vc →
        calculate A ⟨x, m_rpn⟩ [] = some (.ret
          (if op1.prec < op2.prec
            then op1.apply A va (op2.apply A vb vc)
            else op2.apply A (op1.apply A va vb) vc),
          ⟨x, joinQueue
            (if op1.prec < op2.prec then [a, b, c, [op2.char], [op1.char]]
              else [a, b, [op1.char], c, [op2.char]])⟩)) ∧
    (m_make_rpn "3 + 4 * 2".toList = some (.ret "3 4 2 * + ".toList) ∧
      m_calc_rpn exact "3 4 2 * + ".toList = .ret (some 11) ∧
      m_make_rpn "2^3^2".toList = some (.ret "2 3 ^ 2 ^ ".toList) ∧
      m_calc_rpn exact "2 3 ^ 2 ^ ".toList = .ret (some 64)) := by
  refine ⟨?_, by decide⟩
  have na := isNumeral_of_isLiteral ha
  have nb := isNumeral_of_isLiteral hb
  have nc := isNumeral_of_isLiteral hc
  have p1 := op1.prec_lt_five
  have p2 := op2.prec_lt_five
  by_cases hp : op1.prec < op2.prec
  · have hwf : (Expr.bin op1 (.lit a) (.bin op2 (.lit b) (.lit c))).shaped = true := by
      simp [Expr.shaped, Expr.level, na, nb, nc, hp]
      omega
    have hx1 : stripWS x = (Expr.bin op1 (.lit a) (.bin op2 (.lit b) (.lit c))).text := by
      simp [hx, Expr.text]
    have h1 := Expr.make_rpn _ hwf x hx1
    have h2 := Expr.calculate_text A _ hwf x m_rpn hx1
    simp only [hp, if_true]
    refine ⟨by simpa [Expr.rpn] using h1, ?_⟩
    intro va vb vc hva hvb hvc
    simpa [Expr.rpn, Expr.value, hva, hvb, hvc] using h2
  · have hwf : (Expr.bin op2 (.bin op1 (.lit a) (.lit b)) (.lit c)).shaped = true := by
      simp [Expr.shaped, Expr.level, na, nb, nc]
      omega
    have hx1 : stripWS x = (Expr.bin op2 (.bin op1 (.lit a) (.lit b)) (.lit c)).text := by
      simp [hx, Expr.text]
    have h1 := Expr.make_rpn _ hwf x hx1
    have h2 := Expr.calculate_text A _ hwf x m_rpn hx1
    simp only [hp, if_false]
    refine ⟨by simpa [Expr.rpn] using h1, ?_⟩
    intro va vb vc hva hvb hvc
    simpa [Expr.rpn, Expr.value, hva, hvb, hvc] using h2

/-- C2 at `12 * 3.5 ^ 2` (the second operator binds tighter) and at
`12 - 3 - 4` (equal precedence). -/
theorem make_rpn_two_operators_witness :
    (isLiteral "12".toList = true ∧ isLiteral "3.5".toList = true ∧
      m_make_rpn "12 * 3.5 ^ 2".toList = some (.ret "12 3.5 2 ^ * ".toList)) ∧
    (calculate exact ⟨"12 - 3 - 4".toList, []⟩ []
      = some (.ret (some 5), ⟨"12 - 3 - 4".toList, "12 3 - 4 - ".toList⟩)) :=
  ⟨⟨by decide, by decide,
    (make_rpn_two_operators exact "12".toList "3.5".toList "2".toList .times .power
      "12 * 3.5 ^ 2".toList [] (by decide) (by decide) (by decide) (by decide)).1.1⟩,
    (make_rpn_two_operators exact "12".toList "3".toList "4".toList .minus .minus
      "12 - 3 - 4".toList [] (by decide) (by decide) (by decide) (by decide)).1.2
      (some 12) (some 3) (some 4) (by decide) (by decide) (by decide)⟩

/-- C3, refuted as stated: with the digit 1 followed by 309 zeros for `a`, an
unsigned literal, `calculate` does not return on `-a + 3`: `std::stod` throws
`std::out_of_range` on the token `-a`. -/
theorem unary_minus_out_of_range :
    calculate exact ⟨'-' :: hugeLiteral ++ ['+', '3'], []⟩ []
      = some (.thrown .STD_OUT_OF_RANGE,
          ⟨'-' :: hugeLiteral ++ ['+', '3'], joinQueue ['-' :: hugeLiteral, ['3'], ['+']]⟩) ∧
    ¬ (∀ (a b x1 m_rpn : Str), isLiteral a = true → isLiteral b = true →
        stripWS x1 = '-' :: a ++ '+' :: b →
        ∃ v p, calculate exact ⟨x1, m_rpn⟩ [] = some (.ret v, p)) := by
  have hl := hugeLiteral_out_of_range
  have hsh : (Expr.bin .plus (.lit ('-' :: hugeLiteral)) (.lit ['3'])).shaped = true := by
    have h3 : isNumeral ['3'] = true := by decide
    simp only [Expr.shaped, Expr.level, isNumeral_minus hl.1, h3, BinOp.prec]
    decide
  have hx : stripWS ('-' :: hugeLiteral ++ ['+', '3'])
      = (Expr.bin .plus (.lit ('-' :: hugeLiteral)) (.lit ['3'])).text := by
    rw [stripWS_eq_filter]
    simp only [Expr.text, BinOp.char, List.cons_append]
    rw [List.filter_eq_self]
    intro c hc
    simp only [List.mem_cons, List.mem_append, List.mem_singleton, List.not_mem_nil,
      or_false] at hc
    rcases hc with rfl | h | rfl | rfl
    · decide
    · simp [hl.2.2.2 c h]
    · decide
    · decide
  have hval : (Expr.bin .plus (.lit ('-' :: hugeLiteral)) (.lit ['3'])).value exact = none :=
    (Expr.value_eq_none_iff exact _).mpr
      ⟨'-' :: hugeLiteral, List.mem_append_left _ (List.mem_singleton_self _), hl.2.2.1⟩
  have hcalc : calculate exact ⟨'-' :: hugeLiteral ++ ['+', '3'], []⟩ []
      = some (.thrown .STD_OUT_OF_RANGE,
          ⟨'-' :: hugeLiteral ++ ['+', '3'],
            joinQueue ['-' :: hugeLiteral, ['3'], ['+']]⟩) := by
    have := Expr.calculate_text exact _ hsh _ [] hx
    rw [hval] at this
    exact this
  refine ⟨hcalc, ?_⟩
  intro h
  obtain ⟨v, p, hv⟩ := h hugeLiteral ['3'] ('-' :: hugeLiteral ++ ['+', '3']) [] hl.1
    (by decide) hx
  rw [hcalc] at hv
  cases hv

/-- C3, amended: for unsigned literals `a` and `b` within the range of
`double`, the expressions `-a + b` and `(-a) + b`, with white space anywhere,
convert to the tokens `-a b +` and evaluate to `b` minus `a`, and `a - -b`
converts to `a -b -` and evaluates to `a` plus `b`.  The values `va`, `vb`,
`na`, `nb` are those of `a`, `b`, `-a`, `-b`; the arithmetic is one in which
`na + vb = vb - va` and `va - nb = va + vb`, as for `double`, where `na` and
`nb` are the negations of `va` and `vb`. -/
theorem unary_minus_conversion {α : Type} (A : Arith α) (a b x1 x2 x3 m_rpn : Str)
    (va vb na nb : α)
    (hva : A.stod a = some va) (hvb : A.stod b = some vb)
    (hna : A.stod ('-' :: a) = some na) (hnb : A.stod ('-' :: b) = some nb)
    (hadd : A.add na vb = A.sub vb va)
    (hsub : A.sub va nb = A.add va vb)
    (ha : isLiteral a = true) (hb : isLiteral b = true)
    (h1 : stripWS x1 = '-' :: a ++ '+' :: b)
    (h2 : stripWS x2 = '(' :: '-' :: a ++ ')' :: '+' :: b)
    (h3 : stripWS x3 = a ++ '-' :: '-' :: b) :
    calculate A ⟨x1, m_rpn⟩ []
      = some (.ret (A.sub vb va), ⟨x1, joinQueue ['-' :: a, b, ['+']]⟩) ∧
    calculate A ⟨x2, m_rpn⟩ []
      = some (.ret (A.sub vb va), ⟨x2, joinQueue ['-' :: a, b, ['+']]⟩) ∧
    calculate A ⟨x3, m_rpn⟩ []
      = some (.ret (A.add va vb), ⟨x3, joinQueue [a, '-' :: b, ['-']]⟩) := by
  have na1 := isNumeral_of_isLiteral ha
  have nb1 := isNumeral_of_isLiteral hb
  have ma := isNumeral_minus ha
  have mb := isNumeral_minus hb
  refine ⟨?_, ?_, ?_⟩
  · have hwf : (Expr.bin .plus (.lit ('-' :: a)) (.lit b)).shaped = true := by
      simp [Expr.shaped, Expr.level, ma, nb1, BinOp.prec]
    have := Expr.calculate_text A _ hwf x1 m_rpn (by simp [h1, Expr.text, BinOp.char])
    simpa [Expr.rpn, Expr.value, BinOp.apply, BinOp.char, hna, hvb, hadd] using this
  · have hwf : (Expr.bin .plus (.paren (.lit ('-' :: a))) (.lit b)).shaped = true := by
      simp [Expr.shaped, Expr.level, ma, nb1, BinOp.prec]
    have := Expr.calculate_text A _ hwf x2 m_rpn (by simp [h2, Expr.text, BinOp.char])
    simpa [Expr.rpn, Expr.value, BinOp.apply, BinOp.char, hna, hvb, hadd] using this
  · have hwf : (Expr.bin .minus (.lit a) (.lit ('-' :: b))).shaped = true := by
      simp [Expr.shaped, Expr.level, na1, mb, BinOp.prec]
    have := Expr.calculate_text A _ hwf x3 m_rpn (by simp [h3, Expr.text, BinOp.char])
    simpa [Expr.rpn, Expr.value, BinOp.apply, BinOp.char, hva, hnb, hsub] using this

/-- C3 at `-5 + 3`, `(-5) + 3` and `5 - -3`, which give -2, -2 and 8. -/
theorem unary_minus_conversion_witness :
    calculate exact ⟨"-5 + 3".toList, []⟩ []
      = some (.ret (some (-2)), ⟨"-5 + 3".toList, "-5 3 + ".toList⟩) ∧
    calculate exact ⟨"(-5) + 3".toList, []⟩ []
      = some (.ret (some (-2)), ⟨"(-5) + 3".toList, "-5 3 + ".toList⟩) ∧
    calculate exact ⟨"5 - -3".toList, []⟩ []
      = some (.ret (some 8), ⟨"5 - -3".toList, "5 -3 - ".toList⟩) :=
  unary_minus_conversion exact "5".toList "3".toList "-5 + 3".toList "(-5) + 3".toList
    "5 - -3".toList [] (some 5) (some 3) (some (-5)) (some (-3))
    (by decide) (by decide) (by decide) (by decide) (by decide) (by decide)
    (by decide) (by decide) (by decide) (by decide) (by decide)

/-- C4: at a position holding `-`, the positional number test is true exactly
when the positional operator test is false, and the operator test is false
exactly when the position is the first one, or the character before it is `(`,
or the operator test is true at the position before it. -/
theorem minus_number_iff_not_operator (s : Str) (i : Nat) (h : s[i]? = some '-') :
    (m_isNumber s i = true ↔ m_isOperator s i = false) ∧
    (m_isOperator s i = false ↔
      (i = 0 ∨ s[i - 1]? = some '(' ∨ m_isOperator s (i - 1) = true)) := by
  cases i with
  | zero => simp [m_isNumber, m_isOperator, h]
  | succ n =>
    simp only [m_isNumber, m_isOperator, h]
    simp
    by_cases h1 : s[n]? = some '(' <;> by_cases h2 : m_isOperator s n = true <;> simp [h1, h2]

/-- C4 at the second `-` of `5--3`, which is a number character. -/
theorem minus_number_iff_not_operator_witness :
    "5--3".toList[2]? = some '-' ∧ m_isNumber "5--3".toList 2 = true ∧
      m_isOperator "5--3".toList 2 = false ∧ m_isOperator "5--3".toList 1 = true :=
  ⟨by decide,
    (minus_number_iff_not_operator "5--3".toList 2 (by decide)).1.mpr (by decide),
    by decide, by decide⟩

/-- C5, evaluated: a `+` in the first position, after `(` or after an operator
takes the case of `-` and is not an operator, and it is not a number character
either, so the scan reads it as the start of a function name. -/
theorem plus_not_operator :
    m_isOperator "+1".toList 0 = false ∧ m_isNumber "+1".toList 0 = false ∧
    m_isOperator "(+1)".toList 1 = false ∧ m_isOperator "2*+3".toList 2 = false ∧
    m_make_rpn "1++2*3".toList = some (.ret "1 +2*3 + ".toList) := by
  decide

/-- C6, evaluated: `m_isOperator(token)` does not list `%`, so the evaluator
throws the syntax error at the token `%`, although `m_calc_operator` computes
`fmod` for it; `7%(3)` is an expression whose reverse polish notation is
`7 3 %`. -/
theorem percent_token_syntax_error {α : Type} (A : Arith α) (lVal rVal : α) :
    m_make_rpn "7%(3)".toList = some (.ret "7 3 % ".toList) ∧
    m_calc_rpn A "7 3 % ".toList = .thrown .INPUT_EXPR_SYNTAX_ERROR ∧
    calculate A ⟨"7%(3)".toList, []⟩ []
      = some (.thrown .INPUT_EXPR_SYNTAX_ERROR, ⟨"7%(3)".toList, "7 3 % ".toList⟩) ∧
    m_isOperatorStr ['%'] = false ∧
    m_calc_operator A lVal rVal '%' = .ret (A.fmod lVal rVal) := by
  obtain ⟨v7, h7⟩ := A.stod_digit_value '7' (by decide)
  obtain ⟨v3, h3⟩ := A.stod_digit_value '3' (by decide)
  have hcalc : m_calc_rpn A "7 3 % ".toList = .thrown .INPUT_EXPR_SYNTAX_ERROR := by
    have htok : tokens "7 3 % ".toList = [['7'], ['3'], ['%']] := by decide
    have hne : "7 3 % ".toList.isEmpty = false := by decide
    simp only [m_calc_rpn, hne, Bool.false_eq_true, if_false, htok]
    rw [evalTokens_number A (by decide) h7, evalTokens_number A (by decide) h3,
      evalTokens_unknown A (by decide) (by decide) (by decide)]
  have hmake : m_make_rpn "7%(3)".toList = some (.ret "7 3 % ".toList) := by decide
  refine ⟨hmake, hcalc, ?_, by decide, rfl⟩
  simp only [calculate, substitute, hmake, hcalc]

/-- C7, refuted as stated: the spelling `Sin` differs from `sin` only in letter
case, and its lookup returns `NONE`. -/
theorem isFunction_not_case_insensitive :
    ¬ (∀ name ∈ catalog, ∀ t : Str, lowerCase t = name →
        m_isFunction t = m_isFunction name ∧ m_isFunction t ≠ .NONE) := by
  intro h
  have := h "sin".toList (by decide) "Sin".toList (by decide)
  revert this
  decide

theorem catalog_upperCase :
    catalog.map upperCase =
      [['L', 'O', 'G'], ['L', 'O', 'G', '1', '0'], ['S', 'I', 'N'], ['C', 'O', 'S'],
        ['T', 'A', 'N'], ['C', 'O', 'T'], ['A', 'S', 'I', 'N'], ['A', 'C', 'O', 'S'],
        ['A', 'T', 'A', 'N'], ['A', 'T', 'A', 'N', '2'], ['A', 'C', 'O', 'T'], ['D', 'E', 'G'],
        ['R', 'A', 'D'], ['S', 'Q', 'R', 'T'], ['E', 'X', 'P'], ['A', 'B', 'S']] := by
  decide

/-- C7, amended: the lookup finds a token exactly when it is a name of the
catalog written all in lower case or all in upper case, and the two spellings
of a name give the same function. -/
theorem isFunction_spellings (t : Str) :
    (m_isFunction t ≠ .NONE ↔ (t ∈ catalog ∨ t ∈ catalog.map upperCase)) ∧
    catalog.all (fun name =>
      decide (m_isFunction (upperCase name) = m_isFunction name ∧
        m_isFunction name ≠ .NONE)) = true := by
  refine ⟨⟨?_, ?_⟩, by decide⟩
  · intro h
    by_contra hn
    rw [catalog_upperCase] at hn
    simp only [catalog, List.mem_cons, List.mem_singleton, List.not_mem_nil, or_false,
      not_or] at hn
    apply h
    simp [m_isFunction, hn]
  · rintro (h | h)
    · simp only [catalog, List.mem_cons, List.mem_singleton, List.not_mem_nil, or_false] at h
      rcases h with h | h | h | h | h | h | h | h | h | h | h | h | h | h | h | h <;>
        subst h <;> decide
    · rw [catalog_upperCase] at h
      simp only [List.mem_cons, List.mem_singleton, List.not_mem_nil, or_false] at h
      rcases h with h | h | h | h | h | h | h | h | h | h | h | h | h | h | h | h <;>
        subst h <;> decide

/-- C8, refuted as stated: with the digit 1 followed by 309 zeros for `a`, an
unsigned literal, the evaluation of `sqrt(a)` does not apply the function:
`std::stod` throws `std::out_of_range` on the token `a`, and the exception
leaves `calculate`. -/
theorem function_call_out_of_range :
    calculate exact ⟨"sqrt(".toList ++ hugeLiteral ++ [')'], []⟩ []
      = some (.thrown .STD_OUT_OF_RANGE,
          ⟨"sqrt(".toList ++ hugeLiteral ++ [')'], joinQueue [hugeLiteral, "sqrt".toList]⟩) ∧
    ¬ (∀ (f : Fn) (a x m_rpn : Str), isLiteral a = true →
        stripWS x = f.name ++ '(' :: a ++ [')'] →
        ∃ v p, calculate exact ⟨x, m_rpn⟩ [] = some (.ret v, p)) := by
  have hl := hugeLiteral_out_of_range
  have hsh : (Expr.call .sqrt (.lit hugeLiteral)).shaped = true := by
    simp only [Expr.shaped, isNumeral_of_isLiteral hl.1]
  have hx : stripWS ("sqrt(".toList ++ hugeLiteral ++ [')'])
      = (Expr.call .sqrt (.lit hugeLiteral)).text := by
    rw [stripWS_eq_filter]
    simp only [Expr.text, Fn.name, String.toList, List.cons_append, List.nil_append,
      List.append_assoc]
    rw [List.filter_eq_self]
    intro c hc
    simp only [List.mem_cons, List.mem_append, List.mem_singleton, List.not_mem_nil,
      or_false] at hc
    rcases hc with rfl | rfl | rfl | rfl | rfl | h | rfl
    · decide
    · decide
    · decide
    · decide
    · decide
    · simp [hl.2.2.2 c h]
    · decide
  have hval : (Expr.call .sqrt (.lit hugeLiteral)).value exact = none :=
    (Expr.value_eq_none_iff exact _).mpr ⟨hugeLiteral, List.mem_singleton_self _, hl.2.1⟩
  have hcalc : calculate exact ⟨"sqrt(".toList ++ hugeLiteral ++ [')'], []⟩ []
      = some (.thrown .STD_OUT_OF_RANGE,
          ⟨"sqrt(".toList ++ hugeLiteral ++ [')'],
            joinQueue [hugeLiteral, "sqrt".toList]⟩) := by
    have := Expr.calculate_text exact _ hsh _ [] hx
    rw [hval] at this
    exact this
  refine ⟨hcalc, ?_⟩
  intro h
  obtain ⟨v, p, hv⟩ := h .sqrt hugeLiteral ("sqrt(".toList ++ hugeLiteral ++ [')']) [] hl.1 hx
  rw [hcalc] at hv
  cases hv

/-- C8, amended: for every catalog function name `f` other than `atan2`, in
lower case, and every unsigned literal `a`, the expression `f(a)`, with white
space anywhere, converts to the tokens `a f`, and when `a` is within the range
of `double`, with the value `va`, its evaluation returns `f` applied to
`va`. -/
theorem function_call_conversion {α : Type} (A : Arith α) (f : Fn) (a x m_rpn : Str)
    (va : α) (ha : isLiteral a = true) (hva : A.stod a = some va)
    (hx : stripWS x = f.name ++ '(' :: a ++ [')']) :
    m_make_rpn x = some (.ret (joinQueue [a, f.name])) ∧
    tokens (joinQueue [a, f.name]) = [a, f.name] ∧
    calculate A ⟨x, m_rpn⟩ []
      = some (.ret (f.apply A va), ⟨x, joinQueue [a, f.name]⟩) := by
  have hwf : (Expr.call f (.lit a)).shaped = true := by
    simp [Expr.shaped, isNumeral_of_isLiteral ha]
  have hx1 : stripWS x = (Expr.call f (.lit a)).text := by simp [hx, Expr.text]
  have h1 := Expr.make_rpn _ hwf x hx1
  have h2 := Expr.calculate_text A _ hwf x m_rpn hx1
  have h3 := tokens_joinQueue _ (fun t ht =>
    ⟨(Expr.rpn_plain _ hwf t ht).1, fun c hc => ((Expr.rpn_plain _ hwf t ht).2 c hc).1⟩)
  exact ⟨by simpa [Expr.rpn] using h1, by simpa [Expr.rpn] using h3,
    by simpa [Expr.rpn, Expr.value, hva] using h2⟩

/-- C8 at `abs(16)`: the tokens are `16 abs` and the result is 16. -/
theorem function_call_conversion_witness :
    isLiteral "16".toList = true ∧
    m_make_rpn "abs(16)".toList = some (.ret "16 abs ".toList) ∧
    calculate exact ⟨"abs(16)".toList, []⟩ []
      = some (.ret (some 16), ⟨"abs(16)".toList, "16 abs ".toList⟩) :=
  ⟨by decide,
    (function_call_conversion exact .abs "16".toList "abs(16)".toList [] (some 16)
      (by decide) (by decide) (by decide)).1,
    (function_call_conversion exact .abs "16".toList "abs(16)".toList [] (some 16)
      (by decide) (by decide) (by decide)).2.2⟩

/-- C9, evaluated: on two spaces, on a tab and on a newline the conversion does
not throw `BAD_INIT`; the text without white space is empty, the loop does not
run, and the test of line 113 reads before the start of the empty string. -/
theorem make_rpn_blank_not_bad_init :
    m_make_rpn [' ', ' '] = some .undefined ∧
    m_make_rpn [Char.ofNat 9] = some .undefined ∧
    m_make_rpn [Char.ofNat 10] = some .undefined ∧
    m_make_rpn [] = some (.thrown .BAD_INIT) ∧
    m_make_rpn [' '] = some (.thrown .BAD_INIT) := by
  decide

/-- C10, evaluated: in `+1)` the `+` is no operator and no number character, the
scan reads `+1)` as a function name up to the end, and the conversion returns
without an exception although the `)` has no `(` before it. -/
theorem make_rpn_plus_hides_rparen :
    m_make_rpn "+1)".toList = some (.ret "+1) ".toList) ∧
    m_make_rpn "1 + 2)".toList = some (.thrown .UNCLOSED_RPARENTHESIS) := by
  decide

/-! ## The evaluator, token by token -/

theorem m_calc_operator_defined {α : Type} (A : Arith α) (lVal rVal : α) (op : Char) :
    m_calc_operator A lVal rVal op ≠ .undefined := by
  unfold m_calc_operator
  split_ifs <;> simp

theorem m_calc_function_defined {α : Type} (A : Arith α) (val : α) (func : FUNCTION) :
    m_calc_function A val func ≠ .undefined := by
  cases func <;> simp [m_calc_function]

/-- One pass of the loop, then the rest of the loop. -/
theorem evalTokens_cons {α : Type} (A : Arith α) (token : Str) (rest : List Str)
    (numberStack : List α) :
    evalTokens A (token :: rest) numberStack =
      match evalToken A token numberStack with
      | .ret st1 => evalTokens A rest st1
      | .thrown e => .thrown e
      | .undefined => .undefined := by
  rcases m_isNumberStr_cases A token with ⟨-, hn⟩ | ⟨-, v, hv, hn⟩ | ⟨-, hv, hn⟩
  · simp only [evalTokens, evalToken, hn]
    by_cases h2 : m_isOperatorStr token = true
    · simp only [if_pos h2]
      match numberStack with
      | [] => rfl
      | [_] => rfl
      | rVal :: lVal :: below =>
        simp only
        cases m_calc_operator A lVal rVal (token.headD (Char.ofNat 0)) <;> rfl
    · simp only [if_neg h2]
      by_cases h3 : m_isFunction token ≠ .NONE
      · simp only [if_pos h3]
        match numberStack with
        | [] => rfl
        | val :: below =>
          simp only
          cases m_calc_function A val (m_isFunction token) <;> rfl
      · simp only [if_neg h3]
  · simp only [evalTokens, evalToken, hn, hv]
  · simp only [evalTokens, evalToken, hn]

theorem evalToken_spec {α : Type} (A : Arith α) (token : Str) (numberStack : List α) :
    evalToken A token numberStack ≠ .undefined ∧
      ∀ st1, evalToken A token numberStack = .ret st1 → st1 ≠ [] := by
  rcases m_isNumberStr_cases A token with ⟨-, hn⟩ | ⟨-, v, hv, hn⟩ | ⟨-, hv, hn⟩
  · simp only [evalToken, hn]
    by_cases h2 : m_isOperatorStr token = true
    · simp only [if_pos h2]
      match numberStack with
      | [] => simp
      | [_] => simp
      | rVal :: lVal :: below =>
        simp only
        have hd := m_calc_operator_defined A lVal rVal (token.headD (Char.ofNat 0))
        cases hc : m_calc_operator A lVal rVal (token.headD (Char.ofNat 0)) with
        | ret r => simp
        | thrown e => simp
        | undefined => exact absurd hc hd
    · simp only [if_neg h2]
      by_cases h3 : m_isFunction token ≠ .NONE
      · simp only [if_pos h3]
        match numberStack with
        | [] => simp
        | val :: below =>
          simp only
          have hd := m_calc_function_defined A val (m_isFunction token)
          cases hc : m_calc_function A val (m_isFunction token) with
          | ret r => simp
          | thrown e => simp
          | undefined => exact absurd hc hd
      · simp only [if_neg h3]
        simp
  · simp only [evalToken, hn, hv]
    simp
  · simp only [evalToken, hn]
    simp

/-- The evaluator is the loop over the tokens followed by the read of the top
of the stack. -/
theorem evalTokens_eq_stackAfter {α : Type} (A : Arith α) (ts : List Str) :
    ∀ numberStack : List α,
    evalTokens A ts numberStack =
      match stackAfter A ts numberStack with
      | .ret [] => .undefined
      | .ret (top :: _) => .ret top
      | .thrown e => .thrown e
      | .undefined => .undefined := by
  induction ts with
  | nil => intro numberStack; cases numberStack <;> rfl
  | cons token rest ih =>
    intro numberStack
    rw [evalTokens_cons]
    simp only [stackAfter]
    cases evalToken A token numberStack with
    | ret st1 => exact ih st1
    | thrown e => rfl
    | undefined => rfl

theorem stackAfter_append {α : Type} (A : Arith α) (ts us : List Str) :
    ∀ numberStack : List α,
    stackAfter A (ts ++ us) numberStack =
      match stackAfter A ts numberStack with
      | .ret st1 => stackAfter A us st1
      | .thrown e => .thrown e
      | .undefined => .undefined := by
  induction ts with
  | nil => intro numberStack; rfl
  | cons token rest ih =>
    intro numberStack
    simp only [List.cons_append, stackAfter]
    cases evalToken A token numberStack with
    | ret st1 => exact ih st1
    | thrown e => rfl
    | undefined => rfl

theorem stackAfter_spec {α : Type} (A : Arith α) (ts : List Str) :
    ∀ numberStack : List α, stackAfter A ts numberStack ≠ .undefined ∧
      ∀ st1, ts ≠ [] → stackAfter A ts numberStack = .ret st1 → st1 ≠ [] := by
  induction ts with
  | nil => intro numberStack; simp [stackAfter]
  | cons token rest ih =>
    intro numberStack
    obtain ⟨h1, h2⟩ := evalToken_spec A token numberStack
    simp only [stackAfter]
    cases hstep : evalToken A token numberStack with
    | ret st1 =>
      have hne := h2 st1 hstep
      refine ⟨(ih st1).1, fun st2 _ hst2 => ?_⟩
      cases rest with
      | nil =>
        simp only [stackAfter] at hst2
        cases hst2
        exact hne
      | cons t2 r2 => exact (ih st1).2 st2 (by simp) hst2
    | thrown e => simp
    | undefined => exact absurd hstep h1

/-! ## Occurrences of a text -/

theorem startsWith_iff (pat : Str) : ∀ s : Str,
    startsWith pat s = true ↔ ∃ post, s = pat ++ post := by
  induction pat with
  | nil => intro s; simp [startsWith]
  | cons p ps ih =>
    intro s
    cases s with
    | nil => simp [startsWith]
    | cons c cs =>
      simp only [startsWith, Bool.and_eq_true, beq_iff_eq, ih, List.cons_append,
        List.cons.injEq]
      constructor
      · rintro ⟨rfl, post, rfl⟩
        exact ⟨post, rfl, rfl⟩
      · rintro ⟨post, rfl, rfl⟩
        exact ⟨rfl, post, rfl⟩

theorem occurs_cons (pat : Str) (c : Char) (cs : Str) :
    occurs pat (c :: cs) ↔ startsWith pat (c :: cs) = true ∨ occurs pat cs := by
  rw [startsWith_iff]
  constructor
  · rintro ⟨pre, post, h⟩
    cases pre with
    | nil => exact Or.inl ⟨post, by simpa using h⟩
    | cons d pre =>
      simp only [List.cons_append, List.cons.injEq] at h
      exact Or.inr ⟨pre, post, h.2⟩
  · rintro (⟨post, h⟩ | ⟨pre, post, h⟩)
    · exact ⟨[], post, by simpa using h⟩
    · exact ⟨c :: pre, post, by simp [h]⟩

theorem findFrom_eq_none (pat : Str) : ∀ (s : Str) (pos : Nat),
    findFrom pat s pos = none ↔ ¬ occurs pat s := by
  intro s
  induction s with
  | nil =>
    intro pos
    cases pat with
    | nil => simp [findFrom, occurs]
    | cons p ps => simp [findFrom, occurs]
  | cons c cs ih =>
    intro pos
    rw [occurs_cons]
    by_cases h : startsWith pat (c :: cs) = true
    · simp [findFrom, h]
    · simp [findFrom, h, ih]

theorem findFrom_eq_some (pat : Str) : ∀ (s : Str) (pos k : Nat),
    findFrom pat s pos = some k →
    ∃ pre post, s = pre ++ pat ++ post ∧ k = pos + pre.length := by
  intro s
  induction s with
  | nil =>
    intro pos k h
    cases pat with
    | nil =>
      simp only [findFrom, List.isEmpty_nil, if_true, Option.some.injEq] at h
      exact ⟨[], [], rfl, by simp [h]⟩
    | cons p ps => simp [findFrom] at h
  | cons c cs ih =>
    intro pos k h
    by_cases hs : startsWith pat (c :: cs) = true
    · simp only [findFrom, hs, if_true, Option.some.injEq] at h
      obtain ⟨post, hpost⟩ := (startsWith_iff pat _).mp hs
      exact ⟨[], post, by simpa using hpost, by simp [h]⟩
    · simp only [findFrom, hs, Bool.false_eq_true, if_false] at h
      obtain ⟨pre, post, h1, h2⟩ := ih _ _ h
      exact ⟨c :: pre, post, by simp [h1], by simp [h2]; omega⟩

theorem find_eq_none (s pat : Str) : find s pat = none ↔ ¬ occurs pat s :=
  findFrom_eq_none pat s 0

/-- C13: for each of the expressions `+`, `-`, `*`, `/`, `^` and `%`,
`calculate` with an empty variable list throws `INPUT_EXPR_SYNTAX_ERROR`, and
nothing else; the conversion has stored the lone token before. -/
theorem lone_operator_syntax_error {α : Type} (A : Arith α) (m_rpn : Str) :
    calculate A ⟨['+'], m_rpn⟩ []
      = some (.thrown .INPUT_EXPR_SYNTAX_ERROR, ⟨['+'], ['+', ' ']⟩) ∧
    calculate A ⟨['-'], m_rpn⟩ []
      = some (.thrown .INPUT_EXPR_SYNTAX_ERROR, ⟨['-'], ['-', ' ']⟩) ∧
    calculate A ⟨['*'], m_rpn⟩ []
      = some (.thrown .INPUT_EXPR_SYNTAX_ERROR, ⟨['*'], ['*', ' ']⟩) ∧
    calculate A ⟨['/'], m_rpn⟩ []
      = some (.thrown .INPUT_EXPR_SYNTAX_ERROR, ⟨['/'], ['/', ' ']⟩) ∧
    calculate A ⟨['^'], m_rpn⟩ []
      = some (.thrown .INPUT_EXPR_SYNTAX_ERROR, ⟨['^'], ['^', ' ']⟩) ∧
    calculate A ⟨['%'], m_rpn⟩ []
      = some (.thrown .INPUT_EXPR_SYNTAX_ERROR, ⟨['%'], ['%', ' ']⟩) :=
  ⟨rfl, rfl, rfl, rfl, rfl, rfl⟩

/-- C15: when the expression is neither empty nor a single space and the
placeholder of the first listed variable does not occur in it, `calculate`
throws `UNKNOWN_VARIABLE` with the name of that variable, whatever else the
expression and the rest of the list contain, and leaves the expression and
the stored reverse polish notation as they were: no conversion has run. -/
theorem unknown_first_variable {α : Type} (A : Arith α) (x m_rpn : Str) (v : Var α)
    (vs : List (Var α)) (hne : x ≠ []) (hsp : x ≠ [' '])
    (hocc : ¬ occurs (quote :: v.name ++ [quote]) x) :
    calculate A ⟨x, m_rpn⟩ (v :: vs)
      = some (.thrown (.UNKNOWN_VARIABLE v.name), ⟨x, m_rpn⟩) := by
  have hfind := (find_eq_none x (quote :: v.name ++ [quote])).mpr hocc
  have hguard : ¬ (x.isEmpty = true ∨ x = [' ']) := by
    simp [hne, hsp]
  have hex : m_variableExists x v.name = .ret false := by
    unfold m_variableExists
    rw [if_neg hguard, if_pos hfind]
  simp only [calculate, substitute, hex]

/-- C15 at the expression `1 + (`, which has an unclosed parenthesis, and the
variables `x = 5`, `y = 1`. -/
theorem unknown_first_variable_witness :
    calculate exact ⟨"1 + (".toList, []⟩ [⟨"x".toList, some 5⟩, ⟨"y".toList, some 1⟩]
      = some (.thrown (.UNKNOWN_VARIABLE "x".toList), ⟨"1 + (".toList, []⟩) :=
  unknown_first_variable exact "1 + (".toList [] ⟨"x".toList, some 5⟩ [⟨"y".toList, some 1⟩]
    (by decide) (by decide) ((find_eq_none _ _).mp (by decide))

/-- C16, evaluated: two spaces and a lone quote pass the test of line 8; the
loop emits no token, the assembled string is empty and the test of line 113
reads two characters before its end; with an empty `m_rpn` the evaluator
throws `BAD_RPN`. -/
theorem empty_rpn_look_back {α : Type} (A : Arith α) :
    scan (stripWS [' ', ' ']) (stripWS [' ', ' ']).length ⟨0, [], []⟩
      = some (.ret ⟨0, [], []⟩) ∧
    scan (stripWS [quote]) (stripWS [quote]).length ⟨0, [], []⟩
      = some (.ret ⟨1, [], []⟩) ∧
    checkLParenthesis (joinQueue []) = .undefined ∧
    m_make_rpn [quote] = some .undefined ∧
    m_make_rpn [quote, quote] = some .undefined ∧
    m_calc_rpn A [] = .thrown .BAD_RPN :=
  ⟨by decide, by decide, by decide, by decide, by decide, rfl⟩

/-- C19: when the reverse polish notation has at least one token, the number
stack is not empty after any token that the evaluator has gone through
without an exception, and the evaluator, which is this loop followed by the
read of the top of the stack, does not read the top of an empty stack. -/
theorem stack_nonempty_after_each_token {α : Type} (A : Arith α) (m_rpn : Str)
    (h : tokens m_rpn ≠ []) :
    (∀ k st1, 0 < k → stackAfter A ((tokens m_rpn).take k) [] = .ret st1 → st1 ≠ []) ∧
    (m_calc_rpn A m_rpn =
      match stackAfter A (tokens m_rpn) [] with
      | .ret [] => .undefined
      | .ret (top :: _) => .ret top
      | .thrown e => .thrown e
      | .undefined => .undefined) ∧
    m_calc_rpn A m_rpn ≠ .undefined := by
  have hne : m_rpn.isEmpty = false := by
    cases m_rpn with
    | nil => exact absurd rfl h
    | cons c cs => rfl
  have heq : m_calc_rpn A m_rpn = evalTokens A (tokens m_rpn) [] := by
    simp [m_calc_rpn, hne]
  refine ⟨?_, ?_, ?_⟩
  · intro k st1 hk hst
    refine (stackAfter_spec A _ []).2 st1 ?_ hst
    cases htok : tokens m_rpn with
    | nil => exact absurd htok h
    | cons t ts =>
      cases k with
      | zero => omega
      | succ k => simp
  · rw [heq, evalTokens_eq_stackAfter]
  · rw [heq, evalTokens_eq_stackAfter]
    obtain ⟨h1, h2⟩ := stackAfter_spec A (tokens m_rpn) []
    cases hst : stackAfter A (tokens m_rpn) [] with
    | ret st1 =>
      cases st1 with
      | nil => exact absurd rfl (h2 [] h hst)
      | cons top below => simp
    | thrown e => simp
    | undefined => exact absurd hst h1

/-- C19 at `7 3 -`: after each of the three tokens the stack holds a value. -/
theorem stack_nonempty_after_each_token_witness :
    tokens "7 3 - ".toList ≠ [] ∧ m_calc_rpn exact "7 3 - ".toList ≠ .undefined :=
  ⟨by decide, (stack_nonempty_after_each_token exact "7 3 - ".toList (by decide)).2.2⟩

/-! ## The replacement loop -/

theorem replace_occurrence (pre pat post value : Str) :
    replace (pre ++ pat ++ post) pre.length pat.length value = pre ++ value ++ post := by
  simp [replace, List.take_append_eq_append_take, List.drop_append_eq_append_drop]

theorem find_eq_some (s pat : Str) (k : Nat) (h : find s pat = some k) :
    ∃ pre post, s = pre ++ pat ++ post ∧ k = pre.length := by
  obtain ⟨pre, post, h1, h2⟩ := findFrom_eq_some pat s 0 k h
  exact ⟨pre, post, h1, by simpa using h2⟩

theorem replaceAll_fixed (pat value : Str) (fuel : Nat) (e : Str) (h : find e pat = none) :
    replaceAll pat value fuel e = some e := by
  cases fuel <;> simp [replaceAll, h]

theorem replaceAll_result (pat value : Str) : ∀ (fuel : Nat) (e r : Str),
    replaceAll pat value fuel e = some r → find r pat = none := by
  intro fuel
  induction fuel with
  | zero =>
    intro e r h
    cases hf : find e pat with
    | none =>
      simp only [replaceAll, hf, Option.some.injEq] at h
      exact h ▸ hf
    | some k => simp [replaceAll, hf] at h
  | succ fuel ih =>
    intro e r h
    cases hf : find e pat with
    | none =>
      simp only [replaceAll, hf, Option.some.injEq] at h
      exact h ▸ hf
    | some k =>
      simp only [replaceAll, hf] at h
      exact ih _ r h

theorem replaceAll_more_fuel (pat value : Str) : ∀ (fuel : Nat) (e r : Str),
    replaceAll pat value fuel e = some r → replaceAll pat value (fuel + 1) e = some r := by
  intro fuel
  induction fuel with
  | zero =>
    intro e r h
    cases hf : find e pat with
    | none => simpa [replaceAll, hf] using h
    | some k => simp [replaceAll, hf] at h
  | succ fuel ih =>
    intro e r h
    cases hf : find e pat with
    | none => simpa [replaceAll, hf] using h
    | some k =>
      simp only [replaceAll, hf] at h
      have := ih _ r h
      rw [replaceAll]
      simpa [hf] using this

theorem replaceAll_fuel_le (pat value : Str) (fuel fuel1 : Nat) (e r : Str)
    (hle : fuel ≤ fuel1) (h : replaceAll pat value fuel e = some r) :
    replaceAll pat value fuel1 e = some r := by
  induction hle with
  | refl => exact h
  | step _ ih => exact replaceAll_more_fuel pat value _ e r ih

theorem occurs_count_quote (name s : Str) (h : occurs (quote :: name ++ [quote]) s) :
    2 ≤ s.count quote := by
  obtain ⟨pre, post, rfl⟩ := h
  simp only [List.count_append, List.count_cons_self, List.count_singleton_self]
  omega

/-- The replacement loop ends on fuel for half the quotes of the expression,
when the text put in has no quote. -/
theorem replaceAll_total (name value : Str) (hv : quote ∉ value) : ∀ (fuel : Nat) (e : Str),
    e.count quote ≤ 2 * fuel + 1 →
    ∃ r, replaceAll (quote :: name ++ [quote]) value fuel e = some r := by
  intro fuel
  induction fuel with
  | zero =>
    intro e hc
    cases hf : find e (quote :: name ++ [quote]) with
    | none => exact ⟨e, replaceAll_fixed _ _ _ _ hf⟩
    | some k =>
      obtain ⟨pre, post, h1, -⟩ := find_eq_some _ _ _ hf
      have := occurs_count_quote name e ⟨pre, post, h1⟩
      omega
  | succ fuel ih =>
    intro e hc
    cases hf : find e (quote :: name ++ [quote]) with
    | none => exact ⟨e, replaceAll_fixed _ _ _ _ hf⟩
    | some k =>
      obtain ⟨pre, post, h1, h2⟩ := find_eq_some _ _ _ hf
      have hrep : replace e k (quote :: name ++ [quote]).length value = pre ++ value ++ post := by
        rw [h1, h2]
        exact replace_occurrence pre _ post value
      have hcount : (pre ++ value ++ post).count quote + 2 ≤ e.count quote := by
        rw [h1]
        simp only [List.count_append, List.count_cons_self, List.count_singleton_self,
          List.count_eq_zero_of_not_mem hv]
        omega
      obtain ⟨r, hr⟩ := ih (pre ++ value ++ post) (by omega)
      exact ⟨r, by rw [replaceAll]; simp only [hf, hrep, hr]⟩

/-- C17: the loop that replaces the placeholder of `name` by the text of the
value ends (on the fuel of the model and on any larger fuel), the expression
it leaves contains no occurrence of the placeholder, and the loop run again on
that expression leaves it as it is.  The text of the value, as
`std::to_string` writes a `double`, has no quote. -/
theorem replace_loop_terminates {α : Type} (A : Arith α) (e name : Str) (v : α)
    (hv : quote ∉ A.to_string v) :
    ∃ r, (∀ fuel, e.length ≤ fuel →
        replaceAll (quote :: name ++ [quote]) (A.to_string v) fuel e = some r) ∧
      ¬ occurs (quote :: name ++ [quote]) r ∧
      replaceAll (quote :: name ++ [quote]) (A.to_string v) r.length r = some r := by
  obtain ⟨r, hr⟩ := replaceAll_total name (A.to_string v) hv e.length e
    (by have := List.count_le_length quote e; omega)
  have hnone := replaceAll_result _ _ _ _ _ hr
  exact ⟨r, fun fuel hle => replaceAll_fuel_le _ _ _ _ _ _ hle hr,
    (find_eq_none _ _).mp hnone, replaceAll_fixed _ _ _ _ hnone⟩

/-- C17 at the expression with two placeholders of `x`, times each other, and
the value 5: the loop leaves `5.000000 * 5.000000`. -/
theorem replace_loop_terminates_witness :
    quote ∉ exact.to_string (some 5) ∧
    ∃ r, (∀ fuel, (quote :: 'x' :: quote :: " * ".toList ++ [quote, 'x', quote]).length ≤ fuel →
        replaceAll [quote, 'x', quote] (exact.to_string (some 5)) fuel
          (quote :: 'x' :: quote :: " * ".toList ++ [quote, 'x', quote]) = some r) ∧
      ¬ occurs [quote, 'x', quote] r ∧
      replaceAll [quote, 'x', quote] (exact.to_string (some 5)) r.length r = some r :=
  ⟨by decide,
    replace_loop_terminates exact (quote :: 'x' :: quote :: " * ".toList ++ [quote, 'x', quote])
      ['x'] (some 5) (by decide)⟩

/-! ## Substitution of variables -/

theorem isNumeral_no_quote {t : Str} (h : isNumeral t = true) : quote ∉ t := by
  obtain ⟨c, u, rfl, hu, hc⟩ := isNumeral_cases h
  intro hq
  rcases List.mem_cons.mp hq with h1 | h1
  · rcases hc with hc | ⟨hc, -⟩
    · exact (numChar_ne hc).2.2.2.2.2.2.2 h1.symm
    · rw [hc] at h1
      revert h1
      decide
  · exact (numChar_ne (hu quote h1)).2.2.2.2.2.2.2 rfl

/-- The loop of lines 201-204 on an expression that starts with the
placeholder and has no quote after it: one replacement. -/
theorem replaceAll_leading (name value post : Str) (hv : quote ∉ value)
    (hpost : quote ∉ post) (fuel : Nat) :
    replaceAll (quote :: name ++ [quote]) value (fuel + 1) (quote :: name ++ quote :: post)
      = some (value ++ post) := by
  have hE : quote :: name ++ quote :: post = [] ++ (quote :: name ++ [quote]) ++ post := by
    simp
  have hstart : startsWith (quote :: name ++ [quote]) (quote :: name ++ quote :: post) = true :=
    (startsWith_iff _ _).mpr ⟨post, by simp⟩
  have hfind : find (quote :: name ++ quote :: post) (quote :: name ++ [quote]) = some 0 := by
    show findFrom _ (quote :: (name ++ quote :: post)) 0 = some 0
    rw [findFrom]
    exact if_pos hstart
  have hrep : replace (quote :: name ++ quote :: post) 0 (quote :: name ++ [quote]).length value
      = value ++ post := by
    rw [hE]
    simpa using replace_occurrence [] (quote :: name ++ [quote]) post value
  have hnone : find (value ++ post) (quote :: name ++ [quote]) = none := by
    rw [find_eq_none]
    intro hocc
    have := occurs_count_quote name _ hocc
    simp [List.count_append, List.count_eq_zero_of_not_mem hv,
      List.count_eq_zero_of_not_mem hpost] at this
  rw [replaceAll]
  simp only [hfind, hrep]
  exact replaceAll_fixed _ _ _ _ hnone

/-- The method `calculate` on the placeholder of a name followed by ` + 2`,
with the name as the single variable. -/
theorem placeholder_plus_two {α : Type} (A : Arith α) (name m_rpn : Str) (v two : α)
    (hnum : isNumeral (A.to_string v) = true) (hback : A.stod (A.to_string v) = some v)
    (htwo : A.stod ['2'] = some two) :
    calculate A ⟨quote :: name ++ quote :: [' ', '+', ' ', '2'], m_rpn⟩ [⟨name, v⟩]
      = some (.ret (A.add v two),
          ⟨A.to_string v ++ [' ', '+', ' ', '2'],
            joinQueue [A.to_string v, ['2'], ['+']]⟩) := by
  have hv := isNumeral_no_quote hnum
  have hpost : quote ∉ [' ', '+', ' ', '2'] := by decide
  have hocc : occurs (quote :: name ++ [quote]) (quote :: name ++ quote :: [' ', '+', ' ', '2']) :=
    ⟨[], [' ', '+', ' ', '2'], by simp⟩
  have hex : m_variableExists (quote :: name ++ quote :: [' ', '+', ' ', '2']) name
      = .ret true := by
    have hguard : ¬ ((quote :: name ++ quote :: [' ', '+', ' ', '2']).isEmpty = true ∨
        quote :: name ++ quote :: [' ', '+', ' ', '2'] = [' ']) := by
      rintro (h | h)
      · simp at h
      · have hq : quote = ' ' := by
          have := congrArg List.head? h
          simpa using this
        revert hq
        decide
    have hfind : ¬ find (quote :: name ++ quote :: [' ', '+', ' ', '2']) (quote :: name ++ [quote])
        = none := by
      rw [find_eq_none]
      exact fun h => h hocc
    unfold m_variableExists
    rw [if_neg hguard, if_neg hfind]
  have hlen : (quote :: name ++ quote :: [' ', '+', ' ', '2']).length = (name.length + 5) + 1 := by
    simp
  have hrep := replaceAll_leading name (A.to_string v) [' ', '+', ' ', '2'] hv hpost
    (name.length + 5)
  have hwf : (Expr.bin .plus (.lit (A.to_string v)) (.lit ['2'])).shaped = true := by
    have h2 : isNumeral ['2'] = true := by decide
    simp [Expr.shaped, Expr.level, hnum, h2, BinOp.prec]
  have hx : stripWS (A.to_string v ++ [' ', '+', ' ', '2'])
      = (Expr.bin .plus (.lit (A.to_string v)) (.lit ['2'])).text := by
    rw [stripWS_append, stripWS_plain _ (fun c hc => ((isNumeral_plain hnum).2 c hc).1)]
    have : stripWS [' ', '+', ' ', '2'] = ['+', '2'] := by decide
    rw [this]
    rfl
  have hmake := Expr.make_rpn _ hwf _ hx
  have hcalc := Expr.calc_rpn A _ hwf
  simp only [Expr.rpn, Expr.value, BinOp.apply, BinOp.char, List.singleton_append,
    List.cons_append, List.nil_append, hback, htwo] at hmake hcalc
  simp only [calculate, substitute, hex, hlen, hrep, hmake, hcalc]

/-! ## The exceptions of the stages -/

theorem scanStep_thrown (s : Str) (st : Scan) (e : Exn) (h : scanStep s st = .thrown e) :
    e = .UNCLOSED_RPARENTHESIS := by
  unfold scanStep at h
  split at h
  · cases h
  · split_ifs at h
    split at h
    · cases h; rfl
    · cases h

theorem scan_thrown (s : Str) : ∀ (fuel : Nat) (st : Scan) (e : Exn),
    scan s fuel st = some (.thrown e) → e = .UNCLOSED_RPARENTHESIS := by
  intro fuel
  induction fuel with
  | zero =>
    intro st e h
    simp only [scan] at h
    split_ifs at h
    cases h
  | succ fuel ih =>
    intro st e h
    simp only [scan] at h
    split_ifs at h
    · cases h
    · cases hstep : scanStep s st with
      | ret st1 =>
        rw [hstep] at h
        exact ih st1 e h
      | thrown e1 =>
        rw [hstep] at h
        cases h
        exact scanStep_thrown s st e hstep
      | undefined =>
        rw [hstep] at h
        cases h

theorem m_make_rpn_thrown (x : Str) (e : Exn) (h : m_make_rpn x = some (.thrown e)) :
    e = .BAD_INIT ∨ e = .UNCLOSED_RPARENTHESIS ∨ e = .UNCLOSED_LPARENTHESIS := by
  unfold m_make_rpn at h
  split_ifs at h
  · cases h; exact Or.inl rfl
  · cases hscan : scan (stripWS x) (stripWS x).length ⟨0, [], []⟩ with
    | none => simp [hscan] at h
    | some out =>
      cases out with
      | ret st =>
        simp only [hscan, Option.some.injEq] at h
        unfold checkLParenthesis at h
        split_ifs at h <;> cases h <;> exact Or.inr (Or.inr rfl)
      | thrown e1 =>
        simp only [hscan, Option.some.injEq, Outcome.thrown.injEq] at h
        subst h
        exact Or.inr (Or.inl (scan_thrown _ _ _ _ hscan))
      | undefined => simp [hscan] at h

theorem m_calc_operator_thrown {α : Type} (A : Arith α) (lVal rVal : α) (op : Char) (e : Exn)
    (h : m_calc_operator A lVal rVal op = .thrown e) : e = .INPUT_EXPR_SYNTAX_ERROR := by
  unfold m_calc_operator at h
  split_ifs at h
  cases h
  rfl

theorem m_calc_function_thrown {α : Type} (A : Arith α) (val : α) (func : FUNCTION) (e : Exn)
    (h : m_calc_function A val func = .thrown e) : e = .INPUT_EXPR_SYNTAX_ERROR := by
  cases func <;> simp only [m_calc_function] at h <;> cases h
  all_goals rfl

theorem evalToken_thrown {α : Type} (A : Arith α) (token : Str) (numberStack : List α)
    (e : Exn) (h : evalToken A token numberStack = .thrown e) :
    e = .INPUT_EXPR_SYNTAX_ERROR ∨ e = .STD_OUT_OF_RANGE := by
  rcases m_isNumberStr_cases A token with ⟨-, hn⟩ | ⟨-, v, hv, hn⟩ | ⟨-, hv, hn⟩
  · simp only [evalToken, hn] at h
    by_cases h2 : m_isOperatorStr token = true
    · simp only [if_pos h2] at h
      match numberStack, h with
      | [], h => cases h; exact Or.inl rfl
      | [_], h => cases h; exact Or.inl rfl
      | rVal :: lVal :: below, h =>
        simp only at h
        cases hop : m_calc_operator A lVal rVal (token.headD (Char.ofNat 0)) with
        | ret r => rw [hop] at h; cases h
        | thrown e1 =>
          rw [hop] at h
          cases h
          exact Or.inl (m_calc_operator_thrown A _ _ _ _ hop)
        | undefined => rw [hop] at h; cases h
    · simp only [if_neg h2] at h
      by_cases h3 : m_isFunction token ≠ .NONE
      · simp only [if_pos h3] at h
        match numberStack, h with
        | [], h => cases h; exact Or.inl rfl
        | val :: below, h =>
          simp only at h
          cases hf : m_calc_function A val (m_isFunction token) with
          | ret r => rw [hf] at h; cases h
          | thrown e1 =>
            rw [hf] at h
            cases h
            exact Or.inl (m_calc_function_thrown A _ _ _ hf)
          | undefined => rw [hf] at h; cases h
      · simp only [if_neg h3] at h
        cases h
        exact Or.inl rfl
  · simp only [evalToken, hn, hv] at h
    cases h
  · simp only [evalToken, hn] at h
    cases h
    exact Or.inr rfl

theorem stackAfter_thrown {α : Type} (A : Arith α) (ts : List Str) :
    ∀ (numberStack : List α) (e : Exn), stackAfter A ts numberStack = .thrown e →
    e = .INPUT_EXPR_SYNTAX_ERROR ∨ e = .STD_OUT_OF_RANGE := by
  induction ts with
  | nil => intro numberStack e h; cases h
  | cons token rest ih =>
    intro numberStack e h
    simp only [stackAfter] at h
    cases hstep : evalToken A token numberStack with
    | ret st1 => rw [hstep] at h; exact ih st1 e h
    | thrown e1 =>
      rw [hstep] at h
      cases h
      exact evalToken_thrown A _ _ _ hstep
    | undefined => rw [hstep] at h; cases h

/-- The exceptions that leave the evaluator. -/
theorem m_calc_rpn_thrown {α : Type} (A : Arith α) (m_rpn : Str) (e : Exn)
    (h : m_calc_rpn A m_rpn = .thrown e) :
    e = .BAD_RPN ∨ e = .INPUT_EXPR_SYNTAX_ERROR ∨ e = .STD_OUT_OF_RANGE := by
  unfold m_calc_rpn at h
  split_ifs at h
  · cases h; exact Or.inl rfl
  · rw [evalTokens_eq_stackAfter] at h
    cases hst : stackAfter A (tokens m_rpn) [] with
    | ret st1 =>
      rw [hst] at h
      cases st1 <;> cases h
    | thrown e1 =>
      rw [hst] at h
      cases h
      exact Or.inr (stackAfter_thrown A _ _ _ hst)
    | undefined => rw [hst] at h; cases h

theorem m_variableExists_spec (e name : Str) :
    (∀ ex, m_variableExists e name = .thrown ex → ex = .BAD_INIT) ∧
    m_variableExists e name ≠ .undefined ∧
    (m_variableExists e name = .ret false → find e (quote :: name ++ [quote]) = none) := by
  unfold m_variableExists
  split_ifs with h1 h2
  · exact ⟨fun ex h => (by cases h; rfl), by simp, by simp⟩
  · exact ⟨fun ex h => (by cases h), by simp, fun _ => h2⟩
  · exact ⟨fun ex h => (by cases h), by simp, fun h => (by cases h)⟩

/-- The loop over the variables ends with `UNKNOWN_VARIABLE` at the first
variable whose placeholder the expression, after the substitution of the
variables before it, does not contain. -/
theorem substitute_unknown {α : Type} (A : Arith α) (vs : List (Var α)) :
    ∀ (e e1 name : Str), substitute A vs e = some (.thrown (.UNKNOWN_VARIABLE name), e1) →
    ∃ pre v post, vs = pre ++ v :: post ∧ v.name = name ∧
      substitute A pre e = some (.ret (), e1) ∧
      ¬ occurs (quote :: name ++ [quote]) e1 := by
  induction vs with
  | nil => intro e e1 name h; simp [substitute] at h
  | cons v vs ih =>
    intro e e1 name h
    obtain ⟨s1, s2, s3⟩ := m_variableExists_spec e v.name
    rw [substitute] at h
    cases hex : m_variableExists e v.name with
    | thrown ex =>
      rw [hex] at h
      have := s1 ex hex
      subst this
      simp at h
    | undefined => exact absurd hex s2
    | ret b =>
      rw [hex] at h
      cases b with
      | false =>
        simp only [Option.some.injEq, Prod.mk.injEq, Outcome.thrown.injEq,
          Exn.UNKNOWN_VARIABLE.injEq] at h
        obtain ⟨hname, he⟩ := h
        subst he
        refine ⟨[], v, vs, rfl, hname, rfl, ?_⟩
        rw [← hname]
        exact (find_eq_none _ _).mp (s3 hex)
      | true =>
        simp only at h
        cases hrep : replaceAll (quote :: v.name ++ [quote]) (A.to_string v.value) e.length e with
        | none => rw [hrep] at h; cases h
        | some e2 =>
          rw [hrep] at h
          obtain ⟨pre, w, post, h1, h2, h3, h4⟩ := ih e2 e1 name h
          refine ⟨v :: pre, w, post, by simp [h1], h2, ?_, h4⟩
          rw [substitute, hex]
          simp only [hrep, h3]

/-- C20, refuted as stated: with the variables `x = 5` and `y` on an expression
that holds the placeholder of `x` only, `calculate` replaces the placeholder of
`x` before it throws `UNKNOWN_VARIABLE` for `y`; the stored expression has
changed, and the call repeated without `y` throws `UNKNOWN_VARIABLE` for
`x`. -/
theorem unknown_variable_after_substitution :
    calculate exact ⟨quote :: 'x' :: quote :: " + 1".toList, []⟩
        [⟨['x'], some 5⟩, ⟨['y'], some 1⟩]
      = some (.thrown (.UNKNOWN_VARIABLE ['y']), ⟨"5.000000 + 1".toList, []⟩) ∧
    "5.000000 + 1".toList ≠ quote :: 'x' :: quote :: " + 1".toList ∧
    calculate exact ⟨"5.000000 + 1".toList, []⟩ [⟨['x'], some 5⟩]
      = some (.thrown (.UNKNOWN_VARIABLE ['x']), ⟨"5.000000 + 1".toList, []⟩) := by
  decide

/-- C20, amended: when `calculate` throws `UNKNOWN_VARIABLE`, the stored
reverse polish notation is the one from before the call, and the stored
expression is the text after the substitution of the variables listed before
the unknown one, in which the placeholder of the unknown one does not occur;
it is the expression from before the call when the unknown variable is the
first of the list. -/
theorem unknown_variable_state {α : Type} (A : Arith α) (p p1 : Parser)
    (vars : List (Var α)) (name : Str)
    (h : calculate A p vars = some (.thrown (.UNKNOWN_VARIABLE name), p1)) :
    p1.m_rpn = p.m_rpn ∧
    ∃ pre v post, vars = pre ++ v :: post ∧ v.name = name ∧
      substitute A pre p.m_inputExpr = some (.ret (), p1.m_inputExpr) ∧
      ¬ occurs (quote :: name ++ [quote]) p1.m_inputExpr ∧
      (pre = [] → p1 = p) := by
  unfold calculate at h
  cases hsub : substitute A vars p.m_inputExpr with
  | none => rw [hsub] at h; cases h
  | some r =>
    obtain ⟨out, e1⟩ := r
    rw [hsub] at h
    cases out with
    | thrown exn =>
      simp only [Option.some.injEq, Prod.mk.injEq, Outcome.thrown.injEq] at h
      obtain ⟨hexn, hp⟩ := h
      subst hexn hp
      obtain ⟨pre, v, post, h1, h2, h3, h4⟩ := substitute_unknown A vars _ _ _ hsub
      refine ⟨rfl, pre, v, post, h1, h2, h3, h4, ?_⟩
      intro hpre
      subst hpre
      simp only [substitute, Option.some.injEq, Prod.mk.injEq, true_and] at h3
      rw [← h3]
    | undefined => simp at h
    | ret u =>
      simp only at h
      cases hmake : m_make_rpn e1 with
      | none => rw [hmake] at h; cases h
      | some o =>
        rw [hmake] at h
        cases o with
        | thrown exn =>
          simp only [Option.some.injEq, Prod.mk.injEq, Outcome.thrown.injEq] at h
          have := m_make_rpn_thrown e1 exn hmake
          rw [h.1] at this
          simp at this
        | undefined => simp at h
        | ret rpn =>
          simp only [Option.some.injEq, Prod.mk.injEq] at h
          have := m_calc_rpn_thrown A rpn _ h.1
          simp at this

/-- C20, amended, at the variables `x = 5` and `y = 1` on the expression with
the placeholder of `x` followed by ` + 1`. -/
theorem unknown_variable_state_witness :
    ∃ pre v post, [(⟨['x'], some 5⟩ : Var (Option Int)), ⟨['y'], some 1⟩] = pre ++ v :: post ∧
      v.name = ['y'] ∧
      substitute exact pre (quote :: 'x' :: quote :: " + 1".toList)
        = some (.ret (), "5.000000 + 1".toList) :=
  have h := (unknown_variable_state exact ⟨quote :: 'x' :: quote :: " + 1".toList, []⟩
    ⟨"5.000000 + 1".toList, []⟩ [⟨['x'], some 5⟩, ⟨['y'], some 1⟩] ['y'] (by decide)).2
  let ⟨pre, v, post, h1, h2, h3, _, _⟩ := h
  ⟨pre, v, post, h1, h2, h3⟩

/-! ## What the scan keeps -/

theorem scanToken_spec {t : Str} (h : scanToken t) :
    t ≠ [] ∧ ('(' ∈ t → t = ['(']) ∧ (')' ∈ t → nameToken t = true) := by
  refine ⟨?_, ?_, ?_⟩
  · rintro rfl
    rcases h with h | h | h | h <;> revert h <;> decide
  · intro hmem
    rcases h with h | h | h | h
    · exact h
    · cases t with
      | nil => simp at hmem
      | cons c r =>
        simp only [numberToken, Bool.and_eq_true, Bool.or_eq_true, beq_iff_eq,
          List.all_eq_true] at h
        exfalso
        rcases List.mem_cons.mp hmem with h1 | h1
        · rcases h.1 with h2 | h2
          · exact (numChar_ne h2).2.2.2.2.2.1 h1.symm
          · rw [h2] at h1; revert h1; decide
        · exact (numChar_ne (h.2 _ h1)).2.2.2.2.2.1 rfl
    · exfalso
      simp only [m_isOperatorStr] at h
      split_ifs at h with h1 h2 h3 h4 h5 <;> subst_vars <;> revert hmem <;> decide
    · cases t with
      | nil => simp at hmem
      | cons c r =>
        simp only [nameToken, Bool.and_eq_true, List.all_eq_true, bne_iff_ne] at h
        exfalso
        rcases List.mem_cons.mp hmem with h1 | h1
        · have h0 := h.1
          rw [← h1] at h0
          revert h0
          decide
        · exact h.2 _ h1 rfl
  · intro hmem
    rcases h with h | h | h | h
    · subst h; revert hmem; decide
    · cases t with
      | nil => simp at hmem
      | cons c r =>
        simp only [numberToken, Bool.and_eq_true, Bool.or_eq_true, beq_iff_eq,
          List.all_eq_true] at h
        exfalso
        rcases List.mem_cons.mp hmem with h1 | h1
        · rcases h.1 with h2 | h2
          · exact (numChar_ne h2).2.2.2.2.2.2.1 h1.symm
          · rw [h2] at h1; revert h1; decide
        · exact (numChar_ne (h.2 _ h1)).2.2.2.2.2.2.1 rfl
    · exfalso
      simp only [m_isOperatorStr] at h
      split_ifs at h with h1 h2 h3 h4 h5 <;> subst_vars <;> revert hmem <;> decide
    · exact h

theorem closes_eq_zero {t : Str} (h : ')' ∉ t) : closes t = 0 :=
  List.count_eq_zero_of_not_mem h

theorem closesIn_append (xs ys : List Str) : closesIn (xs ++ ys) = closesIn xs + closesIn ys := by
  simp [closesIn]

theorem closesIn_cons (t : Str) (ts : List Str) : closesIn (t :: ts) = closes t + closesIn ts := by
  simp [closesIn]

theorem lparens_append (xs ys : List Str) : lparens (xs ++ ys) = lparens xs + lparens ys := by
  simp [lparens]

theorem lparens_eq_zero {xs : List Str} (h : ∀ x ∈ xs, x ≠ ['(']) : lparens xs = 0 :=
  List.count_eq_zero_of_not_mem fun hm => h _ hm rfl

theorem popOperators_spec (p : Nat) (S : List Str) : ∀ Q : List Str,
    ∃ xs, S = xs ++ (popOperators p S Q).1 ∧ (popOperators p S Q).2 = Q ++ xs ∧
      ∀ x ∈ xs, p ≤ m_precendenceStr x := by
  induction S with
  | nil => intro Q; exact ⟨[], by simp [popOperators]⟩
  | cons top rest ih =>
    intro Q
    by_cases h : p ≤ m_precendenceStr top
    · obtain ⟨xs, h1, h2, h3⟩ := ih (Q ++ [top])
      refine ⟨top :: xs, ?_, ?_, ?_⟩
      · simp only [popOperators, h, if_true, List.cons_append]
        rw [← h1]
      · simp only [popOperators, h, if_true, h2]
        simp
      · intro x hx
        rcases List.mem_cons.mp hx with rfl | hx
        · exact h
        · exact h3 x hx
    · exact ⟨[], by simp [popOperators, h]⟩

theorem popToLParen_spec (S : List Str) : ∀ Q : List Str,
    ∃ xs, S = xs ++ (popToLParen S Q).1 ∧ (popToLParen S Q).2 = Q ++ xs ∧
      (∀ x ∈ xs, x ≠ ['(']) ∧
      ((popToLParen S Q).1 = [] ∨ ∃ rest, (popToLParen S Q).1 = ['('] :: rest) := by
  induction S with
  | nil => intro Q; exact ⟨[], by simp [popToLParen]⟩
  | cons top rest ih =>
    intro Q
    by_cases h : top = ['(']
    · exact ⟨[], by simp [popToLParen, h]⟩
    · obtain ⟨xs, h1, h2, h3, h4⟩ := ih (Q ++ [top])
      refine ⟨top :: xs, ?_, ?_, ?_, ?_⟩
      · simp only [popToLParen, ne_eq, h, not_false_eq_true, if_true, List.cons_append]
        rw [← h1]
      · simp only [popToLParen, ne_eq, h, not_false_eq_true, if_true, h2]
        simp
      · intro x hx
        rcases List.mem_cons.mp hx with rfl | hx
        · exact h
        · exact h3 x hx
      · simpa only [popToLParen, ne_eq, h, not_false_eq_true, if_true] using h4

theorem take_succ_of_getElem? (s : Str) (i : Nat) (c : Char) (h : s[i]? = some c) :
    s.take (i + 1) = s.take i ++ [c] := by
  rw [List.take_succ, h]
  rfl

theorem mem_of_getElem? (s : Str) (i : Nat) (c : Char) (h : s[i]? = some c) : c ∈ s := by
  obtain ⟨hlt, hget⟩ := List.getElem?_eq_some_iff.mp h
  exact hget ▸ List.getElem_mem hlt

theorem parseNumber_take (s : Str) : ∀ n it,
    s.take (parseNumber s n it).2 = s.take it ++ (parseNumber s n it).1 := by
  intro n
  induction n with
  | zero => intro it; simp [parseNumber]
  | succ n ih =>
    intro it
    unfold parseNumber
    cases h : s[it]? with
    | none => simp
    | some c =>
      by_cases hn : m_isNumber s it = true
      · simp only [hn, if_true]
        rw [ih (it + 1), take_succ_of_getElem? s it c h]
        simp
      · simp [hn]

theorem parseFunction_take (s : Str) : ∀ n it,
    s.take (parseFunction s n it).2 = s.take it ++ (parseFunction s n it).1 ∧
      ∀ c ∈ (parseFunction s n it).1, c ≠ '(' := by
  intro n
  induction n with
  | zero => intro it; simp [parseFunction]
  | succ n ih =>
    intro it
    unfold parseFunction
    cases h : s[it]? with
    | none => simp
    | some c =>
      by_cases hn : c = '('
      · simp [hn]
      · simp only [ne_eq, hn, not_false_eq_true, if_true]
        obtain ⟨h1, h2⟩ := ih (it + 1)
        refine ⟨?_, ?_⟩
        · rw [h1, take_succ_of_getElem? s it c h]
          simp
        · intro x hx
          rcases List.mem_cons.mp hx with rfl | hx
          · exact hn
          · exact h2 x hx

theorem m_isOperator_true (s : Str) (i : Nat) (h : m_isOperator s i = true) :
    ∃ c, s[i]? = some c ∧ (c = '+' ∨ c = '-' ∨ c = '*' ∨ c = '/' ∨ c = '^') := by
  cases hc : s[i]? with
  | none => cases i <;> simp [m_isOperator, hc] at h
  | some c =>
    refine ⟨c, rfl, ?_⟩
    by_contra hno
    simp only [not_or] at hno
    obtain ⟨h1, h2, h3, h4, h5⟩ := hno
    rw [m_isOperator_other s i c hc h1 h2 h3 h4 h5] at h
    cases h

theorem m_isNumber_true (s : Str) (i : Nat) (h : m_isNumber s i = true) :
    ∃ c, s[i]? = some c ∧ (numChar c = true ∨ c = '-') := by
  cases hc : s[i]? with
  | none => simp [m_isNumber, hc] at h
  | some c =>
    refine ⟨c, rfl, ?_⟩
    by_contra hno
    simp only [not_or, Bool.not_eq_true] at hno
    rw [m_isNumber_other s i c hc hno.1 hno.2] at h
    cases h

theorem minus_complement (s : Str) (i : Nat) (h : s[i]? = some '-') :
    m_isNumber s i = true ↔ m_isOperator s i = false := by
  cases i with
  | zero => simp [m_isNumber, m_isOperator, h]
  | succ n =>
    simp only [m_isNumber, m_isOperator, h]
    simp
    by_cases h1 : s[n]? = some '(' <;> by_cases h2 : m_isOperator s n = true <;> simp [h1, h2]

theorem m_isNumber_succ (s : Str) (i : Nat) (h0 : m_isNumber s i = true)
    (h1 : m_isNumber s (i + 1) = true) : ∃ c, s[i + 1]? = some c ∧ numChar c = true := by
  obtain ⟨c, hc, hkind⟩ := m_isNumber_true s (i + 1) h1
  refine ⟨c, hc, ?_⟩
  rcases hkind with hk | rfl
  · exact hk
  · exfalso
    obtain ⟨d, hd, hdk⟩ := m_isNumber_true s i h0
    have hop : m_isOperator s i = false := by
      rcases hdk with hdk | rfl
      · exact m_isOperator_numChar s i d hd hdk
      · exact (minus_complement s i hd).mp h0
    have hpar : s[i]? ≠ some '(' := by
      rw [hd]
      rcases hdk with hdk | rfl
      · intro heq
        have : d = '(' := by simpa using heq
        exact (numChar_ne hdk).2.2.2.2.2.1 this
      · decide
    simp [m_isNumber, hc, hop, hpar] at h1

theorem parseNumber_tail (s : Str) : ∀ n it, m_isNumber s it = true →
    ∀ x ∈ (parseNumber s n (it + 1)).1, numChar x = true := by
  intro n
  induction n with
  | zero => intro it _ x hx; simp [parseNumber] at hx
  | succ n ih =>
    intro it h0 x hx
    unfold parseNumber at hx
    cases hc : s[it + 1]? with
    | none => simp [hc] at hx
    | some c =>
      by_cases hn : m_isNumber s (it + 1) = true
      · simp only [hc, hn, if_true] at hx
        obtain ⟨c1, hc1, hk⟩ := m_isNumber_succ s it h0 hn
        rcases List.mem_cons.mp hx with rfl | hx
        · rw [hc] at hc1
          cases hc1
          exact hk
        · exact ih (it + 1) hn x hx
      · simp [hc, hn] at hx

theorem parseNumber_le_length (s : Str) : ∀ n it, it ≤ s.length →
    (parseNumber s n it).2 ≤ s.length := by
  intro n
  induction n with
  | zero => intro it h; simpa [parseNumber] using h
  | succ n ih =>
    intro it h
    unfold parseNumber
    cases hc : s[it]? with
    | none => simpa using h
    | some c =>
      have hlt : it < s.length := (List.getElem?_eq_some_iff.mp hc).1
      by_cases hn : m_isNumber s it = true
      · simp only [hn, if_true]
        exact ih (it + 1) hlt
      · simpa [hn] using h

theorem parseFunction_le_length (s : Str) : ∀ n it, it ≤ s.length →
    (parseFunction s n it).2 ≤ s.length := by
  intro n
  induction n with
  | zero => intro it h; simpa [parseFunction] using h
  | succ n ih =>
    intro it h
    unfold parseFunction
    cases hc : s[it]? with
    | none => simpa using h
    | some c =>
      have hlt : it < s.length := (List.getElem?_eq_some_iff.mp hc).1
      by_cases hn : c = '('
      · simpa [hn] using h
      · simp only [ne_eq, hn, not_false_eq_true, if_true]
        exact ih (it + 1) hlt

theorem numberToken_no_paren {t : Str} (h : numberToken t = true) :
    opens t = 0 ∧ closes t = 0 ∧ t ≠ ['('] := by
  have hs := scanToken_spec (Or.inr (Or.inl h))
  have h1 : '(' ∉ t := by
    intro hm
    have := hs.2.1 hm
    subst this
    revert h
    decide
  have h2 : ')' ∉ t := by
    intro hm
    cases t with
    | nil => simp at hm
    | cons c r =>
      simp only [numberToken, Bool.and_eq_true, Bool.or_eq_true, beq_iff_eq,
        List.all_eq_true] at h
      rcases List.mem_cons.mp hm with h3 | h3
      · rcases h.1 with h4 | h4
        · exact (numChar_ne h4).2.2.2.2.2.2.1 h3.symm
        · rw [h4] at h3; revert h3; decide
      · exact (numChar_ne (h.2 _ h3)).2.2.2.2.2.2.1 rfl
  refine ⟨List.count_eq_zero_of_not_mem h1, List.count_eq_zero_of_not_mem h2, ?_⟩
  rintro rfl
  exact h1 (by simp)

theorem operator_char_facts {c : Char}
    (h : c = '+' ∨ c = '-' ∨ c = '*' ∨ c = '/' ∨ c = '^') :
    2 ≤ m_precendence c ∧ m_isOperatorStr [c] = true ∧ closes [c] = 0 ∧ opens [c] = 0 ∧
      [c] ≠ ['('] ∧ c ≠ quote := by
  rcases h with rfl | rfl | rfl | rfl | rfl <;> decide

theorem count_take_succ (s : Str) (i : Nat) (c a : Char) (h : s[i]? = some c) :
    (s.take (i + 1)).count a = (s.take i).count a + (if c = a then 1 else 0) := by
  rw [take_succ_of_getElem? s i c h, List.count_append, List.count_singleton]
  by_cases hca : c = a <;> simp [hca]

/-- Every pass through the loop keeps `ScanInv`. -/
theorem scanStep_inv (s : Str) (st st1 : Scan) (inv : ScanInv s st) (hlt : st.it < s.length)
    (h : scanStep s st = .ret st1) : ScanInv s st1 := by
  obtain ⟨it, S, Q⟩ := st
  obtain ⟨c, hc⟩ : ∃ c, s[it]? = some c := ⟨s[it], List.getElem?_eq_getElem hlt⟩
  have hcs : c ∈ s := mem_of_getElem? s it c hc
  obtain ⟨n, hn⟩ : ∃ n, s.length - it = n + 1 := ⟨s.length - it - 1, by simp at hlt; omega⟩
  have hcl := count_take_succ s it c ')' hc
  have hop := count_take_succ s it c '(' hc
  have hkinds := inv.kinds
  have hqueue := inv.queue
  have hcount := inv.count
  simp only at hkinds hqueue hcount hlt
  simp only [closes, opens] at hcl hop hcount ⊢
  by_cases hq : c = quote
  · simp only [scanStep, hc, hq, if_true, Outcome.ret.injEq] at h
    subst h
    have h1 : ¬ quote = ')' := by decide
    have h2 : ¬ quote = '(' := by decide
    rw [hq] at hcl hop
    simp only [h1, h2, if_false, Nat.add_zero] at hcl hop
    exact ⟨hlt, hkinds, hqueue, by simp only [closes, opens, hcl, hop]; exact hcount⟩
  by_cases hoper : m_isOperator s it = true
  · simp only [scanStep, hc, hq, hoper, if_true, if_false, Outcome.ret.injEq] at h
    subst h
    obtain ⟨c1, hc1, hops⟩ := m_isOperator_true s it hoper
    rw [hc] at hc1
    cases hc1
    obtain ⟨f1, f2, f3, f4, f5, -⟩ := operator_char_facts hops
    obtain ⟨xs, x1, x2, x3⟩ := popOperators_spec (m_precendence c) S Q
    have hxs : ∀ x ∈ xs, x ≠ ['('] := by
      intro x hx heq
      have := x3 x hx
      rw [heq] at this
      have h1 : m_precendenceStr ['('] = 1 := by decide
      omega
    have hne1 : ¬ c = ')' := by rintro rfl; revert f3; decide
    have hne2 : ¬ c = '(' := by rintro rfl; exact f5 rfl
    simp only [hne1, hne2, if_false, Nat.add_zero] at hcl hop
    refine ⟨hlt, ?_, ?_, ?_⟩
    · intro t ht
      simp only [x2, List.cons_append, List.mem_cons, List.mem_append] at ht
      rcases ht with rfl | ht | ht | ht
      · exact ⟨Or.inr (Or.inr (Or.inl f2)), fun d hd => by
          have : d = c := by simpa using hd
          rw [this]; exact hcs⟩
      · exact hkinds t (by rw [x1]; simp [ht])
      · exact hkinds t (by simp [ht])
      · exact hkinds t (by rw [x1]; simp [ht])
    · simp only [x2, List.mem_append, not_or]
      exact ⟨hqueue, fun hm => hxs _ hm rfl⟩
    · have e1 : lparens S = lparens (popOperators (m_precendence c) S Q).1 := by
        conv_lhs => rw [x1]
        rw [lparens_append, lparens_eq_zero hxs]
        omega
      have e2 : closesIn S = closesIn xs + closesIn (popOperators (m_precendence c) S Q).1 := by
        conv_lhs => rw [x1]
        rw [closesIn_append]
      have e3 : lparens ([c] :: (popOperators (m_precendence c) S Q).1)
          = lparens (popOperators (m_precendence c) S Q).1 := by
        simp [lparens, List.count_cons, hne2]
      simp only [closes, opens, hcl, hop, e3, x2, closesIn_append, closesIn_cons, f3]
      simp only [closes, opens] at f3
      rw [← e1]
      omega
  have hoper1 : m_isOperator s it = false := by simpa using hoper
  by_cases hl : c = '('
  · subst hl
    simp only [scanStep, hc, hq, hoper1, if_true, if_false, Bool.false_eq_true,
      Outcome.ret.injEq] at h
    subst h
    have h1 : ¬ '(' = ')' := by decide
    simp only [h1, if_true, if_false, Nat.add_zero] at hcl hop
    refine ⟨hlt, ?_, hqueue, ?_⟩
    · intro t ht
      simp only [List.cons_append, List.mem_cons] at ht
      rcases ht with rfl | ht
      · exact ⟨Or.inl rfl, fun d hd => by
          have : d = '(' := by simpa using hd
          rw [this]; exact hcs⟩
      · exact hkinds t ht
    · have e3 : lparens (['('] :: S) = lparens S + 1 := by
        simp [lparens]
      have e4 : closesIn (['('] :: S) = closesIn S := by
        rw [closesIn_cons]
        have : closes ['('] = 0 := by decide
        omega
      simp only [closes, opens, hcl, hop, e3, e4]
      omega
  by_cases hr : c = ')'
  · subst hr
    simp only [scanStep, hc, hq, hoper1, hl, if_true, if_false, Bool.false_eq_true] at h
    obtain ⟨xs, x1, x2, x3, x4⟩ := popToLParen_spec S Q
    rcases x4 with x4 | ⟨rest, x4⟩
    · rw [x4] at h
      cases h
    · rw [x4] at h
      simp only [Outcome.ret.injEq] at h
      subst h
      have h2 : ¬ ')' = '(' := by decide
      simp only [h2, if_true, if_false, Nat.add_zero] at hcl hop
      rw [x4] at x1
      refine ⟨hlt, ?_, ?_, ?_⟩
      · intro t ht
        simp only [x2, List.mem_append] at ht
        rcases ht with ht | ht | ht
        · exact hkinds t (by rw [x1]; simp [ht])
        · exact hkinds t (by simp [ht])
        · exact hkinds t (by rw [x1]; simp [ht])
      · simp only [x2, List.mem_append, not_or]
        exact ⟨hqueue, fun hm => x3 _ hm rfl⟩
      · have e1 : lparens S = lparens rest + 1 := by
          conv_lhs => rw [x1]
          rw [lparens_append, lparens_eq_zero x3]
          simp [lparens]
        have e2 : closesIn S = closesIn xs + closesIn rest := by
          conv_lhs => rw [x1]
          rw [closesIn_append, closesIn_cons]
          have : closes ['('] = 0 := by decide
          omega
        simp only [closes, opens, hcl, hop, x2, closesIn_append]
        omega
  by_cases hnum : m_isNumber s it = true
  · simp only [scanStep, hc, hq, hoper1, hl, hr, hnum, if_true, if_false, Bool.false_eq_true,
      Outcome.ret.injEq, hn] at h
    subst h
    obtain ⟨c1, hc1, hk⟩ := m_isNumber_true s it hnum
    rw [hc] at hc1
    cases hc1
    have htake := parseNumber_take s (n + 1) it
    have hle := parseNumber_le_length s (n + 1) it (Nat.le_of_lt hlt)
    have htok : numberToken (parseNumber s (n + 1) it).1 = true := by
      rw [parseNumber_cons s n it c hc hnum]
      simp only [numberToken, Bool.and_eq_true, Bool.or_eq_true, beq_iff_eq, List.all_eq_true]
      exact ⟨hk, parseNumber_tail s n it hnum⟩
    obtain ⟨p1, p2, p3⟩ := numberToken_no_paren htok
    refine ⟨hle, ?_, ?_, ?_⟩
    · intro t ht
      simp only [List.mem_append, List.mem_singleton] at ht
      rcases ht with ht | ht | rfl
      · exact hkinds t (by simp [ht])
      · exact hkinds t (by simp [ht])
      · exact ⟨Or.inr (Or.inl htok), fun d hd =>
          List.mem_of_mem_take (by rw [htake]; simp [hd])⟩
    · simp only [List.mem_append, List.mem_singleton, not_or]
      exact ⟨hqueue, fun hm => p3 hm.symm⟩
    · simp only [closes, opens] at p1 p2
      have hnil : closesIn ([] : List Str) = 0 := rfl
      simp only [closes, opens, htake, List.count_append, closesIn_append, closesIn_cons, p1, p2,
        hnil]
      omega
  · have hnum1 : m_isNumber s it = false := by simpa using hnum
    simp only [scanStep, hc, hq, hoper1, hl, hr, hnum1, if_false, Bool.false_eq_true,
      Outcome.ret.injEq, hn] at h
    subst h
    obtain ⟨htake, hnolp⟩ := parseFunction_take s (n + 1) it
    have hle := parseFunction_le_length s (n + 1) it (Nat.le_of_lt hlt)
    have hcons : (parseFunction s (n + 1) it).1 = c :: (parseFunction s n (it + 1)).1 := by
      simp [parseFunction, hc, hl]
    have hstart : nameStart c = true := by
      have hnc : numChar c = false := by
        by_contra hno
        have : numChar c = true := by simpa using hno
        exact hnum (m_isNumber_numChar s it c hc this)
      have hminus : c ≠ '-' := by
        rintro rfl
        exact hnum ((minus_complement s it hc).mpr (by simpa using hoper))
      have hops : c ≠ '*' ∧ c ≠ '/' ∧ c ≠ '^' := by
        refine ⟨?_, ?_, ?_⟩ <;> rintro rfl <;> cases it <;> simp [m_isOperator, hc] at hoper
      simp [nameStart, hq, hl, hr, hnc, hminus, hops.1, hops.2.1, hops.2.2]
    have htok : nameToken (parseFunction s (n + 1) it).1 = true := by
      rw [hcons]
      simp only [nameToken, Bool.and_eq_true, List.all_eq_true, bne_iff_ne]
      refine ⟨hstart, fun d hd => ?_⟩
      exact hnolp d (by rw [hcons]; simp [hd])
    have p1 : opens (parseFunction s (n + 1) it).1 = 0 :=
      List.count_eq_zero_of_not_mem fun hm => hnolp _ hm rfl
    have p3 : (parseFunction s (n + 1) it).1 ≠ ['('] := by
      intro heq
      exact hnolp '(' (by rw [heq]; simp) rfl
    refine ⟨hle, ?_, hqueue, ?_⟩
    · intro t ht
      simp only [List.cons_append, List.mem_cons] at ht
      rcases ht with rfl | ht
      · exact ⟨Or.inr (Or.inr (Or.inr htok)), fun d hd =>
          List.mem_of_mem_take (by rw [htake]; simp [hd])⟩
      · exact hkinds t ht
    · have e3 : lparens ((parseFunction s (n + 1) it).1 :: S) = lparens S := by
        simp [lparens, List.count_cons, p3]
      simp only [closes, opens] at p1
      simp only [closes, opens, htake, List.count_append, closesIn_cons, p1, e3]
      omega

theorem scanInv_start (s : Str) : ScanInv s ⟨0, [], []⟩ :=
  ⟨Nat.zero_le _, by simp, by simp, by simp [lparens, closes, opens, closesIn]⟩

/-- The loop keeps `ScanInv` up to its end. -/
theorem scan_inv (s : Str) : ∀ (fuel : Nat) (st st1 : Scan), ScanInv s st →
    scan s fuel st = some (.ret st1) → ScanInv s st1 ∧ s.length ≤ st1.it := by
  intro fuel
  induction fuel with
  | zero =>
    intro st st1 inv h
    simp only [scan] at h
    split_ifs at h with hend
    cases h
    exact ⟨inv, hend⟩
  | succ fuel ih =>
    intro st st1 inv h
    simp only [scan] at h
    split_ifs at h with hend
    · cases h
      exact ⟨inv, hend⟩
    · cases hstep : scanStep s st with
      | ret st2 =>
        rw [hstep] at h
        exact ih st2 st1 (scanStep_inv s st st2 inv (by omega) hstep) h
      | thrown e => rw [hstep] at h; cases h
      | undefined => rw [hstep] at h; cases h

theorem scanStep_defined (s : Str) (st : Scan) (hlt : st.it < s.length) :
    scanStep s st ≠ .undefined := by
  obtain ⟨c, hc⟩ : ∃ c, s[st.it]? = some c := ⟨s[st.it], List.getElem?_eq_getElem hlt⟩
  simp only [scanStep, hc]
  split_ifs
  · simp
  · simp
  · simp
  · split <;> simp
  · simp
  · simp

/-- The loop throws only at a right parenthesis that finds no left parenthesis
on the operator stack. -/
theorem scanStep_thrown_at (s : Str) (st : Scan) (e : Exn) (h : scanStep s st = .thrown e) :
    s[st.it]? = some ')' ∧ lparens st.operatorStack = 0 := by
  cases hc : s[st.it]? with
  | none => simp [scanStep, hc] at h
  | some c =>
    simp only [scanStep, hc] at h
    split_ifs at h with h1 h2 h3 h4
    obtain ⟨xs, x1, -, x3, -⟩ := popToLParen_spec st.operatorStack st.outputQueue
    split at h
    · rename_i hnil
      rw [hnil, List.append_nil] at x1
      rw [h4]
      exact ⟨rfl, by rw [x1]; exact lparens_eq_zero x3⟩
    · cases h

/-- When no part of the text from its start has more right than left
parentheses, the loop runs to the end of the text without an exception. -/
theorem scan_ret_of_prefixes (s : Str) (hpre : ∀ k, closes (s.take k) ≤ opens (s.take k)) :
    ∀ (fuel : Nat) (st : Scan), ScanInv s st → s.length - st.it ≤ fuel →
    ∃ st1, scan s fuel st = some (.ret st1) := by
  intro fuel
  induction fuel with
  | zero =>
    intro st _ h
    exact ⟨st, scan_end s 0 st (by omega)⟩
  | succ fuel ih =>
    intro st inv h
    by_cases hend : s.length ≤ st.it
    · exact ⟨st, scan_end s _ st hend⟩
    · have hlt : st.it < s.length := by omega
      cases hstep : scanStep s st with
      | ret st1 =>
        have := scanStep_progress s st st1 hlt hstep
        rw [scan_succ s fuel st st1 hlt hstep]
        exact ih st1 (scanStep_inv s st st1 inv hlt hstep) (by omega)
      | thrown e =>
        exfalso
        obtain ⟨hc, hzero⟩ := scanStep_thrown_at s st e hstep
        have h1 := count_take_succ s st.it ')' ')' hc
        have h2 := count_take_succ s st.it ')' '(' hc
        have h3 := hpre (st.it + 1)
        have h4 := inv.count
        have hne : ¬ ')' = '(' := by decide
        simp only [closes, opens, if_true, hne, if_false] at h1 h2 h3 h4
        omega
      | undefined => exact absurd hstep (scanStep_defined s st hlt)

theorem joinQueue_last_char (ts : List Str) (hne : ts ≠ []) (h : ∀ t ∈ ts, t ≠ []) :
    ∃ init d t, joinQueue ts = init ++ [d, ' '] ∧ t ∈ ts ∧ d ∈ t := by
  induction ts with
  | nil => exact absurd rfl hne
  | cons t ts ih =>
    have ht := h t (List.mem_cons_self _ _)
    cases ts with
    | nil =>
      rcases List.eq_nil_or_concat t with h0 | ⟨init, d, rfl⟩
      · exact absurd h0 ht
      · exact ⟨init, d, init.concat d, by simp [joinQueue], by simp, by simp⟩
    | cons t2 ts =>
      obtain ⟨init, d, t3, h1, h2, h3⟩ := ih (by simp)
        (fun x hx => h x (List.mem_cons_of_mem _ hx))
      exact ⟨t ++ ' ' :: init, d, t3, by rw [joinQueue, h1]; simp,
        List.mem_cons_of_mem _ h2, h3⟩

/-- The two tests of lines 109-127 on the string assembled from scan tokens:
they throw exactly when a left parenthesis is among the tokens. -/
theorem checkLParenthesis_scanTokens (ts : List Str) (hne : ts ≠ [])
    (h : ∀ t ∈ ts, scanToken t ∧ ∀ c ∈ t, isspace c = false) :
    checkLParenthesis (joinQueue ts)
      = if ['('] ∈ ts then .thrown .UNCLOSED_LPARENTHESIS else .ret (joinQueue ts) := by
  obtain ⟨init, d, t, h1, h2, h3⟩ := joinQueue_last_char ts hne
    (fun t ht => (scanToken_spec (h t ht).1).1)
  have htok := tokens_joinQueue ts (fun t ht => ⟨(scanToken_spec (h t ht).1).1, (h t ht).2⟩)
  have hlen : ¬ (joinQueue ts).length < 2 := by rw [h1]; simp
  have hget : (joinQueue ts)[(joinQueue ts).length - 2]? = some d := by
    rw [h1]
    have : (init ++ [d, ' ']).length - 2 = init.length := by simp
    rw [this]
    exact getElem?_mid init [' '] d
  unfold checkLParenthesis
  rw [if_neg hlen, hget, htok]
  by_cases hd : d = '('
  · have : t = ['('] := (scanToken_spec (h t h2).1).2.1 (hd ▸ h3)
    have hmem : ['('] ∈ ts := this ▸ h2
    simp [hd, hmem]
  · have : ¬ some d = some '(' := by simpa using hd
    rw [if_neg this]

theorem mem_stripWS {x : Str} {c : Char} (h : c ∈ stripWS x) : isspace c = false := by
  rw [stripWS_eq_filter, List.mem_filter] at h
  simpa using h.2

/-- The conversion after the test of line 8, in terms of the state in which
the loop ends. -/
theorem m_make_rpn_of_scan (x : Str) (st : Scan)
    (hguard : ¬ (x.isEmpty = true ∨ x = [' ']))
    (hscan : scan (stripWS x) (stripWS x).length ⟨0, [], []⟩ = some (.ret st)) :
    ScanInv (stripWS x) st ∧
    m_make_rpn x = some
      (if st.outputQueue ++ st.operatorStack = [] then .undefined
        else if ['('] ∈ st.operatorStack then .thrown .UNCLOSED_LPARENTHESIS
        else .ret (joinQueue (st.outputQueue ++ st.operatorStack))) := by
  obtain ⟨inv, -⟩ := scan_inv _ _ _ _ (scanInv_start _) hscan
  refine ⟨inv, ?_⟩
  simp only [m_make_rpn, hguard, if_false, hscan]
  by_cases hnil : st.outputQueue ++ st.operatorStack = []
  · rw [hnil, if_pos rfl]
    rfl
  · rw [if_neg hnil, checkLParenthesis_scanTokens _ hnil (fun t ht =>
      ⟨(inv.kinds t (by simp at ht ⊢; tauto)).1,
        fun c hc => mem_stripWS ((inv.kinds t (by simp at ht ⊢; tauto)).2 c hc)⟩)]
    have hq := inv.queue
    by_cases hmem : ['('] ∈ st.operatorStack
    · simp [hmem]
    · simp [hmem, hq]

/-! ## Parentheses -/

theorem prefixesClosed_spec (x : Str) (h : prefixesClosed x = true) :
    ∀ k, closes (x.take k) ≤ opens (x.take k) := by
  simp only [prefixesClosed, List.all_eq_true, List.mem_range, decide_eq_true_eq] at h
  intro k
  by_cases hk : k < x.length + 1
  · exact h k hk
  · have := h x.length (by omega)
    rw [List.take_of_length_le (by omega)]
    rwa [List.take_of_length_le (le_refl _)] at this

theorem filter_take_exists (p : Char → Bool) (l : Str) :
    ∀ k, ∃ k1, (l.filter p).take k = (l.take k1).filter p := by
  induction l with
  | nil => intro k; exact ⟨0, by simp⟩
  | cons c l ih =>
    intro k
    by_cases hp : p c = true
    · cases k with
      | zero => exact ⟨0, by simp⟩
      | succ j =>
        obtain ⟨k1, hk1⟩ := ih j
        exact ⟨k1 + 1, by simp [List.filter_cons, hp, hk1]⟩
    · obtain ⟨k1, hk1⟩ := ih k
      exact ⟨k1 + 1, by simp [List.filter_cons, hp, hk1]⟩

theorem stripWS_counts (x : Str) :
    opens (stripWS x) = opens x ∧ closes (stripWS x) = closes x := by
  rw [stripWS_eq_filter]
  exact ⟨List.count_filter (by decide), List.count_filter (by decide)⟩

theorem stripWS_prefixes (x : Str) (hpre : ∀ k, closes (x.take k) ≤ opens (x.take k)) :
    ∀ k, closes ((stripWS x).take k) ≤ opens ((stripWS x).take k) := by
  intro k
  rw [stripWS_eq_filter]
  obtain ⟨k1, hk1⟩ := filter_take_exists (fun c => !isspace c) x k
  rw [hk1]
  have h1 : closes ((x.take k1).filter fun c => !isspace c) = closes (x.take k1) :=
    List.count_filter (by decide)
  have h2 : opens ((x.take k1).filter fun c => !isspace c) = opens (x.take k1) :=
    List.count_filter (by decide)
  rw [h1, h2]
  exact hpre k1

theorem m_make_rpn_guarded (x : Str) (hg : x.isEmpty = true ∨ x = [' ']) :
    m_make_rpn x = some (.thrown .BAD_INIT) := by
  unfold m_make_rpn
  rw [if_pos hg]

theorem m_make_rpn_unguarded (x : Str) (hg : ¬ (x.isEmpty = true ∨ x = [' '])) :
    m_make_rpn x =
      match scan (stripWS x) (stripWS x).length ⟨0, [], []⟩ with
      | none => none
      | some (.thrown e) => some (.thrown e)
      | some .undefined => some .undefined
      | some (.ret st) =>
        some (checkLParenthesis (joinQueue (st.outputQueue ++ st.operatorStack))) := by
  unfold m_make_rpn
  rw [if_neg hg]

/-- A conversion that returns has gone through the loop, which has left at
least one token and no left parenthesis. -/
theorem m_make_rpn_ret_scan (x rpn : Str) (h : m_make_rpn x = some (.ret rpn)) :
    ∃ st, scan (stripWS x) (stripWS x).length ⟨0, [], []⟩ = some (.ret st) ∧
      ScanInv (stripWS x) st ∧ st.outputQueue ++ st.operatorStack ≠ [] ∧
      ['('] ∉ st.operatorStack ∧ rpn = joinQueue (st.outputQueue ++ st.operatorStack) := by
  have hguard : ¬ (x.isEmpty = true ∨ x = [' ']) := by
    intro hg
    rw [m_make_rpn_guarded x hg] at h
    cases h
  cases hscan : scan (stripWS x) (stripWS x).length ⟨0, [], []⟩ with
  | none =>
    rw [m_make_rpn_unguarded x hguard, hscan] at h
    cases h
  | some out =>
    cases out with
    | thrown e =>
      rw [m_make_rpn_unguarded x hguard, hscan] at h
      cases h
    | undefined =>
      rw [m_make_rpn_unguarded x hguard, hscan] at h
      cases h
    | ret st =>
      obtain ⟨inv, hmk⟩ := m_make_rpn_of_scan x st hguard hscan
      rw [hmk] at h
      refine ⟨st, rfl, inv, ?_⟩
      by_cases h1 : st.outputQueue ++ st.operatorStack = []
      · rw [if_pos h1] at h
        cases h
      · by_cases h2 : ['('] ∈ st.operatorStack
        · rw [if_neg h1, if_pos h2] at h
          cases h
        · rw [if_neg h1, if_neg h2] at h
          simp only [Option.some.injEq, Outcome.ret.injEq] at h
          exact ⟨h1, h2, h.symm⟩

/-- C11: when no part of the expression from its start has more right than
left parentheses and the whole expression has more left than right ones, the
conversion throws `UNCLOSED_LPARENTHESIS`, wherever the unclosed parenthesis
stands and whatever else the expression contains. -/
theorem unclosed_left_parenthesis (x : Str)
    (hpre : ∀ k, closes (x.take k) ≤ opens (x.take k)) (htot : closes x < opens x) :
    m_make_rpn x = some (.thrown .UNCLOSED_LPARENTHESIS) := by
  have hguard : ¬ (x.isEmpty = true ∨ x = [' ']) := by
    rintro (h | h)
    · have : x = [] := by simpa using h
      subst this
      simp [opens] at htot
    · subst h
      revert htot
      decide
  obtain ⟨c1, c2⟩ := stripWS_counts x
  obtain ⟨st, hscan⟩ := scan_ret_of_prefixes (stripWS x) (stripWS_prefixes x hpre)
    (stripWS x).length ⟨0, [], []⟩ (scanInv_start _) (by simp)
  obtain ⟨inv, hend⟩ := scan_inv _ _ _ _ (scanInv_start _) hscan
  obtain ⟨-, hmk⟩ := m_make_rpn_of_scan x st hguard hscan
  have hcount := inv.count
  rw [List.take_of_length_le hend, c1, c2] at hcount
  have hpos : 0 < lparens st.operatorStack := by omega
  have hmem : ['('] ∈ st.operatorStack := List.count_pos_iff.mp hpos
  have hne : st.outputQueue ++ st.operatorStack ≠ [] := by
    intro h
    have : st.operatorStack = [] := (List.append_eq_nil.mp h).2
    rw [this] at hmem
    simp at hmem
  rw [hmk, if_neg hne, if_pos hmem]

/-- C11 at `(1 + 2`, where the unclosed parenthesis stands first, and at
`1+(2*3`, where it stands in the middle. -/
theorem unclosed_left_parenthesis_witness :
    m_make_rpn "(1 + 2".toList = some (.thrown .UNCLOSED_LPARENTHESIS) ∧
    m_make_rpn "1+(2*3".toList = some (.thrown .UNCLOSED_LPARENTHESIS) :=
  ⟨unclosed_left_parenthesis "(1 + 2".toList (prefixesClosed_spec _ (by decide)) (by decide),
    unclosed_left_parenthesis "1+(2*3".toList (prefixesClosed_spec _ (by decide)) (by decide)⟩

/-- C12, refuted as stated: the conversion of `foo(1)` returns with the tokens
`1 foo`, and `foo` is no parsable number, no operator and no function of the
catalog; the conversion of `.` returns with the token `.`, which is no
parsable number, no operator and no function either. -/
theorem rpn_token_not_recognised :
    m_make_rpn "foo(1)".toList = some (.ret "1 foo ".toList) ∧
    "foo".toList ∈ tokens "1 foo ".toList ∧ ¬ specToken "foo".toList ∧
    m_make_rpn ['.'] = some (.ret ['.', ' ']) ∧
    ['.'] ∈ tokens ['.', ' '] ∧ ¬ specToken ['.'] ∧
    ¬ (∀ x rpn : Str, m_make_rpn x = some (.ret rpn) → ∀ t ∈ tokens rpn, specToken t) := by
  have h1 : m_make_rpn "foo(1)".toList = some (.ret "1 foo ".toList) := by decide
  have h2 : ¬ specToken "foo".toList := by
    unfold specToken
    decide
  have h3 : ¬ specToken ['.'] := by
    unfold specToken
    decide
  exact ⟨h1, by decide, h2, by decide, by decide, h3,
    fun h => h2 (h _ _ h1 "foo".toList (by decide))⟩

/-- C12, amended: when the conversion returns, every token of the stored
string is a number token (a digit, a point or a minus sign, followed by
digits and points), one of the operators `+ - * / ^`, or a name token (a first
character that is no quote, parenthesis, digit, point, `-`, `*`, `/` or `^`,
followed by characters other than the left parenthesis). -/
theorem rpn_tokens_scanned (x rpn : Str) (h : m_make_rpn x = some (.ret rpn)) :
    ∀ t ∈ tokens rpn,
      numberToken t = true ∨ m_isOperatorStr t = true ∨ nameToken t = true := by
  obtain ⟨st, -, inv, -, hno, hrpn⟩ := m_make_rpn_ret_scan x rpn h
  have hk : ∀ t ∈ st.outputQueue ++ st.operatorStack,
      scanToken t ∧ ∀ c ∈ t, isspace c = false := fun t ht =>
    ⟨(inv.kinds t (by simp at ht ⊢; tauto)).1,
      fun c hc => mem_stripWS ((inv.kinds t (by simp at ht ⊢; tauto)).2 c hc)⟩
  have htok : tokens rpn = st.outputQueue ++ st.operatorStack := by
    rw [hrpn]
    exact tokens_joinQueue _ (fun t ht => ⟨(scanToken_spec (hk t ht).1).1, (hk t ht).2⟩)
  rw [htok]
  intro t ht
  rcases (hk t ht).1 with h1 | h1
  · exfalso
    subst h1
    rcases List.mem_append.mp ht with h2 | h2
    · exact inv.queue h2
    · exact hno h2
  · exact h1

/-- C12, amended, at `foo(-1.5)*+x`: the tokens are `-1.5`, `+x`, `*` and
`foo`. -/
theorem rpn_tokens_scanned_witness :
    tokens "-1.5 +x * foo ".toList
      = ["-1.5".toList, "+x".toList, "*".toList, "foo".toList] ∧
    ∀ t ∈ tokens "-1.5 +x * foo ".toList,
      numberToken t = true ∨ m_isOperatorStr t = true ∨ nameToken t = true :=
  ⟨by decide,
    rpn_tokens_scanned "foo(-1.5)*+x".toList "-1.5 +x * foo ".toList (by decide)⟩

theorem digitChar_spec : ∀ k, k < 10 →
    (Nat.digitChar k).isDigit = true ∧ (Nat.digitChar k).toNat - 48 = k := by
  decide

theorem digitsValue_append (xs ys : Str) : ∀ acc,
    digitsValue (xs ++ ys) acc = digitsValue ys (digitsValue xs acc) := by
  induction xs with
  | nil => intro acc; rfl
  | cons c xs ih =>
    intro acc
    rw [List.cons_append]
    simp only [digitsValue]
    exact ih _

theorem toDigitsCore_spec : ∀ (fuel n : Nat) (ds : Str), n < fuel →
    ∃ D, Nat.toDigitsCore 10 fuel n ds = D ++ ds ∧ D ≠ [] ∧
      (∀ c ∈ D, c.isDigit = true) ∧ ∀ acc, digitsValue D acc = acc * 10 ^ D.length + n := by
  intro fuel
  induction fuel with
  | zero => intro n ds h; omega
  | succ fuel ih =>
    intro n ds h
    have hmod := digitChar_spec (n % 10) (Nat.mod_lt _ (by decide))
    by_cases hz : n / 10 = 0
    · refine ⟨[Nat.digitChar (n % 10)], by simp [Nat.toDigitsCore, hz], by simp, ?_, ?_⟩
      · intro c hc
        simp only [List.mem_singleton] at hc
        rw [hc]
        exact hmod.1
      · intro acc
        simp only [digitsValue, hmod.2, List.length_singleton, pow_one]
        omega
    · obtain ⟨D, h1, h2, h3, h4⟩ := ih (n / 10) (Nat.digitChar (n % 10) :: ds) (by omega)
      refine ⟨D ++ [Nat.digitChar (n % 10)], ?_, by simp, ?_, ?_⟩
      · simp only [Nat.toDigitsCore, hz, if_false, h1]
        simp
      · intro c hc
        rcases List.mem_append.mp hc with hc | hc
        · exact h3 c hc
        · simp only [List.mem_singleton] at hc
          rw [hc]
          exact hmod.1
      · intro acc
        rw [digitsValue_append, h4]
        simp only [digitsValue, hmod.2, List.length_append, List.length_singleton, pow_succ]
        have := Nat.div_add_mod n 10
        have hmul : acc * (10 ^ D.length * 10) = 10 * (acc * 10 ^ D.length) := by ring
        rw [hmul]
        omega

theorem takeWhile_digits (D rest : Str) (hD : ∀ c ∈ D, c.isDigit = true)
    (hrest : ∀ c, rest.head? = some c → c.isDigit = false) :
    (D ++ rest).takeWhile Char.isDigit = D ∧ (D ++ rest).dropWhile Char.isDigit = rest := by
  induction D with
  | nil =>
    cases rest with
    | nil => simp
    | cons c r =>
      have := hrest c rfl
      simp [List.takeWhile, List.dropWhile, this]
  | cons c D ih =>
    have hc := hD c (List.mem_cons_self _ _)
    obtain ⟨i1, i2⟩ := ih (fun x hx => hD x (List.mem_cons_of_mem _ hx))
    simp [List.takeWhile, List.dropWhile, hc, i1, i2]

theorem overflowFrom_large : 2 ^ 53 ≤ overflowFrom := by decide

/-- A whole number below `2 ^ 53` in magnitude is a `double`. -/
theorem exactRound_small (z : Int) (h : z.natAbs < 2 ^ 53) : exactRound z = some z := by
  have hov : ¬ overflowFrom ≤ z.natAbs := by
    have := overflowFrom_large
    omega
  have hr : roundNat z.natAbs = z.natAbs := if_pos h
  unfold exactRound
  rw [if_neg hov, hr]
  by_cases hneg : z < 0
  · rw [if_pos hneg]
    congr 1
    omega
  · rw [if_neg hneg]
    congr 1
    omega

/-- A whole number that is a `double` is below the overflow and is its own
rounding. -/
theorem exactRound_fixed (n : Int) (h : exactRound n = some n) :
    ¬ overflowFrom ≤ n.natAbs ∧ roundNat n.natAbs = n.natAbs := by
  unfold exactRound at h
  by_cases hov : overflowFrom ≤ n.natAbs
  · rw [if_pos hov] at h
    cases h
  · rw [if_neg hov] at h
    refine ⟨hov, ?_⟩
    by_cases hneg : n < 0
    · rw [if_pos hneg] at h
      have := Option.some.inj h
      omega
    · rw [if_neg hneg] at h
      have := Option.some.inj h
      omega

/-- The text of a whole number that is a `double` is a numeral that
`std::stod` reads back as the number. -/
theorem exact_integer_text (n : Int) (hn : exactRound n = some n) :
    isNumeral (exact.to_string (some n)) = true ∧
      exact.stod (exact.to_string (some n)) = some (some n) := by
  obtain ⟨hov, hround⟩ := exactRound_fixed n hn
  obtain ⟨D, h1, h2, h3, h4⟩ := toDigitsCore_spec (n.natAbs + 1) n.natAbs [] (by omega)
  have hD : Nat.toDigits 10 n.natAbs = D := by
    simpa [Nat.toDigits] using h1
  have hval : digitsValue D 0 = n.natAbs := by simpa using h4 0
  have hlit : isLiteral (D ++ ".000000".toList) = true := by
    simp only [isLiteral, Bool.and_eq_true, List.all_eq_true, List.any_eq_true,
      decide_eq_true_eq, List.mem_append, Bool.or_eq_true, beq_iff_eq]
    refine ⟨⟨?_, ?_⟩, ?_⟩
    · rintro c (hc | hc)
      · exact Or.inl (h3 c hc)
      · revert c
        decide
    · cases D with
      | nil => exact absurd rfl h2
      | cons c D1 => exact ⟨c, Or.inl (by simp), h3 c (by simp)⟩
    · have hzero : D.count '.' = 0 :=
        List.count_eq_zero_of_not_mem fun hm => by
          have := h3 '.' hm
          revert this
          decide
      rw [List.count_append, hzero]
      decide
  have htw := takeWhile_digits D ".000000".toList h3 (by decide)
  have hun : exactUnsigned (D ++ ".000000".toList) = some (n.natAbs, true) := by
    have hne : (D.isEmpty) = false := by
      cases D with
      | nil => exact absurd rfl h2
      | cons c D1 => rfl
    unfold exactUnsigned
    rw [htw.1, htw.2, hne]
    simp [hval]
  have hst : ∀ t, exact.stod t = exactStod t := fun _ => rfl
  cases D with
  | nil => exact absurd rfl h2
  | cons c D1 =>
    have hc := h3 c (by simp)
    have hc1 : c ≠ '-' := by rintro rfl; revert hc; decide
    have hc2 : c ≠ '+' := by rintro rfl; revert hc; decide
    by_cases hneg : n < 0
    · have hs : exact.to_string (some n) = '-' :: (c :: D1 ++ ".000000".toList) := by
        simp [exact, hneg, hD]
      rw [hs]
      refine ⟨isNumeral_minus hlit, ?_⟩
      rw [hst]
      have hnz : ¬ n.natAbs = 0 := by omega
      simp only [exactStod, if_true, exactSigned, hun, if_neg hov, if_neg hnz, hround,
        ↓reduceIte]
      congr 2
      omega
    · have hs : exact.to_string (some n) = c :: D1 ++ ".000000".toList := by
        simp [exact, hneg, hD]
      rw [hs]
      refine ⟨isNumeral_of_isLiteral hlit, ?_⟩
      rw [hst]
      have : exactStod (c :: D1 ++ ".000000".toList)
          = exactSigned false (c :: D1 ++ ".000000".toList) := by
        simp [exactStod, hc1, hc2]
      rw [this]
      simp only [exactSigned, hun, if_neg hov, hround, Bool.false_eq_true, if_false,
        ↓reduceIte]
      congr 2
      omega

/-- For every name and every whole number `n` that is a `double`, `calculate`
on the placeholder of the name followed by ` + 2` returns the rounded sum of
`n` and 2. -/
theorem placeholder_plus_two_exact (name m_rpn : Str) (n : Int) (hn : exactRound n = some n) :
    calculate exact ⟨quote :: name ++ quote :: [' ', '+', ' ', '2'], m_rpn⟩ [⟨name, some n⟩]
      = some (.ret (exactRound (n + 2)),
          ⟨exact.to_string (some n) ++ [' ', '+', ' ', '2'],
            joinQueue [exact.to_string (some n), ['2'], ['+']]⟩) := by
  obtain ⟨h1, h2⟩ := exact_integer_text n hn
  rw [placeholder_plus_two exact name m_rpn (some n) (some 2) h1 h2 (by decide)]
  rfl

/-- C14, refuted as stated: with the name `x` and `n = 2 ^ 54`, which is a
`double`, `calculate` on the placeholder of `x` followed by ` + 2` returns `n`
and not `n + 2`: the sum is half way between two neighbouring values of
`double` and is rounded to `2 ^ 54`. -/
theorem placeholder_plus_two_rounded :
    exactRound 18014398509481984 = some 18014398509481984 ∧
    calculate exact ⟨quote :: 'x' :: quote :: " + 2".toList, []⟩
        [⟨['x'], some 18014398509481984⟩]
      = some (.ret (some 18014398509481984),
          ⟨"18014398509481984.000000 + 2".toList,
            "18014398509481984.000000 2 + ".toList⟩) ∧
    ¬ (∀ (name : Str) (n : Int), exactRound n = some n →
        ∃ p, calculate exact ⟨quote :: name ++ quote :: [' ', '+', ' ', '2'], []⟩
          [⟨name, some n⟩] = some (.ret (some (n + 2)), p)) := by
  have h1 : exactRound 18014398509481984 = some 18014398509481984 := by decide
  have h2 : calculate exact ⟨quote :: 'x' :: quote :: " + 2".toList, []⟩
        [⟨['x'], some 18014398509481984⟩]
      = some (.ret (some 18014398509481984),
          ⟨"18014398509481984.000000 + 2".toList,
            "18014398509481984.000000 2 + ".toList⟩) := by decide
  refine ⟨h1, h2, ?_⟩
  intro h
  obtain ⟨p, hp⟩ := h ['x'] 18014398509481984 h1
  have hp1 : calculate exact ⟨quote :: 'x' :: quote :: " + 2".toList, []⟩
        [⟨['x'], some 18014398509481984⟩]
      = some (.ret (some (18014398509481984 + 2)), p) := hp
  rw [h2] at hp1
  revert hp1
  simp

/-- C14, amended: for every variable name and every value whose text is a
numeral that `std::stod` reads back as the value (as for every whole number
that is a `double`, negative ones with their leading minus included),
`calculate` on the expression made of the placeholder of the name followed by
` + 2`, with that single variable, returns the sum of the value and 2 as
`double` computes it, and the expression becomes the text of the value
followed by ` + 2`.  For a whole number `n` that is a `double` the result is
the rounded sum, which is `n + 2` when the magnitude of `n` plus 2 is below
`2 ^ 53`. -/
theorem calculate_placeholder_plus_two {α : Type} (A : Arith α) (name m_rpn : Str)
    (v two : α) (n : Int)
    (hnum : isNumeral (A.to_string v) = true) (hback : A.stod (A.to_string v) = some v)
    (htwo : A.stod ['2'] = some two) (hn : exactRound n = some n) :
    calculate A ⟨quote :: name ++ quote :: [' ', '+', ' ', '2'], m_rpn⟩ [⟨name, v⟩]
      = some (.ret (A.add v two),
          ⟨A.to_string v ++ [' ', '+', ' ', '2'],
            joinQueue [A.to_string v, ['2'], ['+']]⟩) ∧
    calculate exact ⟨quote :: name ++ quote :: [' ', '+', ' ', '2'], m_rpn⟩ [⟨name, some n⟩]
      = some (.ret (exactRound (n + 2)),
          ⟨exact.to_string (some n) ++ [' ', '+', ' ', '2'],
            joinQueue [exact.to_string (some n), ['2'], ['+']]⟩) ∧
    (n.natAbs + 2 < 2 ^ 53 → exactRound (n + 2) = some (n + 2)) := by
  refine ⟨placeholder_plus_two A name m_rpn v two hnum hback htwo,
    placeholder_plus_two_exact name m_rpn n hn, fun hlt => exactRound_small _ ?_⟩
  omega

/-- C14 at the name `x` with the values 5 and -5: 7 and -3. -/
theorem calculate_placeholder_plus_two_witness :
    calculate exact ⟨quote :: 'x' :: quote :: " + 2".toList, []⟩ [⟨['x'], some 5⟩]
      = some (.ret (some 7), ⟨"5.000000 + 2".toList, "5.000000 2 + ".toList⟩) ∧
    calculate exact ⟨quote :: 'x' :: quote :: " + 2".toList, []⟩ [⟨['x'], some (-5)⟩]
      = some (.ret (some (-3)), ⟨"-5.000000 + 2".toList, "-5.000000 2 + ".toList⟩) :=
  ⟨(calculate_placeholder_plus_two exact ['x'] [] (some 5) (some 2) 5 (by decide) (by decide)
      (by decide) (by decide)).1,
    (calculate_placeholder_plus_two exact ['x'] [] (some (-5)) (some 2) (-5) (by decide)
      (by decide) (by decide) (by decide)).1⟩

end MathExprParser
